import Mathlib

/-!
Verification of the treemap-go B+ tree (`treemap` package).

The Go source is a mutable, pointer-based B+ tree: interior nodes hold
parallel arrays `keys`/`nodes` of routing keys and children with a live
count `n`; leaves hold parallel arrays `keys`/`values` with a count `n`
and sibling pointers `next`/`prev` forming a doubly-linked list; the
container `Map` holds `root`, `front`, `back`, the element count `n`,
a comparator and a search routine.

The shallow embedding here is functional:

* node arrays are represented by their live prefix (a Lean list of
  length `n`); a read past the live prefix in Go returns the zero value
  (the "zero on vacate" discipline), which the embedding mirrors with
  `List.getD _ default`.  A second embedding (namespace `TreemapP`,
  further below) keeps the full 2D-slot arrays including the vacated
  slots and is used to verify the zero-on-vacate invariant itself;
* the leaf sibling pointers are positional: the leaf list is the
  in-order sequence `Node.leavesList` of leaves of the tree, `front`
  is its head, `back` its last element, and `next`/`prev` move between
  adjacent positions.  The Go code maintains the linked list exactly in
  this order (splits insert the new right sibling after its left half,
  merges unlink the right sibling), so the positional rendering is the
  same relation;
* an iterator is a leaf position (index into the leaf list) plus a slot
  index, mirroring the Go `(leaf pointer, idx)` pair;
* the comparator is instantiated as in `New` for `cmp.Ordered` keys: a
  `LinearOrder`, with `cmp.Compare x y < 0` rendered as `x < y` and
  `== 0` as `x = y`, and the `search` field is `linearSearchOrdered`;
* the descent loops of `Insert`, `Find`, `LowerBound` and `remove` are
  written with recursion fuel initialised to the tree height plus one;
  the descent moves down one level per step, so the fuel is never
  exhausted (the out-of-fuel branch is unreachable from the wrappers);
* Go `int` arithmetic on sizes is rendered over `Nat`; the only
  subtraction, the shift amount `(l+r+1)/2 - l`, is nonnegative
  whenever the remove descent applies it (the guards give `l ≤ 16 < r`).
-/

namespace Treemap

/-- Fan-out constant `keyDegr = 16` from the source. -/
def keyDegr : Nat := 16

/-- Maximum node size `maxNodes = 2 * keyDegr = 32`. -/
def maxNodes : Nat := 2 * keyDegr

/-- Minimum (non-root) node size `minNodes = keyDegr = 16`. -/
def minNodes : Nat := keyDegr

/-- `linearSearchOrdered keys target` returns `(i, found)`: `i` is the
first index whose key is `≥ target` (or `keys.length`), `found` is true
iff that key equals `target`.  Mirrors the Go loop, which tests
`key == target` and then `key > target` on each element. -/
def linearSearchOrdered {K : Type} [LinearOrder K] : List K → K → Nat × Bool
  | [], _ => (0, false)
  | key :: keys, target =>
    if key = target then (0, true)
    else if key > target then (0, false)
    else
      let r := linearSearchOrdered keys target
      (r.1 + 1, r.2)

/-- A B+ tree node: a leaf holds the live `(key, value)` pairs in slot
order; an interior node holds the live `(routing key, child)` pairs in
slot order (the Go parallel arrays `keys`/`values` resp. `keys`/`nodes`
zipped together, restricted to the first `n` slots). -/
inductive Node (K V : Type) where
  | leaf (kvs : List (K × V))
  | internal (cs : List (K × Node K V))

namespace Node

variable {K V : Type}

/-- `Size`: the live count `n` of the node. -/
def Size : Node K V → Nat
  | .leaf kvs => kvs.length
  | .internal cs => cs.length

/-- `LastKey`: `keys[n-1]`, the last live key (zero value on an empty
node, where Go would read a vacated slot). -/
def LastKey [Inhabited K] : Node K V → K
  | .leaf kvs => ((kvs.getLast?).map Prod.fst).getD default
  | .internal cs => ((cs.getLast?).map Prod.fst).getD default

/-- `IsFull`: the node has `maxNodes` live slots. -/
def IsFull (t : Node K V) : Bool := t.Size == maxNodes

/-- `Split` of a node of size `N` produces the left half (sizes
`N - N/2`) in place and returns the new right sibling (size `N/2`);
here both halves are returned.  For a leaf the Go code also links the
new sibling after the left half in the leaf list, which is the
positional placement used here. -/
def Split : Node K V → Node K V × Node K V
  | .leaf kvs =>
    (.leaf (kvs.take (kvs.length - kvs.length / 2)),
     .leaf (kvs.drop (kvs.length - kvs.length / 2)))
  | .internal cs =>
    (.internal (cs.take (cs.length - cs.length / 2)),
     .internal (cs.drop (cs.length - cs.length / 2)))

/-- `Merge` concatenates the right sibling onto the receiver.  The Go
code type-asserts that both siblings have the same kind; on the
ill-kinded pairs (unreachable on balanced trees) the receiver is
returned unchanged.  Leaf merges also unlink the right sibling from
the leaf list, which is positional here. -/
def Merge : Node K V → Node K V → Node K V
  | .leaf kvs, .leaf rkvs => .leaf (kvs ++ rkvs)
  | .internal cs, .internal rcs => .internal (cs ++ rcs)
  | t, _ => t

/-- `ShiftLeft l r n` moves the first `n` live entries of `r` to the
end of `l` (both results returned; ill-kinded pairs unchanged). -/
def ShiftLeft : Node K V → Node K V → Nat → Node K V × Node K V
  | .leaf kvs, .leaf rkvs, n => (.leaf (kvs ++ rkvs.take n), .leaf (rkvs.drop n))
  | .internal cs, .internal rcs, n => (.internal (cs ++ rcs.take n), .internal (rcs.drop n))
  | t, o, _ => (t, o)

/-- `ShiftRight l r n` moves the last `n` live entries of `l` to the
front of `r`. -/
def ShiftRight : Node K V → Node K V → Nat → Node K V × Node K V
  | .leaf kvs, .leaf rkvs, n =>
    (.leaf (kvs.take (kvs.length - n)), .leaf (kvs.drop (kvs.length - n) ++ rkvs))
  | .internal cs, .internal rcs, n =>
    (.internal (cs.take (cs.length - n)), .internal (cs.drop (cs.length - n) ++ rcs))
  | t, o, _ => (t, o)

/-- Leaf `InsertAt idx key value`: shift the tail right and write the
pair at `idx`. -/
def leafInsertAt (kvs : List (K × V)) (idx : Nat) (key : K) (value : V) : List (K × V) :=
  kvs.insertIdx idx (key, value)

/-- `SplitAt idx` on an interior node's child list: split child `idx`,
splice the right half in after it with the child's previous routing key
(`keys[idx+1] := keys[idx]` via the shift), and overwrite the routing
key at `idx` with the left half's last key. -/
def internalSplitAt [Inhabited K] (cs : List (K × Node K V)) (idx : Nat) :
    List (K × Node K V) :=
  match cs[idx]? with
  | none => cs
  | some c =>
    let lr := c.2.Split
    cs.take idx ++ (lr.1.LastKey, lr.1) :: (c.1, lr.2) :: cs.drop (idx + 1)

mutual

/-- Height of a node: 0 for leaves; interior nodes are one above their
tallest child. -/
def height : Node K V → Nat
  | .leaf _ => 0
  | .internal cs => 1 + heightList cs

/-- Height of the tallest node in a child list. -/
def heightList : List (K × Node K V) → Nat
  | [] => 0
  | c :: cs => max c.2.height (heightList cs)

end

mutual

/-- The in-order list of leaves of a tree.  This is exactly the leaf
linked list maintained by the Go code (`front` is its head, `back` its
last element, `next`/`prev` step between adjacent positions). -/
def leavesList : Node K V → List (List (K × V))
  | .leaf kvs => [kvs]
  | .internal cs => leavesListCs cs

/-- In-order leaves of a child list. -/
def leavesListCs : List (K × Node K V) → List (List (K × V))
  | [] => []
  | c :: cs => c.2.leavesList ++ leavesListCs cs

end

/-- All live `(key, value)` pairs of the subtree, in slot order. -/
def flatten (t : Node K V) : List (K × V) := t.leavesList.flatten

end Node

/-- The container: root node and element count.  `front` and `back`
are positional (head and last element of `Node.leavesList`), and the
comparator/search fields are fixed to the `New` instantiation
(`LinearOrder`, `linearSearchOrdered`). -/
structure Map (K V : Type) where
  root : Node K V
  n : Nat

/-- An iterator: the leaf list it walks, the position `node` of its
leaf in that list (the Go leaf pointer, positionally) and the slot
index `idx`. -/
structure Iterator (K V : Type) where
  leaves : List (List (K × V))
  node : Nat
  idx : Nat

namespace Iterator

variable {K V : Type}

/-- The live entries of the iterator's leaf. -/
def leafAt (it : Iterator K V) : List (K × V) := it.leaves.getD it.node []

/-- `Key`: read `node.keys[idx]`. -/
def Key [Inhabited K] [Inhabited V] (it : Iterator K V) : K :=
  (it.leafAt.getD it.idx default).1

/-- `Value`: read `node.values[idx]`. -/
def Value [Inhabited K] [Inhabited V] (it : Iterator K V) : V :=
  (it.leafAt.getD it.idx default).2

/-- `Begin`: index 0 of the front leaf (`prev == nil` is positional
position 0 in the leaf list). -/
def Begin (it : Iterator K V) : Bool := it.idx == 0 && it.node == 0

/-- `End`: index `n` of the back leaf (`next == nil` is positionally
the last leaf). -/
def End (it : Iterator K V) : Bool :=
  it.leafAt.length == it.idx && it.node + 1 == it.leaves.length

/-- `Next`: increment the index; on reaching `n` with a next leaf,
move to slot 0 of the next leaf. -/
def Next (it : Iterator K V) : Iterator K V :=
  let it2 : Iterator K V := { it with idx := it.idx + 1 }
  if it2.idx == it2.leafAt.length && it2.node + 1 < it2.leaves.length then
    { it2 with node := it2.node + 1, idx := 0 }
  else it2

/-- `Prev`: decrement the index, or move to the last slot of the
previous leaf (Go dereferences `prev`, a contract violation at
`Begin`; positionally `node - 1` truncates at 0). -/
def Prev (it : Iterator K V) : Iterator K V :=
  if it.idx == 0 then
    { it with node := it.node - 1, idx := (it.leaves.getD (it.node - 1) []).length - 1 }
  else { it with idx := it.idx - 1 }

/-- The pair sequence yielded by `Seq`: repeatedly apply `Next` until
`End`.  The fuel argument dominates the number of remaining entries;
callers pass one more than the total entry count. -/
def SeqList [Inhabited K] [Inhabited V] : Nat → Iterator K V → List (K × V)
  | 0, _ => []
  | fuel + 1, it =>
    if it.End then [] else (it.Key, it.Value) :: SeqList fuel it.Next

end Iterator

namespace Map

variable {K V : Type}

/-- `New`: a fresh map whose root is a single empty leaf (also serving
as `front` and `back`), with count 0. -/
def new : Map K V := ⟨.leaf [], 0⟩

/-- `Len`: the element count, O(1). -/
def Len (m : Map K V) : Nat := m.n

/-- `Begin`: iterator at index 0 of the front leaf. -/
def Begin (m : Map K V) : Iterator K V := ⟨m.root.leavesList, 0, 0⟩

/-- `End`: iterator at index `back.n` of the back leaf. -/
def End (m : Map K V) : Iterator K V :=
  let ls := m.root.leavesList
  ⟨ls, ls.length - 1, (ls.getLastD []).length⟩

/-- `Clear`: no-op when empty, otherwise install a fresh empty leaf as
root (and `front`/`back`) and zero the count. -/
def Clear (m : Map K V) : Map K V := if m.n == 0 then m else new

/-- The sequence of pairs yielded by iterating from `Begin` to `End`
(the loop body of `Keys`, `Values` and `Iterator.Seq`). -/
def toSeq [Inhabited K] [Inhabited V] (m : Map K V) : List (K × V) :=
  (m.Begin).SeqList (m.root.flatten.length + 1)

/-- `Keys`: the key projection of the iteration sequence. -/
def Keys [Inhabited K] [Inhabited V] (m : Map K V) : List K := m.toSeq.map Prod.fst

/-- `Values`: the value projection of the iteration sequence. -/
def Values [Inhabited K] [Inhabited V] (m : Map K V) : List V := m.toSeq.map Prod.snd

/-- `splitRoot`: split a full root and put an interior node of size 2
above the halves, with their last keys as routing keys. -/
def splitRoot (m : Map K V) [Inhabited K] : Map K V :=
  let lr := m.root.Split
  { m with root := .internal [(lr.1.LastKey, lr.1), (lr.2.LastKey, lr.2)] }

end Map

/-- Result of the `Insert` descent on a subtree: the updated subtree,
the number of leaves before the target leaf inside this subtree, the
slot index of the stored pair in that leaf, and the previous value when
the key was already present (`none` when a new pair was inserted). -/
structure InsRes (K V : Type) where
  node : Node K V
  lb : Nat
  idx : Nat
  old : Option V

variable {K V : Type}

/-- The extend-right-spine branch of `Insert`: the key is greater than
every routing key of the current interior node, so walk the right
spine, splitting a full last child inside its parent, overwrite the
last routing key with the new key at every level, and append the pair
at index `n` of the final leaf.  Takes and returns the child list of
the current interior node. -/
def insertMax [LinearOrder K] [Inhabited K] [Inhabited V] :
    Nat → List (K × Node K V) → K → V → (List (K × Node K V)) × Nat × Nat
  | 0, cs, _, _ => (cs, 0, 0)
  | fuel + 1, cs, key, value =>
    let cs1 :=
      if (cs.getLastD (default, .leaf [])).2.IsFull then
        Node.internalSplitAt cs (cs.length - 1)
      else cs
    let last := cs1.getLastD (default, .leaf [])
    let cs2 := cs1.set (cs1.length - 1) (key, last.2)
    match last.2 with
    | .leaf kvs =>
      let cs3 := cs2.set (cs2.length - 1) (key, .leaf (Node.leafInsertAt kvs kvs.length key value))
      (cs3, (Node.leavesListCs cs3.dropLast).length, kvs.length)
    | .internal ccs =>
      let r := insertMax fuel ccs key value
      let cs3 := cs2.set (cs2.length - 1) (key, .internal r.1)
      (cs3, (Node.leavesListCs cs3.dropLast).length + r.2.1, r.2.2)

/-- The `Insert` descent on a subtree whose root is not full: search,
either handle the leaf (replace or insert-at-index), take the
extend-right-spine branch when the key exceeds every routing key, or
pre-split a full child and descend. -/
def insertGo [LinearOrder K] [Inhabited K] [Inhabited V] :
    Nat → Node K V → K → V → InsRes K V
  | 0, t, _, _ => ⟨t, 0, 0, none⟩
  | _fuel + 1, .leaf kvs, key, value =>
    let r := linearSearchOrdered (kvs.map Prod.fst) key
    if r.2 then
      let old := kvs.getD r.1 (default, default)
      ⟨.leaf (kvs.set r.1 (old.1, value)), 0, r.1, some old.2⟩
    else
      ⟨.leaf (Node.leafInsertAt kvs r.1 key value), 0, r.1, none⟩
  | fuel + 1, .internal cs, key, value =>
    let i := (linearSearchOrdered (cs.map Prod.fst) key).1
    if i == cs.length then
      let r := insertMax (fuel + 1) cs key value
      ⟨.internal r.1, r.2.1, r.2.2, none⟩
    else
      let c := cs.getD i (default, .leaf [])
      if c.2.IsFull then
        let cs1 := Node.internalSplitAt cs i
        let j := if (cs1.getD i (default, .leaf [])).1 < key then i + 1 else i
        let cj := cs1.getD j (default, .leaf [])
        let r := insertGo fuel cj.2 key value
        let csF := cs1.set j (cj.1, r.node)
        ⟨.internal csF, (Node.leavesListCs (csF.take j)).length + r.lb, r.idx, r.old⟩
      else
        let r := insertGo fuel c.2 key value
        let csF := cs.set i (c.1, r.node)
        ⟨.internal csF, (Node.leavesListCs (csF.take i)).length + r.lb, r.idx, r.old⟩

/-- `Insert`: pre-split a full root, run the descent, rebuild the map
(count grows by one exactly when no previous value was replaced) and
return the iterator to the stored pair, the prior value (or zero) and
the replaced flag. -/
def Map.Insert [LinearOrder K] [Inhabited K] [Inhabited V] (m : Map K V) (key : K) (value : V) :
    Map K V × Iterator K V × V × Bool :=
  let m1 := if m.root.IsFull then m.splitRoot else m
  let r := insertGo (m1.root.height + 1) m1.root key value
  let m2 : Map K V := ⟨r.node, if r.old.isSome then m1.n else m1.n + 1⟩
  (m2, ⟨r.node.leavesList, r.lb, r.idx⟩, r.old.getD default, r.old.isSome)

/-- The `Find` descent: route by the first `n-1` routing keys
(`KeysForFindAndRemove`), full-search the leaf.  The map is threaded
through unchanged because the body contains no store to the container
or to any node. -/
def findGo [LinearOrder K] [Inhabited K] [Inhabited V] :
    Nat → Map K V → Node K V → K → Map K V × Option V
  | 0, m, _, _ => (m, none)
  | _fuel + 1, m, .leaf kvs, key =>
    let r := linearSearchOrdered (kvs.map Prod.fst) key
    if r.2 then (m, some (kvs.getD r.1 (default, default)).2) else (m, none)
  | fuel + 1, m, .internal cs, key =>
    let i := (linearSearchOrdered (cs.map Prod.fst).dropLast key).1
    findGo fuel m (cs.getD i (default, .leaf [])).2 key

/-- `Find`: returns the value under the key, or the absence signal. -/
def Map.Find [LinearOrder K] [Inhabited K] [Inhabited V] (m : Map K V) (key : K) :
    Map K V × Option V :=
  findGo (m.root.height + 1) m m.root key

/-- The `LowerBound` descent: route as `Find`; at the leaf take the
search index, and when it falls at `n` with a next leaf, move to slot 0
of the next leaf.  `lb` accumulates the leaf position of the reached
leaf in the map's leaf list. -/
def lowerBoundGo [LinearOrder K] [Inhabited K] (fuel : Nat) (m : Map K V) (t : Node K V) (key : K)
    (lb : Nat) : Map K V × Iterator K V :=
  match fuel, t with
  | 0, _ => (m, ⟨m.root.leavesList, 0, 0⟩)
  | _fuel + 1, .leaf kvs =>
    let i := (linearSearchOrdered (kvs.map Prod.fst) key).1
    let ls := m.root.leavesList
    if i == kvs.length && lb + 1 < ls.length then (m, ⟨ls, lb + 1, 0⟩)
    else (m, ⟨ls, lb, i⟩)
  | fuel + 1, .internal cs =>
    let i := (linearSearchOrdered (cs.map Prod.fst).dropLast key).1
    lowerBoundGo fuel m (cs.getD i (default, .leaf [])).2 key
      (lb + (Node.leavesListCs (cs.take i)).length)

/-- `LowerBound`: iterator at the smallest stored key `≥ key`, or the
end iterator. -/
def Map.LowerBound [LinearOrder K] [Inhabited K] (m : Map K V) (key : K) :
    Map K V × Iterator K V :=
  lowerBoundGo (m.root.height + 1) m m.root key 0

/-- A successful hit of the `remove` descent: the removed value, the
number of leaves before the target leaf in this subtree, the slot index
searched in the target leaf, and whether the removed slot was the new
`n` of its leaf (in which case the returned iterator moves to the next
leaf when one exists). -/
structure DelHit (V : Type) where
  old : V
  lb : Nat
  idx : Nat
  toNext : Bool

/-- Shift a hit's leaf position by the leaves before child `i`. -/
def addLb (cs : List (K × Node K V)) (i : Nat) : Option (DelHit V) → Option (DelHit V)
  | none => none
  | some h => some { h with lb := (Node.leavesListCs (cs.take i)).length + h.lb }

/-- `Map.shiftLeft node i`: move `(Lsz+Rsz+1)/2 - Lsz` entries from
`nodes[i]` into `nodes[i-1]` and refresh the routing key at `i-1` to
the left sibling's new last key. -/
def shiftLeftAt [Inhabited K] (cs : List (K × Node K V)) (i : Nat) : List (K × Node K V) :=
  let ln := cs.getD (i - 1) (default, .leaf [])
  let rn := cs.getD i (default, .leaf [])
  let nsh := (ln.2.Size + rn.2.Size + 1) / 2 - ln.2.Size
  let lr := ln.2.ShiftLeft rn.2 nsh
  (cs.set (i - 1) (lr.1.LastKey, lr.1)).set i (rn.1, lr.2)

/-- `Map.shiftRight node i`: move `(Lsz+Rsz+1)/2 - Rsz` entries from
`nodes[i]` into `nodes[i+1]` and refresh the routing key at `i` to the
left sibling's new last key. -/
def shiftRightAt [Inhabited K] (cs : List (K × Node K V)) (i : Nat) : List (K × Node K V) :=
  let ln := cs.getD i (default, .leaf [])
  let rn := cs.getD (i + 1) (default, .leaf [])
  let nsh := (ln.2.Size + rn.2.Size + 1) / 2 - rn.2.Size
  let lr := ln.2.ShiftRight rn.2 nsh
  (cs.set i (lr.1.LastKey, lr.1)).set (i + 1) (rn.1, lr.2)

/-- `Map.mergeNode node i`, non-root branch: merge `nodes[i+1]` into
`nodes[i]`, splice out slot `i+1`, refresh the routing key at `i` to
the merged node's last key.  The root branch (`m.root == node` with
exactly 2 children) lives in `Map.remove`: inside the descent the
current node is never the root with 2 minimum children, since the
wrapper collapses exactly that configuration before descending. -/
def mergeNodeAt [Inhabited K] (cs : List (K × Node K V)) (i : Nat) : List (K × Node K V) :=
  let merged := (cs.getD i (default, .leaf [])).2.Merge (cs.getD (i + 1) (default, .leaf [])).2
  (cs.eraseIdx (i + 1)).set i (merged.LastKey, merged)

/-- The `remove` descent with top-down proactive rebalancing: descend
into a child of size `> minNodes`, otherwise shift from the right or
the left sibling when one has size `> minNodes`, otherwise merge with
a sibling; at the leaf full-search the key and remove it when found. -/
def removeGo [LinearOrder K] [Inhabited K] [Inhabited V] :
    Nat → Node K V → K → Node K V × Option (DelHit V)
  | 0, t, _ => (t, none)
  | _fuel + 1, .leaf kvs, key =>
    let r := linearSearchOrdered (kvs.map Prod.fst) key
    if r.1 == kvs.length || !(key = (kvs.getD r.1 (default, default)).1) then
      (.leaf kvs, none)
    else
      let old := (kvs.getD r.1 (default, default)).2
      let kvs2 := kvs.eraseIdx r.1
      (.leaf kvs2, some ⟨old, 0, r.1, kvs2.length == r.1⟩)
  | fuel + 1, .internal cs, key =>
    let i := (linearSearchOrdered (cs.map Prod.fst).dropLast key).1
    let c := cs.getD i (default, .leaf [])
    if minNodes < c.2.Size then
      let r := removeGo fuel c.2 key
      let csF := cs.set i (c.1, r.1)
      (.internal csF, addLb csF i r.2)
    else if i + 1 < cs.length && minNodes < (cs.getD (i + 1) (default, .leaf [])).2.Size then
      let cs1 := shiftLeftAt cs (i + 1)
      let ci := cs1.getD i (default, .leaf [])
      let r := removeGo fuel ci.2 key
      let csF := cs1.set i (ci.1, r.1)
      (.internal csF, addLb csF i r.2)
    else if 0 < i && minNodes < (cs.getD (i - 1) (default, .leaf [])).2.Size then
      let cs1 := shiftRightAt cs (i - 1)
      let ci := cs1.getD i (default, .leaf [])
      let r := removeGo fuel ci.2 key
      let csF := cs1.set i (ci.1, r.1)
      (.internal csF, addLb csF i r.2)
    else if i + 1 < cs.length then
      let cs1 := mergeNodeAt cs i
      let ci := cs1.getD i (default, .leaf [])
      let r := removeGo fuel ci.2 key
      let csF := cs1.set i (ci.1, r.1)
      (.internal csF, addLb csF i r.2)
    else
      let cs1 := mergeNodeAt cs (i - 1)
      let ci := cs1.getD (i - 1) (default, .leaf [])
      let r := removeGo fuel ci.2 key
      let csF := cs1.set (i - 1) (ci.1, r.1)
      (.internal csF, addLb csF (i - 1) r.2)

/-- `remove`: collapse an interior root of exactly 2 minimum-size
children, run the descent, and build the returned iterator: the end
iterator on a miss; on a hit the slot left behind, moved to slot 0 of
the next leaf when the removed slot was at the new end of its leaf. -/
def Map.remove [LinearOrder K] [Inhabited K] [Inhabited V] (m : Map K V) (key : K) :
    Map K V × Iterator K V × V × Bool :=
  let m1 : Map K V :=
    match m.root with
    | .internal cs =>
      if cs.length == 2
          && (cs.getD 0 (default, .leaf [])).2.Size == minNodes
          && (cs.getD 1 (default, .leaf [])).2.Size == minNodes then
        ⟨(cs.getD 0 (default, .leaf [])).2.Merge (cs.getD 1 (default, .leaf [])).2, m.n⟩
      else m
    | .leaf _ => m
  let r := removeGo (m1.root.height + 1) m1.root key
  match r.2 with
  | none => (⟨r.1, m1.n⟩, Map.End ⟨r.1, m1.n⟩, default, false)
  | some h =>
    let m2 : Map K V := ⟨r.1, m1.n - 1⟩
    let ls := r.1.leavesList
    let it := if h.toNext && h.lb + 1 < ls.length then
        (⟨ls, h.lb + 1, 0⟩ : Iterator K V)
      else ⟨ls, h.lb, h.idx⟩
    (m2, it, h.old, true)

/-- `Remove`: the key-only view of `remove`. -/
def Map.Remove [LinearOrder K] [Inhabited K] [Inhabited V] (m : Map K V) (key : K) :
    Map K V × V × Bool :=
  let r := m.remove key
  (r.1, r.2.2)

namespace Node

mutual

/-- Replace the `j`-th in-order leaf of the tree by applying `f` to its
live entries (the in-place `RemoveAt` of `RemoveIter` on the leaf the
iterator points to). -/
def updateLeafAt : Node K V → Nat → (List (K × V) → List (K × V)) → Node K V
  | .leaf kvs, _, f => .leaf (f kvs)
  | .internal cs, j, f => .internal (updateLeafAtCs cs j f)

/-- `updateLeafAt` over a child list, skipping whole subtrees by their
leaf counts. -/
def updateLeafAtCs : List (K × Node K V) → Nat → (List (K × V) → List (K × V)) →
    List (K × Node K V)
  | [], _, _ => []
  | c :: cs, j, f =>
    let nl := c.2.leavesList.length
    if j < nl then (c.1, c.2.updateLeafAt j f) :: cs
    else c :: updateLeafAtCs cs (j - nl) f

end

end Node

/-- `RemoveIter`: unchanged at `End`; fall back to remove-by-key when
the iterator's leaf is not the root and holds exactly `minNodes`
entries (the leaf is not the root exactly when the root is interior,
for an iterator pointing into this map); otherwise remove in place in
the leaf and step to the next leaf when the removed slot was at the new
end of its leaf. -/
def Map.RemoveIter [LinearOrder K] [Inhabited K] [Inhabited V] (m : Map K V)
    (it : Iterator K V) : Map K V × Iterator K V :=
  if it.End then (m, it)
  else
    let fallback :=
      match m.root with
      | .internal _ => it.leafAt.length == minNodes
      | .leaf _ => false
    if fallback then
      let r := m.remove it.Key
      (r.1, r.2.1)
    else
      let root2 := m.root.updateLeafAt it.node (fun kvs => kvs.eraseIdx it.idx)
      let m2 : Map K V := ⟨root2, m.n - 1⟩
      let ls := root2.leavesList
      let it2 := if (ls.getD it.node []).length == it.idx && it.node + 1 < ls.length then
          (⟨ls, it.node + 1, 0⟩ : Iterator K V)
        else ⟨ls, it.node, it.idx⟩
      (m2, it2)

/-! ## Well-formedness invariants (spec §3 and §8)

The invariants are written as executable `Bool` predicates so that
concrete instances can be settled by `decide`. -/

/-- `k` is above the optional strict lower bound. -/
def lowOkB [LinearOrder K] : Option K → K → Bool
  | none, _ => true
  | some l, k => decide (l < k)

/-- `k` is below or at the optional upper bound. -/
def hiOkB [LinearOrder K] : K → Option K → Bool
  | _, none => true
  | k, some h => decide (k ≤ h)

/-- The key list is strictly increasing, every key above the strict
lower bound `lo` and at or below the upper bound `hi`. -/
def ordKeysB [LinearOrder K] : Option K → Option K → List K → Bool
  | _, _, [] => true
  | lo, hi, k :: ks => lowOkB lo k && hiOkB k hi && ordKeysB (some k) hi ks

mutual

/-- Ordering well-formedness of a subtree between bounds: leaf keys
strictly increasing within `(lo, hi]`; routing keys strictly increasing
within `(lo, hi]` with child `i` ordered within
`(routing[i-1], routing[i]]`.  This is the ordering discipline the code
maintains: a routing key is an upper bound for its child's subtree (not
necessarily its exact maximum — removals do not refresh it). -/
def Node.ordB [LinearOrder K] : Option K → Option K → Node K V → Bool
  | lo, hi, .leaf kvs => ordKeysB lo hi (kvs.map Prod.fst)
  | lo, hi, .internal cs => ordCsB lo hi cs

/-- `Node.ordB` over a child list, threading the previous routing key
as the next child's strict lower bound. -/
def ordCsB [LinearOrder K] : Option K → Option K → List (K × Node K V) → Bool
  | _, _, [] => true
  | lo, hi, c :: cs =>
    lowOkB lo c.1 && hiOkB c.1 hi && Node.ordB lo (some c.1) c.2 && ordCsB (some c.1) hi cs

end

mutual

/-- Size bounds (spec §8 invariant 3): every non-root node has size in
`[minNodes, maxNodes]`; a root leaf has size in `[0, maxNodes]`; a root
interior node has size in `[2, maxNodes]`. -/
def Node.sizeB : Bool → Node K V → Bool
  | isRoot, .leaf kvs =>
    decide (kvs.length ≤ maxNodes) && (isRoot || decide (minNodes ≤ kvs.length))
  | isRoot, .internal cs =>
    decide (cs.length ≤ maxNodes) &&
      (if isRoot then decide (2 ≤ cs.length) else decide (minNodes ≤ cs.length)) &&
      sizeCsB cs

/-- `Node.sizeB false` over a child list. -/
def sizeCsB : List (K × Node K V) → Bool
  | [] => true
  | c :: cs => Node.sizeB false c.2 && sizeCsB cs

end

/-- All children have the height of the first (all leaves of an
interior node live at the same depth). -/
def heightsOkB (cs : List (K × Node K V)) : Bool :=
  match cs with
  | [] => true
  | c :: rest => rest.all (fun d => d.2.height == c.2.height)

mutual

/-- Depth balance (spec §8 invariant 4): below every interior node all
children have equal height and are themselves balanced. -/
def Node.balB : Node K V → Bool
  | .leaf _ => true
  | .internal cs => heightsOkB cs && balCsB cs

/-- `Node.balB` over a child list. -/
def balCsB : List (K × Node K V) → Bool
  | [] => true
  | c :: cs => c.2.balB && balCsB cs

end

/-- Well-formed container: size bounds, ordering discipline, depth
balance, and the count equals the sum of leaf sizes. -/
def Map.WF [LinearOrder K] (m : Map K V) : Bool :=
  m.root.sizeB true && m.root.ordB none none && m.root.balB &&
    m.n == m.root.flatten.length

/-- The strictly-increasing test on a plain key list. -/
def strictIncB [LinearOrder K] : List K → Bool
  | [] => true
  | [_] => true
  | a :: b :: l => decide (a < b) && strictIncB (b :: l)

mutual

/-- The claimed exact-routing invariant: in every interior node,
`routing[i]` is the maximum key stored in the subtree of `child[i]`,
and the routing keys are strictly increasing. -/
def Node.routingExactB [LinearOrder K] : Node K V → Bool
  | .leaf _ => true
  | .internal cs => strictIncB (cs.map Prod.fst) && routingExactCsB cs

/-- `Node.routingExactB` over a child list. -/
def routingExactCsB [LinearOrder K] : List (K × Node K V) → Bool
  | [] => true
  | c :: cs =>
    ((c.2.flatten.map Prod.fst).max? == some c.1) && c.2.routingExactB && routingExactCsB cs

end

mutual

/-- The routing invariant the code actually maintains: in every
interior node the routing keys are strictly increasing and each one is
an upper bound for every key stored in its child's subtree. -/
def Node.routingUpperB [LinearOrder K] : Node K V → Bool
  | .leaf _ => true
  | .internal cs =>
    strictIncB (cs.map Prod.fst) && routingUpperCsB cs

/-- `Node.routingUpperB` over a child list. -/
def routingUpperCsB [LinearOrder K] : List (K × Node K V) → Bool
  | [] => true
  | c :: cs =>
    (c.2.flatten.map Prod.fst).all (fun k => decide (k ≤ c.1)) &&
      c.2.routingUpperB && routingUpperCsB cs

end

/-! ## Spec-side reference model -/

/-- Insertion into a sorted association list, replacing the value when
the key is present (the reference model for `Insert`). -/
def listInsert [LinearOrder K] (key : K) (value : V) : List (K × V) → List (K × V)
  | [] => [(key, value)]
  | e :: l =>
    if key = e.1 then (key, value) :: l
    else if key < e.1 then (key, value) :: e :: l
    else e :: listInsert key value l

/-! ## Concrete trees used as counterexample and witness inputs -/

/-- A full leaf: 32 pairs `(k, k+1)` for `k < 32`. -/
def leafFull : Node Nat Nat := .leaf ((List.range 32).map (fun k => (k, k + 1)))

/-- A 16-entry leaf holding keys `0..15`. -/
def leafSixteen : Node Nat Nat := .leaf ((List.range 16).map (fun k => (k, k + 1)))

/-- A 17-entry leaf holding keys `16..32`. -/
def leafSeventeen : Node Nat Nat := .leaf ((List.range 17).map (fun k => (k + 16, k + 17)))

/-- An 18-entry leaf holding keys `16..33`. -/
def leafEighteen : Node Nat Nat := .leaf ((List.range 18).map (fun k => (k + 16, k + 17)))

/-- A well-formed two-leaf map with exact routing keys: root
`[(15, leaves 0..15), (32, leaves 16..32)]`, 33 entries. -/
def mapTwoLeaves : Map Nat Nat := ⟨.internal [(15, leafSixteen), (32, leafSeventeen)], 33⟩

/-! ## C7 — sizes of the halves of a split -/

/-- Helper for C7/C8 frame lemmas: the sizes of the two halves of
`Split` on any node of size `maxNodes` are `Size - Size / 2` and
`Size / 2`. -/
theorem split_sizes {K V : Type} (t : Node K V) :
    (t.Split).1.Size = t.Size - t.Size / 2 ∧ (t.Split).2.Size = t.Size / 2 := by
  cases t <;> simp [Node.Split, Node.Size] <;> omega

/-- C7, counterexample: splitting a FULL node (size 32) — here the
root split performed by `Insert` on a full root — produces two halves
of size 16 = D each, which is MIN, not NORMAL (the claimed range
`D+1 .. 2D-1 = 17 .. 31`). -/
theorem claim7_counterexample :
    leafFull.IsFull = true ∧
      (leafFull.Split).1.Size = 16 ∧ (leafFull.Split).2.Size = 16 ∧
      ¬(keyDegr + 1 ≤ (leafFull.Split).1.Size ∧ (leafFull.Split).1.Size ≤ 2 * keyDegr - 1) := by
  decide

/-- C7, amended: whenever a FULL node (size 2D = 32) is split — the
only splits `Insert` performs, via `splitRoot` and `SplitAt`, are of
FULL nodes — the two resulting halves both have size exactly
D = 16, i.e. both are MIN (sizes `N - N/2` and `N/2`). -/
theorem claim7_amended {K V : Type} (t : Node K V) (h : t.Size = maxNodes) :
    (t.Split).1.Size = keyDegr ∧ (t.Split).2.Size = keyDegr := by
  obtain ⟨h1, h2⟩ := split_sizes t
  rw [h1, h2, h]
  decide

/-- Witness for C7 amended, at the concrete full leaf. -/
theorem claim7_witness :
    leafFull.Size = maxNodes ∧
      (leafFull.Split).1.Size = keyDegr ∧ (leafFull.Split).2.Size = keyDegr :=
  ⟨by decide, claim7_amended leafFull (by decide)⟩

/-! ## C8 — the shift-left balance -/

/-- C8, counterexample: in the remove descent's shift-left between a
left sibling of size `Lsz = 16` and a right sibling of size
`Rsz = 18`, the left sibling ends with 17 entries, not
`⌈(Lsz+Rsz+1)/2⌉ = ⌈35/2⌉ = 18` — the claimed formula (a genuine
ceiling, written `(Lsz+Rsz+1+1)/2` over `Nat`) overshoots whenever
`Lsz + Rsz` is even, and with it the two sizes would differ by 2. -/
theorem claim8_counterexample :
    ((shiftLeftAt [(15, leafSixteen), (33, leafEighteen)] 1).getD 0
        (default, .leaf [])).2.Size = 17 ∧
      (16 + 18 + 1 + 1) / 2 = 18 ∧ ¬((17 : Nat) = 18) := by
  decide

/-- C8, amended: under the remove-descent guards
(`Lsz ≤ minNodes < Rsz`), shift-left between two leaf siblings of
sizes `Lsz` and `Rsz` moves `(Lsz+Rsz+1)/2 - Lsz` entries; the left
(destination) sibling ends with `⌊(Lsz+Rsz+1)/2⌋ = ⌈(Lsz+Rsz)/2⌉`
entries, the sizes still sum to `Lsz + Rsz`, and they differ by at
most 1 with the larger half on the destination side.  The same
arithmetic holds for interior siblings. -/
theorem claim8_amended {K V : Type} (lkvs rkvs : List (K × V))
    (h1 : lkvs.length ≤ minNodes) (h2 : minNodes < rkvs.length) :
    (((Node.leaf lkvs).ShiftLeft (.leaf rkvs)
        (((Node.leaf lkvs).Size + (Node.leaf rkvs).Size + 1) / 2 -
          (Node.leaf lkvs).Size)).1.Size =
        (lkvs.length + rkvs.length + 1) / 2) ∧
      (((Node.leaf lkvs).ShiftLeft (.leaf rkvs)
          (((Node.leaf lkvs).Size + (Node.leaf rkvs).Size + 1) / 2 -
            (Node.leaf lkvs).Size)).2.Size =
        (lkvs.length + rkvs.length) - (lkvs.length + rkvs.length + 1) / 2) ∧
      ((lkvs.length + rkvs.length) - (lkvs.length + rkvs.length + 1) / 2 ≤
          (lkvs.length + rkvs.length + 1) / 2) ∧
      ((lkvs.length + rkvs.length + 1) / 2 -
          ((lkvs.length + rkvs.length) - (lkvs.length + rkvs.length + 1) / 2) ≤ 1) := by
  simp only [Node.ShiftLeft, Node.Size, List.length_append, List.length_take,
    List.length_drop]
  simp only [minNodes, keyDegr] at h1 h2
  omega

/-- Witness for C8 amended, at sizes 16 and 18 (ending balanced at
17 and 17). -/
theorem claim8_witness :
    (Node.leaf ((List.range 16).map (fun k => ((k : Nat), (k : Nat))))).Size ≤ minNodes ∧
      minNodes < (Node.leaf ((List.range 18).map (fun k => ((k + 16 : Nat), (k : Nat))))).Size ∧
      ((Node.leaf ((List.range 16).map (fun k => ((k : Nat), (k : Nat))))).ShiftLeft
          (.leaf ((List.range 18).map (fun k => ((k + 16 : Nat), (k : Nat)))))
          ((16 + 18 + 1) / 2 - 16)).1.Size = 17 := by
  refine ⟨by decide, by decide, ?_⟩
  have h := claim8_amended ((List.range 16).map (fun k => ((k : Nat), (k : Nat))))
    ((List.range 18).map (fun k => ((k + 16 : Nat), (k : Nat)))) (by decide) (by decide)
  simpa using h.1

/-! ## C10 — Find and LowerBound do not mutate

The Go bodies of `Find` and `LowerBound` contain no store to the
container or to any node; the embedding threads the container through
both descents, and the theorem checks that it comes back unchanged —
hence root, front and back (head and last of the leaf list), count and
every node's contents are those of the input map. -/

/-- The `Find` descent returns the threaded container unchanged. -/
theorem findGo_frame {K V : Type} [LinearOrder K] [Inhabited K] [Inhabited V]
    (fuel : Nat) (m : Map K V) (t : Node K V) (key : K) :
    (findGo fuel m t key).1 = m := by
  induction fuel generalizing t with
  | zero => rfl
  | succ fuel ih =>
    cases t with
    | leaf kvs =>
      simp only [findGo]
      split <;> rfl
    | internal cs => exact ih _

/-- The `LowerBound` descent returns the threaded container
unchanged. -/
theorem lowerBoundGo_frame {K V : Type} [LinearOrder K] [Inhabited K]
    (fuel : Nat) (m : Map K V) (t : Node K V) (key : K) (lb : Nat) :
    (lowerBoundGo fuel m t key lb).1 = m := by
  induction fuel generalizing t lb with
  | zero => rfl
  | succ fuel ih =>
    cases t with
    | leaf kvs =>
      simp only [lowerBoundGo]
      split <;> rfl
    | internal cs => exact ih _ _

/-- C10: `Find` and `LowerBound` leave the container entirely
unchanged — same root (hence the contents, sizes, routing keys,
children and positional sibling structure of every node), same derived
front/back leaves, same element count. -/
theorem claim10_find_lowerBound_frame {K V : Type} [LinearOrder K] [Inhabited K]
    [Inhabited V] (m : Map K V) (key : K) :
    (m.Find key).1 = m ∧ (m.LowerBound key).1 = m :=
  ⟨findGo_frame _ m m.root key, lowerBoundGo_frame _ m m.root key 0⟩

/-! ## C2 — the routing-key invariant -/

/-- C2, counterexample: `mapTwoLeaves` is well-formed and satisfies
the claimed exact-routing invariant (`routing[i]` is the exact maximum
of `child[i]`, routing keys strictly increasing), but after the public
operation `Remove 32` — which removes the maximum key of the second
leaf without refreshing the parent's routing key — the root keeps
routing key 32 over a subtree whose maximum is 31, so the exact-routing
invariant is violated. -/
theorem claim2_counterexample :
    mapTwoLeaves.WF = true ∧ mapTwoLeaves.root.routingExactB = true ∧
      ((mapTwoLeaves.Remove 32).1.root.routingExactB = false) ∧
      ((mapTwoLeaves.Remove 32).1.toSeq.map Prod.fst = List.range 32) := by
  refine ⟨by decide, by decide, by decide, by decide⟩

/-! ## Induction principle and basic algebra for the tree -/

mutual

/-- Structural induction over `Node`, with the inductive hypothesis
available for every child of an interior node. -/
theorem Node.recur {K V : Type} {motive : Node K V → Prop}
    (hleaf : ∀ kvs, motive (.leaf kvs))
    (hint : ∀ cs, (∀ c ∈ cs, motive c.2) → motive (.internal cs)) :
    ∀ t, motive t
  | .leaf kvs => hleaf kvs
  | .internal cs => hint cs (Node.recurList hleaf hint cs)

/-- Helper for `Node.recur`: the motive holds for every child in a
child list. -/
theorem Node.recurList {K V : Type} {motive : Node K V → Prop}
    (hleaf : ∀ kvs, motive (.leaf kvs))
    (hint : ∀ cs, (∀ c ∈ cs, motive c.2) → motive (.internal cs)) :
    ∀ (cs : List (K × Node K V)) (c : K × Node K V), c ∈ cs → motive c.2
  | _, d, .head _ => Node.recur hleaf hint d.2
  | _ :: cs, d, .tail _ h => Node.recurList hleaf hint cs d h

end

namespace Node

variable {K V : Type}

/-- Pairs of a child list's subtrees, in order. -/
def flattenCs (cs : List (K × Node K V)) : List (K × V) := (leavesListCs cs).flatten

@[simp]
theorem leavesList_leaf (kvs : List (K × V)) : (Node.leaf kvs).leavesList = [kvs] := rfl

@[simp]
theorem leavesList_internal (cs : List (K × Node K V)) :
    (Node.internal cs).leavesList = leavesListCs cs := by
  rw [leavesList]

@[simp]
theorem leavesListCs_nil : leavesListCs ([] : List (K × Node K V)) = [] := by
  rw [leavesListCs]

@[simp]
theorem leavesListCs_cons (c : K × Node K V) (cs : List (K × Node K V)) :
    leavesListCs (c :: cs) = c.2.leavesList ++ leavesListCs cs := by
  rw [leavesListCs]

@[simp]
theorem leavesListCs_append (l1 l2 : List (K × Node K V)) :
    leavesListCs (l1 ++ l2) = leavesListCs l1 ++ leavesListCs l2 := by
  induction l1 with
  | nil => simp
  | cons c cs ih => simp [ih]

@[simp]
theorem flatten_leaf (kvs : List (K × V)) : (Node.leaf kvs).flatten = kvs := by
  simp [flatten]

@[simp]
theorem flatten_internal (cs : List (K × Node K V)) :
    (Node.internal cs).flatten = flattenCs cs := rfl

@[simp]
theorem flattenCs_nil : flattenCs ([] : List (K × Node K V)) = [] := rfl

@[simp]
theorem flattenCs_cons (c : K × Node K V) (cs : List (K × Node K V)) :
    flattenCs (c :: cs) = c.2.flatten ++ flattenCs cs := by
  simp [flattenCs, flatten]

@[simp]
theorem flattenCs_append (l1 l2 : List (K × Node K V)) :
    flattenCs (l1 ++ l2) = flattenCs l1 ++ flattenCs l2 := by
  simp [flattenCs]

end Node

/-! ## Search characterization -/

section Search

variable {K : Type} [LinearOrder K]

theorem search_fst_le (keys : List K) (t : K) :
    (linearSearchOrdered keys t).1 ≤ keys.length := by
  induction keys with
  | nil => simp [linearSearchOrdered]
  | cons k ks ih =>
    simp only [linearSearchOrdered]
    split
    · simp
    · split
      · simp
      · simpa using ih

theorem search_eq_length_lt (keys : List K) (t : K)
    (h : (linearSearchOrdered keys t).1 = keys.length) : ∀ k ∈ keys, k < t := by
  induction keys with
  | nil => simp
  | cons k ks ih =>
    simp only [linearSearchOrdered] at h
    split at h
    · simp at h
    · split at h
      · simp at h
      · rename_i h1 h2
        simp only [List.length_cons, Nat.add_right_cancel_iff] at h
        intro a ha
        rcases List.mem_cons.1 ha with rfl | ha
        · exact lt_of_le_of_ne (le_of_not_lt h2) h1
        · exact ih h a ha

theorem search_fst_sorted (keys : List K) (t : K) (h : keys.Pairwise (· < ·)) :
    (linearSearchOrdered keys t).1 = keys.countP (fun k => decide (k < t)) := by
  induction keys with
  | nil => simp [linearSearchOrdered]
  | cons k ks ih =>
    have hk : ∀ a ∈ ks, k < a := fun a ha => (List.pairwise_cons.1 h).1 a ha
    have hks := (List.pairwise_cons.1 h).2
    simp only [linearSearchOrdered, List.countP_cons]
    split
    · rename_i he
      subst he
      have : ks.countP (fun a => decide (a < k)) = 0 := by
        rw [List.countP_eq_zero]
        intro a ha
        simp [not_lt.2 (le_of_lt (hk a ha))]
      simp [this]
    · split
      · rename_i h1 h2
        have : ks.countP (fun a => decide (a < t)) = 0 := by
          rw [List.countP_eq_zero]
          intro a ha
          simp [not_lt.2 (le_of_lt (lt_trans h2 (hk a ha)))]
        simp [this, not_lt.2 (le_of_lt h2)]
      · rename_i h1 h2
        have hkt : k < t := lt_of_le_of_ne (le_of_not_lt h2) h1
        simp [ih hks, hkt]

theorem search_snd_sorted (keys : List K) (t : K) (h : keys.Pairwise (· < ·)) :
    (linearSearchOrdered keys t).2 = decide (t ∈ keys) := by
  induction keys with
  | nil => simp [linearSearchOrdered]
  | cons k ks ih =>
    have hk : ∀ a ∈ ks, k < a := fun a ha => (List.pairwise_cons.1 h).1 a ha
    have hks := (List.pairwise_cons.1 h).2
    by_cases he : k = t
    · subst he
      simp [linearSearchOrdered]
    · by_cases hgt : k > t
      · have h1 : t ∉ ks := fun hmem => absurd (lt_trans hgt (hk t hmem)) (lt_irrefl t)
        have h2 : ¬t = k := fun hx => he hx.symm
        simp [linearSearchOrdered, he, hgt, h1, h2]
      · have h2 : ¬t = k := fun hx => he hx.symm
        simp [linearSearchOrdered, he, hgt, ih hks, h2]

theorem search_getD_of_found (keys : List K) (t d : K)
    (hf : (linearSearchOrdered keys t).2 = true) :
    keys.getD (linearSearchOrdered keys t).1 d = t ∧
      (linearSearchOrdered keys t).1 < keys.length := by
  induction keys with
  | nil => simp [linearSearchOrdered] at hf
  | cons k ks ih =>
    by_cases he : k = t
    · simp [linearSearchOrdered, he]
    · by_cases hgt : k > t
      · simp [linearSearchOrdered, he, hgt] at hf
      · simp only [linearSearchOrdered, if_neg he, if_neg hgt] at hf ⊢
        have := ih hf
        simpa using this

end Search

/-! ## Ordering-predicate algebra -/

section OrdAlg

variable {K V : Type} [LinearOrder K]

/-- The strict lower bound for the part of a list after `l`: the last
element of `l` when there is one, otherwise the incoming bound. -/
def olast (l : List K) (lo : Option K) : Option K :=
  match l.getLast? with
  | some x => some x
  | none => lo

@[simp] theorem olast_nil (lo : Option K) : olast [] lo = lo := rfl

theorem olast_cons (k : K) (l : List K) (lo : Option K) :
    olast (k :: l) lo = olast l (some k) := by
  cases l with
  | nil => simp [olast]
  | cons a l =>
    have hs : ((a :: l).getLast?).isSome := by
      rw [List.getLast?_isSome]
      simp
    obtain ⟨x, hx⟩ := Option.isSome_iff_exists.1 hs
    simp [olast, List.getLast?_cons_cons, hx]

theorem ordKeysB_lower {a : K} {hi : Option K} {l : List K}
    (h : ordKeysB (some a) hi l = true) : ∀ k ∈ l, a < k := by
  induction l generalizing a with
  | nil => simp
  | cons k ks ih =>
    simp only [ordKeysB, Bool.and_eq_true] at h
    obtain ⟨⟨hk, _⟩, hrest⟩ := h
    intro b hb
    rcases List.mem_cons.1 hb with rfl | hb
    · simpa [lowOkB] using hk
    · have hak : a < k := by simpa [lowOkB] using hk
      exact lt_trans hak (ih hrest b hb)

theorem ordKeysB_pairwise {lo hi : Option K} {l : List K}
    (h : ordKeysB lo hi l = true) : l.Pairwise (· < ·) := by
  induction l generalizing lo with
  | nil => simp
  | cons k ks ih =>
    simp only [ordKeysB, Bool.and_eq_true] at h
    obtain ⟨⟨_, _⟩, hrest⟩ := h
    exact List.pairwise_cons.2 ⟨ordKeysB_lower hrest, ih hrest⟩

theorem ordKeysB_upper {lo : Option K} {b : K} {l : List K}
    (h : ordKeysB lo (some b) l = true) : ∀ k ∈ l, k ≤ b := by
  induction l generalizing lo with
  | nil => simp
  | cons k ks ih =>
    simp only [ordKeysB, Bool.and_eq_true] at h
    obtain ⟨⟨_, hk⟩, hrest⟩ := h
    intro a ha
    rcases List.mem_cons.1 ha with rfl | ha
    · simpa [hiOkB] using hk
    · exact ih hrest a ha

theorem ordKeysB_append {lo hi : Option K} {l1 l2 : List K} :
    ordKeysB lo hi (l1 ++ l2) = true ↔
      ordKeysB lo hi l1 = true ∧ ordKeysB (olast l1 lo) hi l2 = true := by
  induction l1 generalizing lo with
  | nil => simp [ordKeysB]
  | cons k ks ih =>
    simp only [List.cons_append, ordKeysB, Bool.and_eq_true, olast_cons]
    constructor
    · rintro ⟨hb, hrest⟩
      have := ih.1 hrest
      exact ⟨⟨hb, this.1⟩, this.2⟩
    · rintro ⟨⟨hb, h1⟩, h2⟩
      exact ⟨hb, ih.2 ⟨h1, h2⟩⟩

theorem ordKeysB_mono_hi {lo hi hi2 : Option K} {l : List K}
    (h : ordKeysB lo hi l = true)
    (hmono : ∀ k : K, hiOkB k hi = true → hiOkB k hi2 = true) :
    ordKeysB lo hi2 l = true := by
  induction l generalizing lo with
  | nil => simp [ordKeysB]
  | cons k ks ih =>
    simp only [ordKeysB, Bool.and_eq_true] at h ⊢
    exact ⟨⟨h.1.1, hmono _ h.1.2⟩, ih h.2⟩

theorem ordKeysB_mono_lo {lo lo2 hi : Option K} {l : List K}
    (h : ordKeysB lo hi l = true)
    (hmono : ∀ k : K, lowOkB lo k = true → lowOkB lo2 k = true) :
    ordKeysB lo2 hi l = true := by
  cases l with
  | nil => simp [ordKeysB]
  | cons k ks =>
    simp only [ordKeysB, Bool.and_eq_true] at h ⊢
    exact ⟨⟨hmono _ h.1.1, h.1.2⟩, h.2⟩

theorem ordKeysB_glue {lo hi : Option K} {m : K} {l1 l2 : List K}
    (h1 : ordKeysB lo (some m) l1 = true) (h2 : ordKeysB (some m) hi l2 = true)
    (hm : hiOkB m hi = true) (hlo : ∀ x : K, m < x → lowOkB lo x = true) :
    ordKeysB lo hi (l1 ++ l2) = true := by
  induction l1 generalizing lo with
  | nil =>
    simp only [List.nil_append]
    refine ordKeysB_mono_lo h2 ?_
    intro k hk
    exact hlo k (by simpa [lowOkB] using hk)
  | cons k ks ih =>
    simp only [List.cons_append, ordKeysB, Bool.and_eq_true] at h1 ⊢
    have hkm : (k : K) ≤ m := by simpa [hiOkB] using h1.1.2
    refine ⟨⟨h1.1.1, ?_⟩, ?_⟩
    · cases hi with
      | none => simp [hiOkB]
      | some b =>
        have hmb : m ≤ b := by simpa [hiOkB] using hm
        simp only [hiOkB, decide_eq_true_eq]
        exact le_trans hkm hmb
    · refine ih h1.2 ?_
      intro x hx
      simp only [lowOkB, decide_eq_true_eq]
      exact lt_of_le_of_lt hkm hx

end OrdAlg

section OrdCs

variable {K V : Type} [LinearOrder K]

/-- `olast` over the routing keys of a child list. -/
def olastCs (cs : List (K × Node K V)) (lo : Option K) : Option K :=
  olast (cs.map Prod.fst) lo

@[simp] theorem olastCs_nil (lo : Option K) : olastCs ([] : List (K × Node K V)) lo = lo := rfl

theorem olastCs_cons (c : K × Node K V) (cs : List (K × Node K V)) (lo : Option K) :
    olastCs (c :: cs) lo = olastCs cs (some c.1) := by
  simp [olastCs, olast_cons]

theorem ordCsB_routing {lo hi : Option K} {cs : List (K × Node K V)}
    (h : ordCsB lo hi cs = true) : ordKeysB lo hi (cs.map Prod.fst) = true := by
  induction cs generalizing lo with
  | nil => simp [ordKeysB]
  | cons c cs ih =>
    simp only [ordCsB, Bool.and_eq_true] at h
    simp only [List.map_cons, ordKeysB, Bool.and_eq_true]
    exact ⟨⟨h.1.1.1, h.1.1.2⟩, ih h.2⟩

theorem ordCsB_append {lo hi : Option K} {l1 l2 : List (K × Node K V)} :
    ordCsB lo hi (l1 ++ l2) = true ↔
      ordCsB lo hi l1 = true ∧ ordCsB (olastCs l1 lo) hi l2 = true := by
  induction l1 generalizing lo with
  | nil => simp [ordCsB]
  | cons c cs ih =>
    simp only [List.cons_append, ordCsB, Bool.and_eq_true, olastCs_cons]
    constructor
    · rintro ⟨hb, hrest⟩
      have := ih.1 hrest
      exact ⟨⟨hb, this.1⟩, this.2⟩
    · rintro ⟨⟨hb, h1⟩, h2⟩
      exact ⟨hb, ih.2 ⟨h1, h2⟩⟩

theorem ordCsB_mono_hi {lo hi hi2 : Option K} {cs : List (K × Node K V)}
    (h : ordCsB lo hi cs = true)
    (hmono : ∀ k : K, hiOkB k hi = true → hiOkB k hi2 = true) :
    ordCsB lo hi2 cs = true := by
  induction cs generalizing lo with
  | nil => simp [ordCsB]
  | cons c cs ih =>
    simp only [ordCsB, Bool.and_eq_true] at h ⊢
    exact ⟨⟨⟨h.1.1.1, hmono _ h.1.1.2⟩, h.1.2⟩, ih h.2⟩

theorem ordCsB_mono_lo {lo lo2 hi : Option K} {cs : List (K × Node K V)}
    (h : ordCsB lo hi cs = true)
    (hmono : ∀ k : K, lowOkB lo k = true → lowOkB lo2 k = true)
    (hnode : ∀ c : K × Node K V, c ∈ cs.take 1 →
      c.2.ordB lo (some c.1) = true → c.2.ordB lo2 (some c.1) = true) :
    ordCsB lo2 hi cs = true := by
  cases cs with
  | nil => simp [ordCsB]
  | cons c cs =>
    simp only [ordCsB, Bool.and_eq_true] at h ⊢
    exact ⟨⟨⟨hmono _ h.1.1.1, h.1.1.2⟩, hnode c (by simp) h.1.2⟩, h.2⟩

end OrdCs

/-! ## Ordering of the flattened pair list -/

section OrdFlatten

variable {K V : Type} [LinearOrder K]

/-- The key sequence of a subtree's flattened pairs. -/
def keysOf (t : Node K V) : List K := t.flatten.map Prod.fst

/-- The key sequence of a child list's flattened pairs. -/
def keysOfCs (cs : List (K × Node K V)) : List K := (Node.flattenCs cs).map Prod.fst

@[simp] theorem keysOf_leaf (kvs : List (K × V)) :
    keysOf (Node.leaf kvs) = kvs.map Prod.fst := by simp [keysOf]

@[simp] theorem keysOf_internal (cs : List (K × Node K V)) :
    keysOf (Node.internal cs) = keysOfCs cs := by simp [keysOf, keysOfCs]

@[simp] theorem keysOfCs_nil : keysOfCs ([] : List (K × Node K V)) = [] := rfl

@[simp] theorem keysOfCs_cons (c : K × Node K V) (cs : List (K × Node K V)) :
    keysOfCs (c :: cs) = keysOf c.2 ++ keysOfCs cs := by simp [keysOfCs, keysOf]

@[simp] theorem keysOfCs_append (l1 l2 : List (K × Node K V)) :
    keysOfCs (l1 ++ l2) = keysOfCs l1 ++ keysOfCs l2 := by simp [keysOfCs]

/-- Keys of every subtree in a well-ordered child list fit the bounds
and come out sorted, as one `ordKeysB` fact about the concatenation. -/
theorem ordCsB_keysOf {lo hi : Option K} {cs : List (K × Node K V)}
    (hrec : ∀ c ∈ cs, ∀ lo2 hi2 : Option K, c.2.ordB lo2 hi2 = true →
      ordKeysB lo2 hi2 (keysOf c.2) = true)
    (h : ordCsB lo hi cs = true) : ordKeysB lo hi (keysOfCs cs) = true := by
  induction cs generalizing lo with
  | nil => simp [ordKeysB]
  | cons c cs ih =>
    simp only [ordCsB, Bool.and_eq_true] at h
    obtain ⟨⟨⟨hblo, hbhi⟩, hcord⟩, hrest⟩ := h
    simp only [keysOfCs_cons]
    refine ordKeysB_glue (hrec c (by simp) lo (some c.1) hcord)
      (ih (fun d hd => hrec d (by simp [hd])) hrest) hbhi ?_
    intro x hx
    cases lo with
    | none => simp [lowOkB]
    | some a =>
      have : a < c.1 := by simpa [lowOkB] using hblo
      simp only [lowOkB, decide_eq_true_eq]
      exact lt_trans this hx

/-- The keys of a well-ordered subtree are sorted and within bounds. -/
theorem ordB_keysOf {lo hi : Option K} {t : Node K V}
    (h : t.ordB lo hi = true) : ordKeysB lo hi (keysOf t) = true := by
  induction t using Node.recur generalizing lo hi with
  | hleaf kvs => simpa [Node.ordB] using h
  | hint cs ih =>
    simp only [Node.ordB] at h
    exact ordCsB_keysOf (fun c hc lo2 hi2 hord => ih c hc hord) h

end OrdFlatten

/-! ## Size and balance helpers -/

section SizeBal

variable {K V : Type}

theorem sizeCsB_append {l1 l2 : List (K × Node K V)} :
    sizeCsB (l1 ++ l2) = (sizeCsB l1 && sizeCsB l2) := by
  induction l1 with
  | nil => simp [sizeCsB]
  | cons c cs ih => simp [sizeCsB, ih, Bool.and_assoc]

theorem sizeCsB_mem {cs : List (K × Node K V)} (h : sizeCsB cs = true) :
    ∀ c ∈ cs, c.2.sizeB false = true := by
  induction cs with
  | nil => simp
  | cons c cs ih =>
    simp only [sizeCsB, Bool.and_eq_true] at h
    intro d hd
    rcases List.mem_cons.1 hd with rfl | hd
    · exact h.1
    · exact ih h.2 d hd

theorem balCsB_append {l1 l2 : List (K × Node K V)} :
    balCsB (l1 ++ l2) = (balCsB l1 && balCsB l2) := by
  induction l1 with
  | nil => simp [balCsB]
  | cons c cs ih => simp [balCsB, ih, Bool.and_assoc]

theorem balCsB_mem {cs : List (K × Node K V)} (h : balCsB cs = true) :
    ∀ c ∈ cs, c.2.balB = true := by
  induction cs with
  | nil => simp
  | cons c cs ih =>
    simp only [balCsB, Bool.and_eq_true] at h
    intro d hd
    rcases List.mem_cons.1 hd with rfl | hd
    · exact h.1
    · exact ih h.2 d hd

end SizeBal

/-! ## Iteration yields the flattened pair list -/

section Iteration

variable {K V : Type} [LinearOrder K] [Inhabited K] [Inhabited V]

/-- Walking `Next` until `End` from a normalized position `(li, idx)`
yields the rest of the leaf and then all later leaves, provided every
leaf is nonempty and the fuel exceeds the number of remaining pairs. -/
theorem SeqList_spec :
    ∀ (fuel : Nat) (ls : List (List (K × V))) (li idx : Nat),
      (∀ l ∈ ls, l ≠ []) → li < ls.length →
      (idx < (ls.getD li []).length ∨
        (idx = (ls.getD li []).length ∧ li + 1 = ls.length)) →
      ((ls.getD li []).length - idx + ((ls.drop (li + 1)).flatten).length < fuel) →
      Iterator.SeqList fuel ⟨ls, li, idx⟩ =
        (ls.getD li []).drop idx ++ (ls.drop (li + 1)).flatten
  | 0, ls, li, idx, _, _, _, hfuel => absurd hfuel (by omega)
  | fuel + 1, ls, li, idx, hne, hli, hnorm, hfuel => by
    by_cases hend : (Iterator.mk ls li idx).End = true
    · rw [Iterator.SeqList, if_pos hend]
      simp only [Iterator.End, Iterator.leafAt, Bool.and_eq_true, beq_iff_eq] at hend
      have h1 : idx = (ls.getD li []).length := hend.1.symm
      have h2 : li + 1 = ls.length := hend.2
      rw [List.drop_eq_nil_of_le (by omega), h2, List.drop_length]
      simp
    · have hidx : idx < (ls.getD li []).length := by
        rcases hnorm with h | ⟨h1, h2⟩
        · exact h
        · exact absurd (by simp [Iterator.End, Iterator.leafAt, h1, h2]) hend
      rw [Iterator.SeqList, if_neg hend]
      have hleaf : ls.getD li [] = ls[li] := List.getD_eq_getElem ls [] hli
      have hidx2 : idx < ls[li].length := hleaf ▸ hidx
      have hkey : (Iterator.mk ls li idx).Key = (ls[li][idx]).1 := by
        simp [Iterator.Key, Iterator.leafAt, List.getD, List.getElem?_eq_getElem hli,
          List.getElem?_eq_getElem hidx2]
      have hval : (Iterator.mk ls li idx).Value = (ls[li][idx]).2 := by
        simp [Iterator.Value, Iterator.leafAt, List.getD, List.getElem?_eq_getElem hli,
          List.getElem?_eq_getElem hidx2]
      have hdropleaf : (ls[li]).drop idx = ls[li][idx] :: (ls[li]).drop (idx + 1) :=
        (List.getElem_cons_drop _ _ hidx2).symm
      rw [hleaf] at hnorm hfuel ⊢
      by_cases hhop : (idx + 1 == (ls.getD li []).length && li + 1 < ls.length) = true
      · simp only [hleaf, Bool.and_eq_true, beq_iff_eq, decide_eq_true_eq] at hhop
        have hnext : (Iterator.mk ls li idx).Next = Iterator.mk ls (li + 1) 0 := by
          simp [Iterator.Next, Iterator.leafAt, List.getD, List.getElem?_eq_getElem hli,
            hhop.1, hhop.2]
        rw [hnext]
        have hli2 : li + 1 < ls.length := hhop.2
        have hleaf2 : ls.getD (li + 1) [] = ls[li + 1] := List.getD_eq_getElem ls [] hli2
        have hnorm2 : 0 < (ls.getD (li + 1) []).length ∨
            (0 = (ls.getD (li + 1) []).length ∧ li + 1 + 1 = ls.length) := by
          left
          rw [hleaf2]
          exact List.length_pos.2 (hne _ (List.getElem_mem hli2))
        have hdrop2 : ls.drop (li + 1) = ls[li + 1] :: ls.drop (li + 2) :=
          (List.getElem_cons_drop _ _ hli2).symm
        rw [SeqList_spec fuel ls (li + 1) 0 hne hli2 hnorm2 (by
          rw [hleaf2, show li + 1 + 1 = li + 2 from by omega]
          rw [hdrop2] at hfuel
          simp only [List.flatten_cons, List.length_append] at hfuel
          omega)]
        rw [hleaf2, hdrop2, hdropleaf]
        simp only [List.flatten_cons, List.drop_zero, hkey, hval]
        have hnil : (ls[li]).drop (idx + 1) = [] :=
          List.drop_eq_nil_of_le (by omega)
        rw [hnil]
        simp
      · have hnext : (Iterator.mk ls li idx).Next = Iterator.mk ls li (idx + 1) := by
          simp only [Iterator.Next, Iterator.leafAt]
          rw [if_neg hhop]
        rw [hnext]
        simp only [hleaf, Bool.and_eq_true, beq_iff_eq, decide_eq_true_eq, not_and] at hhop
        have hnorm2 : idx + 1 < (ls.getD li []).length ∨
            (idx + 1 = (ls.getD li []).length ∧ li + 1 = ls.length) := by
          rw [hleaf]
          by_cases h : idx + 1 < ls[li].length
          · exact Or.inl h
          · right
            have h1 : idx + 1 = ls[li].length := by omega
            have h2 := hhop h1
            omega
        rw [SeqList_spec fuel ls li (idx + 1) hne hli hnorm2 (by rw [hleaf]; omega)]
        rw [hleaf, hkey, hval, hdropleaf]
        rfl

/-- Every non-root node covers at least one leaf. -/
theorem leavesList_length_pos {t : Node K V} (h : t.sizeB false = true) :
    0 < t.leavesList.length := by
  induction t using Node.recur with
  | hleaf kvs => simp
  | hint cs ih =>
    simp only [Node.sizeB, Bool.and_eq_true] at h
    cases cs with
    | nil => simp [minNodes, keyDegr] at h
    | cons c cs2 =>
      have hc : c.2.sizeB false = true := sizeCsB_mem h.2 c (by simp)
      have := ih c (by simp) hc
      simp only [Node.leavesList_internal, Node.leavesListCs_cons, List.length_append]
      omega

/-- Every leaf below a non-root node is nonempty. -/
theorem sizeB_leavesNE {t : Node K V} (h : t.sizeB false = true) :
    ∀ l ∈ t.leavesList, l ≠ [] := by
  induction t using Node.recur with
  | hleaf kvs =>
    simp only [Node.sizeB, Bool.false_or, Bool.and_eq_true, decide_eq_true_eq] at h
    intro l hl
    simp only [Node.leavesList_leaf, List.mem_singleton] at hl
    subst hl
    intro hnil
    rw [hnil] at h
    simp [minNodes, keyDegr] at h
  | hint cs ih =>
    simp only [Node.sizeB, Bool.and_eq_true] at h
    intro l hl
    simp only [Node.leavesList_internal] at hl
    have : ∀ cs2 : List (K × Node K V), sizeCsB cs2 = true →
        (∀ c ∈ cs2, c.2.sizeB false = true → ∀ l2 ∈ c.2.leavesList, l2 ≠ []) →
        ∀ l2 ∈ Node.leavesListCs cs2, l2 ≠ [] := by
      intro cs2 hsz hih l2 hl2
      induction cs2 with
      | nil => simp at hl2
      | cons c cs3 ih2 =>
        simp only [sizeCsB, Bool.and_eq_true] at hsz
        simp only [Node.leavesListCs_cons, List.mem_append] at hl2
        rcases hl2 with h2 | h2
        · exact hih c (by simp) hsz.1 l2 h2
        · exact ih2 hsz.2 (fun d hd => hih d (by simp [hd])) h2
    exact this cs h.2 (fun c hc hsz => ih c hc hsz) l hl

/-- Under the container invariants, iterating from `Begin` until `End`
yields exactly the flattened pair list of the tree. -/
theorem toSeq_eq_flatten {m : Map K V} (h : m.WF = true) : m.toSeq = m.root.flatten := by
  simp only [Map.WF, Bool.and_eq_true] at h
  obtain ⟨⟨⟨hsz, _⟩, _⟩, _⟩ := h
  cases hroot : m.root with
  | leaf kvs =>
    by_cases hkvs : kvs = []
    · simp [Map.toSeq, Map.Begin, hroot, hkvs, Node.flatten, Node.leavesList,
        Iterator.SeqList, Iterator.End, Iterator.leafAt]
    · have hspec := SeqList_spec ((Node.leaf kvs).flatten.length + 1) [kvs] 0 0
        (by simp [hkvs]) (by simp) (Or.inl (by simp [List.length_pos.2 hkvs]))
        (by simp)
      simpa [Map.toSeq, Map.Begin, hroot, Node.flatten, Node.leavesList] using hspec
  | internal cs =>
    rw [hroot] at hsz
    simp only [Node.sizeB, Bool.and_eq_true, if_true] at hsz
    have hne : ∀ l ∈ Node.leavesListCs cs, l ≠ [] := by
      have haux : ∀ cs3 : List (K × Node K V), (∀ d ∈ cs3, d.2.sizeB false = true) →
          ∀ l2 ∈ Node.leavesListCs cs3, l2 ≠ [] := by
        intro cs3 hcs3 l2 hl2
        induction cs3 with
        | nil => simp at hl2
        | cons d ds ih2 =>
          simp only [Node.leavesListCs_cons, List.mem_append] at hl2
          rcases hl2 with h2 | h2
          · exact sizeB_leavesNE (hcs3 d (by simp)) l2 h2
          · exact ih2 (fun e he => hcs3 e (by simp [he])) h2
      exact haux cs (sizeCsB_mem hsz.2)
    have hlen : 0 < (Node.leavesListCs cs).length := by
      cases cs with
      | nil =>
        exfalso
        rcases hsz with ⟨⟨_, h2⟩, _⟩
        simp at h2
      | cons c cs2 =>
        have hc : c.2.sizeB false = true := sizeCsB_mem hsz.2 c (by simp)
        have := leavesList_length_pos hc
        simp only [Node.leavesListCs_cons, List.length_append]
        omega
    have hfirst : (Node.leavesListCs cs).getD 0 [] ∈ Node.leavesListCs cs := by
      rw [List.getD_eq_getElem _ [] hlen]
      exact List.getElem_mem hlen
    have hdecomp : Node.leavesListCs cs =
        (Node.leavesListCs cs).getD 0 [] :: (Node.leavesListCs cs).drop 1 := by
      rw [List.getD_eq_getElem _ [] hlen]
      exact (List.getElem_cons_drop _ _ hlen).symm
    have hflat : (Node.leavesListCs cs).flatten =
        (Node.leavesListCs cs).getD 0 [] ++ ((Node.leavesListCs cs).drop 1).flatten := by
      conv_lhs => rw [hdecomp]
      simp
    have hspec := SeqList_spec ((Node.internal cs).flatten.length + 1)
      (Node.leavesListCs cs) 0 0 hne hlen
      (Or.inl (List.length_pos.2 (hne _ hfirst)))
      (by
        simp only [Nat.sub_zero, Nat.zero_add]
        have : (Node.internal cs).flatten.length =
            ((Node.leavesListCs cs).getD 0 []).length +
              ((Node.leavesListCs cs).drop 1).flatten.length := by
          rw [show (Node.internal cs).flatten = (Node.leavesListCs cs).flatten from by
            simp [Node.flatten]]
          rw [hflat]
          simp
        omega)
    rw [Map.toSeq, Map.Begin, hroot]
    simp only [Node.leavesList_internal]
    rw [hspec]
    rw [show (Node.internal cs).flatten = (Node.leavesListCs cs).flatten from by
      simp [Node.flatten]]
    rw [hflat]
    simp

end Iteration

/-! ## The reference model: association lookup and sorted insertion -/

/-- Lookup in an association list (first match). -/
def lookupKV {K V : Type} [DecidableEq K] (key : K) : List (K × V) → Option V
  | [] => none
  | e :: l => if e.1 = key then some e.2 else lookupKV key l

section ListInsert

variable {K V : Type} [LinearOrder K]

theorem listInsert_ordKeys {lo hi : Option K} {kvs : List (K × V)} {key : K} {value : V}
    (h : ordKeysB lo hi (kvs.map Prod.fst) = true)
    (hklo : lowOkB lo key = true) (hkhi : hiOkB key hi = true) :
    ordKeysB lo hi ((listInsert key value kvs).map Prod.fst) = true := by
  induction kvs generalizing lo with
  | nil => simp [listInsert, ordKeysB, hklo, hkhi]
  | cons e l ih =>
    simp only [List.map_cons, ordKeysB, Bool.and_eq_true] at h
    obtain ⟨⟨helo, hehi⟩, hrest⟩ := h
    by_cases h1 : key = e.1
    · subst h1
      simp [listInsert, ordKeysB, helo, hehi, hrest]
    · by_cases h2 : key < e.1
      · simp only [listInsert, if_neg h1, if_pos h2, List.map_cons, ordKeysB,
          Bool.and_eq_true]
        exact ⟨⟨hklo, hkhi⟩, ⟨by simp [lowOkB, h2], hehi⟩, hrest⟩
      · have h3 : e.1 < key := lt_of_le_of_ne (not_lt.1 h2) (fun hx => h1 hx.symm)
        simp only [listInsert, if_neg h1, if_neg h2, List.map_cons, ordKeysB,
          Bool.and_eq_true]
        exact ⟨⟨helo, hehi⟩, ih hrest (by simp [lowOkB, h3])⟩

theorem lookupKV_eq_none {kvs : List (K × V)} {key : K}
    (h : key ∉ kvs.map Prod.fst) : lookupKV key kvs = none := by
  induction kvs with
  | nil => rfl
  | cons e l ih =>
    simp only [List.map_cons, List.mem_cons, not_or] at h
    have h3 : ¬e.1 = key := fun hx => h.1 hx.symm
    simp only [lookupKV, if_neg h3]
    exact ih h.2

theorem listInsert_length {kvs : List (K × V)} {key : K} (value : V)
    (hs : (kvs.map Prod.fst).Pairwise (· < ·)) :
    (listInsert key value kvs).length =
      if (lookupKV key kvs).isSome then kvs.length else kvs.length + 1 := by
  induction kvs with
  | nil => simp [listInsert, lookupKV]
  | cons e l ih =>
    simp only [List.map_cons, List.pairwise_cons] at hs
    by_cases h1 : key = e.1
    · simp [listInsert, lookupKV, h1]
    · by_cases h2 : key < e.1
      · have h3 : ¬e.1 = key := fun hx => h1 hx.symm
        have hnot : key ∉ l.map Prod.fst := fun hmem =>
          absurd (lt_trans h2 (hs.1 key hmem)) (lt_irrefl key)
        simp only [listInsert, if_neg h1, if_pos h2, lookupKV, if_neg h3]
        simp [lookupKV_eq_none hnot]
      · have h3 : ¬e.1 = key := fun hx => h1 hx.symm
        simp only [listInsert, if_neg h1, if_neg h2, lookupKV, if_neg h3, List.length_cons]
        rw [ih hs.2]
        split <;> simp

theorem lookupKV_append {kvs1 kvs2 : List (K × V)} {key : K} :
    lookupKV key (kvs1 ++ kvs2) =
      match lookupKV key kvs1 with
      | some v => some v
      | none => lookupKV key kvs2 := by
  induction kvs1 with
  | nil => simp [lookupKV]
  | cons e l ih =>
    by_cases h : e.1 = key
    · simp [lookupKV, h]
    · simp only [List.cons_append, lookupKV, if_neg h]
      exact ih

theorem listInsert_append_right {l1 l2 : List (K × V)} {key : K} {value : V}
    (h : ∀ k ∈ l1.map Prod.fst, k < key) :
    listInsert key value (l1 ++ l2) = l1 ++ listInsert key value l2 := by
  induction l1 with
  | nil => simp
  | cons e l ih =>
    have he : e.1 < key := h e.1 (by simp)
    have h1 : ¬key = e.1 := fun hx => absurd (hx ▸ he) (lt_irrefl _)
    have h2 : ¬key < e.1 := not_lt.2 (le_of_lt he)
    simp only [List.cons_append, listInsert, if_neg h1, if_neg h2, List.append_eq]
    rw [ih (fun k hk => h k (by simp [hk]))]

theorem listInsert_append_left {l1 l2 : List (K × V)} {key : K} {value : V}
    (h : ∀ k ∈ l2.map Prod.fst, key < k) :
    listInsert key value (l1 ++ l2) = listInsert key value l1 ++ l2 := by
  induction l1 with
  | nil =>
    cases l2 with
    | nil => simp
    | cons e l =>
      have he : key < e.1 := h e.1 (by simp)
      have h1 : ¬key = e.1 := ne_of_lt he
      simp [listInsert, if_neg h1, if_pos he]
  | cons e l ih =>
    by_cases h1 : key = e.1
    · simp [listInsert, h1]
    · by_cases h2 : key < e.1
      · simp [listInsert, if_neg h1, if_pos h2]
      · simp only [List.cons_append, listInsert, if_neg h1, if_neg h2, List.cons_append,
          List.append_eq]
        rw [ih]

/-- The found branch of the leaf insert (`values[i] = value`) computes
`listInsert`. -/
theorem leaf_set_eq_listInsert {kvs : List (K × V)} {key : K} {value : V} {d : K × V}
    (hs : (kvs.map Prod.fst).Pairwise (· < ·))
    (hf : (linearSearchOrdered (kvs.map Prod.fst) key).2 = true) :
    kvs.set (linearSearchOrdered (kvs.map Prod.fst) key).1
        ((kvs.getD (linearSearchOrdered (kvs.map Prod.fst) key).1 d).1, value) =
      listInsert key value kvs := by
  induction kvs with
  | nil => simp [linearSearchOrdered] at hf
  | cons e l ih =>
    simp only [List.map_cons, List.pairwise_cons] at hs
    by_cases h1 : e.1 = key
    · simp [linearSearchOrdered, h1, listInsert]
    · by_cases h2 : e.1 > key
      · simp [linearSearchOrdered, h1, h2] at hf
      · have h1x : ¬key = e.1 := fun hx => h1 hx.symm
        have h2x : ¬key < e.1 := h2
        simp only [List.map_cons, linearSearchOrdered, if_neg h1, if_neg h2] at hf ⊢
        simp only [listInsert, if_neg h1x, if_neg h2x, List.set_cons_succ,
          List.getD_cons_succ]
        rw [ih hs.2 hf]

/-- The found branch returns the stored value: `lookupKV` agrees with
the slot read. -/
theorem leaf_found_lookup {kvs : List (K × V)} {key : K} {d : K × V}
    (hs : (kvs.map Prod.fst).Pairwise (· < ·))
    (hf : (linearSearchOrdered (kvs.map Prod.fst) key).2 = true) :
    lookupKV key kvs =
      some (kvs.getD (linearSearchOrdered (kvs.map Prod.fst) key).1 d).2 ∧
      (kvs.getD (linearSearchOrdered (kvs.map Prod.fst) key).1 d).1 = key := by
  induction kvs with
  | nil => simp [linearSearchOrdered] at hf
  | cons e l ih =>
    simp only [List.map_cons, List.pairwise_cons] at hs
    by_cases h1 : e.1 = key
    · simp [linearSearchOrdered, h1, lookupKV]
    · by_cases h2 : e.1 > key
      · simp [linearSearchOrdered, h1, h2] at hf
      · simp only [List.map_cons, linearSearchOrdered, if_neg h1, if_neg h2] at hf ⊢
        simp only [List.getD_cons_succ, lookupKV, if_neg h1]
        exact ih hs.2 hf

/-- The not-found branch: the key is absent. -/
theorem leaf_notfound_lookup {kvs : List (K × V)} {key : K}
    (hs : (kvs.map Prod.fst).Pairwise (· < ·))
    (hf : (linearSearchOrdered (kvs.map Prod.fst) key).2 = false) :
    lookupKV key kvs = none := by
  rw [search_snd_sorted _ _ hs] at hf
  refine lookupKV_eq_none ?_
  simpa using hf

/-- The not-found branch of the leaf insert (`InsertAt i`) computes
`listInsert`. -/
theorem leaf_insertIdx_eq_listInsert {kvs : List (K × V)} {key : K} {value : V}
    (hs : (kvs.map Prod.fst).Pairwise (· < ·))
    (hf : (linearSearchOrdered (kvs.map Prod.fst) key).2 = false) :
    kvs.insertIdx (linearSearchOrdered (kvs.map Prod.fst) key).1 (key, value) =
      listInsert key value kvs := by
  induction kvs with
  | nil => simp [linearSearchOrdered, listInsert]
  | cons e l ih =>
    simp only [List.map_cons, List.pairwise_cons] at hs
    by_cases h1 : e.1 = key
    · simp [linearSearchOrdered, h1] at hf
    · by_cases h2 : e.1 > key
      · have h1x : ¬key = e.1 := fun hx => h1 hx.symm
        have h2x : key < e.1 := h2
        simp only [List.map_cons, linearSearchOrdered, if_neg h1, if_pos h2]
        simp [listInsert, if_neg h1x, if_pos h2x, List.insertIdx]
      · have h1x : ¬key = e.1 := fun hx => h1 hx.symm
        have h2x : ¬key < e.1 := h2
        simp only [List.map_cons, linearSearchOrdered, if_neg h1, if_neg h2] at hf ⊢
        simp only [listInsert, if_neg h1x, if_neg h2x]
        rw [List.insertIdx_succ_cons]
        rw [ih hs.2 hf]

end ListInsert

/-! ## Split ordering -/

section SplitOrd

variable {K V : Type} [LinearOrder K]

theorem olast_some_mem {l : List K} (h : l ≠ []) (lo : Option K) :
    ∃ x, olast l lo = some x ∧ x ∈ l := by
  have hs : (l.getLast?).isSome := List.getLast?_isSome.2 h
  obtain ⟨x, hx⟩ := Option.isSome_iff_exists.1 hs
  exact ⟨x, by simp [olast, hx], List.mem_of_mem_getLast? hx⟩

theorem ordKeysB_self_last {lo hi : Option K} {l : List K}
    (h : ordKeysB lo hi l = true) : ordKeysB lo (olast l lo) l = true := by
  induction l generalizing lo with
  | nil => simp [ordKeysB]
  | cons k ks ih =>
    simp only [ordKeysB, Bool.and_eq_true] at h
    obtain ⟨⟨hklo, _⟩, hrest⟩ := h
    rw [olast_cons]
    simp only [ordKeysB, Bool.and_eq_true]
    refine ⟨⟨hklo, ?_⟩, ih hrest⟩
    cases hks : ks with
    | nil => simp [olast, hiOkB]
    | cons b bs =>
      obtain ⟨x, hx, hxm⟩ := olast_some_mem (l := ks) (by simp [hks]) (some k)
      rw [hks] at hx hxm
      rw [hx]
      have : k < x := ordKeysB_lower (hks ▸ hrest) x hxm
      simp [hiOkB, le_of_lt this]

theorem ordCsB_self_last {lo hi : Option K} {cs : List (K × Node K V)}
    (h : ordCsB lo hi cs = true) : ordCsB lo (olastCs cs lo) cs = true := by
  induction cs generalizing lo with
  | nil => simp [ordCsB]
  | cons c cs2 ih =>
    simp only [ordCsB, Bool.and_eq_true] at h
    obtain ⟨⟨⟨hclo, _⟩, hord⟩, hrest⟩ := h
    rw [olastCs_cons]
    simp only [ordCsB, Bool.and_eq_true]
    refine ⟨⟨⟨hclo, ?_⟩, hord⟩, ih hrest⟩
    cases hcs : cs2 with
    | nil => simp [olastCs, olast, hiOkB]
    | cons b bs =>
      obtain ⟨x, hx, hxm⟩ := olast_some_mem (l := cs2.map Prod.fst)
        (by simp [hcs]) (some c.1)
      rw [hcs] at hx hxm
      rw [show olastCs (b :: bs) (some c.1) = olast ((b :: bs).map Prod.fst) (some c.1)
        from rfl, hx]
      have hxlt : c.1 < x :=
        ordKeysB_lower (ordCsB_routing (hcs ▸ hrest)) x hxm
      simp [hiOkB, le_of_lt hxlt]

theorem LastKey_leaf_olast [Inhabited K] {kvs : List (K × V)} (h : kvs ≠ [])
    (lo : Option K) :
    olast (kvs.map Prod.fst) lo = some ((Node.leaf kvs : Node K V).LastKey) := by
  have hs : (kvs.getLast?).isSome := List.getLast?_isSome.2 h
  obtain ⟨x, hx⟩ := Option.isSome_iff_exists.1 hs
  simp [olast, List.getLast?_map, hx, Node.LastKey]

theorem LastKey_internal_olastCs [Inhabited K] {cs : List (K × Node K V)} (h : cs ≠ [])
    (lo : Option K) :
    olastCs cs lo = some ((Node.internal cs : Node K V).LastKey) := by
  have hs : (cs.getLast?).isSome := List.getLast?_isSome.2 h
  obtain ⟨x, hx⟩ := Option.isSome_iff_exists.1 hs
  simp [olastCs, olast, List.getLast?_map, hx, Node.LastKey]

/-- Ordering facts for the two halves of a split of a node whose two
halves are both nonempty: the left half is bounded by its own last
key, the right half lives strictly above it, the last key of the left
half respects the node's bounds, and it lies strictly below any key
of the right half (hence strictly below an upper bound that the right
half can reach). -/
theorem split_ord [Inhabited K] {t : Node K V} {lo hi : Option K}
    (hord : t.ordB lo hi = true) (hsz : 4 ≤ t.Size) :
    ((t.Split).1).ordB lo (some (t.Split).1.LastKey) = true ∧
      ((t.Split).2).ordB (some (t.Split).1.LastKey) hi = true ∧
      lowOkB lo ((t.Split).1.LastKey) = true ∧
      hiOkB ((t.Split).1.LastKey) hi = true ∧
      (∀ b : K, hi = some b → (t.Split).1.LastKey < b) := by
  cases t with
  | leaf kvs =>
    simp only [Node.Size] at hsz
    have hlen2 : kvs.length - kvs.length / 2 < kvs.length := by omega
    have htne : kvs.take (kvs.length - kvs.length / 2) ≠ [] := by
      intro hx
      have := congrArg List.length hx
      simp only [List.length_take, List.length_nil] at this
      omega
    have hdne : kvs.drop (kvs.length - kvs.length / 2) ≠ [] := by
      intro hx
      have := congrArg List.length hx
      simp only [List.length_drop, List.length_nil] at this
      omega
    simp only [Node.Split, Node.ordB] at *
    set m := kvs.length - kvs.length / 2 with hm
    have hsplit : kvs.map Prod.fst =
        (kvs.take m).map Prod.fst ++ (kvs.drop m).map Prod.fst := by
      rw [← List.map_append, List.take_append_drop]
    rw [hsplit] at hord
    obtain ⟨h1, h2⟩ := ordKeysB_append.1 hord
    have holast : olast ((kvs.take m).map Prod.fst) lo =
        some ((Node.leaf (kvs.take m) : Node K V).LastKey) :=
      LastKey_leaf_olast htne lo
    have h1b := ordKeysB_self_last h1
    rw [holast] at h1b h2
    obtain ⟨x, hx, hxm⟩ := olast_some_mem
      (l := (kvs.drop m).map Prod.fst) (by simpa using hdne)
      (some ((Node.leaf (kvs.take m) : Node K V).LastKey))
    have hLK_mem : (Node.leaf (kvs.take m) : Node K V).LastKey ∈
        (kvs.take m).map Prod.fst := by
      obtain ⟨y, hy, hym⟩ := olast_some_mem (l := (kvs.take m).map Prod.fst)
        (by simpa using htne) lo
      rw [holast] at hy
      cases hy
      exact hym
    refine ⟨h1b, h2, ?_, ?_, ?_⟩
    · cases lo with
      | none => simp [lowOkB]
      | some a =>
        have hall := ordKeysB_lower h1
        simpa [lowOkB] using hall _ hLK_mem
    · cases hi with
      | none => simp [hiOkB]
      | some b =>
        have hup := ordKeysB_upper h1 _ hLK_mem
        simpa [hiOkB] using hup
    · intro b hb
      subst hb
      have hfirst := ordKeysB_lower h2 x hxm
      have hxb := ordKeysB_upper h2 x hxm
      exact lt_of_lt_of_le hfirst hxb
  | internal cs =>
    simp only [Node.Size] at hsz
    have hlen2 : cs.length - cs.length / 2 < cs.length := by omega
    have htne : cs.take (cs.length - cs.length / 2) ≠ [] := by
      intro hx
      have := congrArg List.length hx
      simp only [List.length_take, List.length_nil] at this
      omega
    have hdne : cs.drop (cs.length - cs.length / 2) ≠ [] := by
      intro hx
      have := congrArg List.length hx
      simp only [List.length_drop, List.length_nil] at this
      omega
    simp only [Node.Split, Node.ordB] at *
    set m := cs.length - cs.length / 2 with hm
    have hsplit : cs = cs.take m ++ cs.drop m := (List.take_append_drop m cs).symm
    rw [hsplit] at hord
    obtain ⟨h1, h2⟩ := ordCsB_append.1 hord
    have holast : olastCs (cs.take m) lo =
        some ((Node.internal (cs.take m) : Node K V).LastKey) :=
      LastKey_internal_olastCs htne lo
    have h1b := ordCsB_self_last h1
    rw [holast] at h1b h2
    have hLK_mem : (Node.internal (cs.take m) : Node K V).LastKey ∈
        (cs.take m).map Prod.fst := by
      obtain ⟨y, hy, hym⟩ := olast_some_mem (l := (cs.take m).map Prod.fst)
        (by simpa using htne) lo
      rw [show olastCs (cs.take m) lo = olast ((cs.take m).map Prod.fst) lo from rfl] at holast
      rw [holast] at hy
      cases hy
      exact hym
    obtain ⟨x, hx, hxm⟩ := olast_some_mem
      (l := (cs.drop m).map Prod.fst) (by simpa using hdne)
      (some ((Node.internal (cs.take m) : Node K V).LastKey))
    refine ⟨h1b, h2, ?_, ?_, ?_⟩
    · cases lo with
      | none => simp [lowOkB]
      | some a =>
        have hall := ordKeysB_lower (ordCsB_routing h1)
        simpa [lowOkB] using hall _ hLK_mem
    · cases hi with
      | none => simp [hiOkB]
      | some b =>
        have hup := ordKeysB_upper (ordCsB_routing h1) _ hLK_mem
        simpa [hiOkB] using hup
    · intro b hb
      subst hb
      have hfirst := ordKeysB_lower (ordCsB_routing h2) x hxm
      have hxb := ordKeysB_upper (ordCsB_routing h2) x hxm
      exact lt_of_lt_of_le hfirst hxb

end SplitOrd

/-! ## Heights, sizes and balance of split halves -/

section SplitAux

variable {K V : Type}

theorem heightsOkB_iff {cs : List (K × Node K V)} :
    heightsOkB cs = true ↔ ∀ c ∈ cs, ∀ d ∈ cs, c.2.height = d.2.height := by
  cases cs with
  | nil => simp [heightsOkB]
  | cons c rest =>
    simp only [heightsOkB, List.all_eq_true, beq_iff_eq]
    constructor
    · intro h a ha b hb
      have hval : ∀ e ∈ c :: rest, e.2.height = c.2.height := by
        intro e he
        rcases List.mem_cons.1 he with rfl | he
        · rfl
        · exact h e he
      rw [hval a ha, hval b hb]
    · intro h a ha
      exact h a (by simp [ha]) c (by simp)

theorem heightsOkB_sublist {cs ds : List (K × Node K V)}
    (hsub : ∀ c ∈ ds, c ∈ cs) (h : heightsOkB cs = true) : heightsOkB ds = true :=
  heightsOkB_iff.2 (fun c hc d hd => heightsOkB_iff.1 h c (hsub c hc) d (hsub d hd))

theorem heightList_eq_of_all {cs : List (K × Node K V)} {h : Nat}
    (hall : ∀ c ∈ cs, c.2.height = h) (hne : cs ≠ []) : Node.heightList cs = h := by
  induction cs with
  | nil => exact absurd rfl hne
  | cons c rest ih =>
    rw [Node.heightList]
    cases hrest : rest with
    | nil => simp [Node.heightList, hall c (by simp)]
    | cons d ds =>
      rw [← hrest, ih (fun d hd => hall d (by simp [hd])) (by simp [hrest]),
        hall c (by simp)]
      simp

theorem heightList_mem_le {cs : List (K × Node K V)} :
    ∀ c ∈ cs, c.2.height ≤ Node.heightList cs := by
  induction cs with
  | nil => simp
  | cons c rest ih =>
    intro d hd
    rw [Node.heightList]
    rcases List.mem_cons.1 hd with rfl | hd
    · exact le_max_left _ _
    · exact le_trans (ih d hd) (le_max_right _ _)

theorem split_flatten (t : Node K V) :
    (t.Split).1.flatten ++ (t.Split).2.flatten = t.flatten := by
  cases t with
  | leaf kvs => simp [Node.Split]
  | internal cs =>
    simp only [Node.Split, Node.flatten_internal, ← Node.flattenCs_append,
      List.take_append_drop]

theorem split_height {t : Node K V} (hbal : t.balB = true) (hsz : 4 ≤ t.Size) :
    (t.Split).1.height = t.height ∧ (t.Split).2.height = t.height ∧
      (t.Split).1.balB = true ∧ (t.Split).2.balB = true := by
  cases t with
  | leaf kvs => simp [Node.Split, Node.height, Node.balB]
  | internal cs =>
    simp only [Node.Size] at hsz
    simp only [Node.balB, Bool.and_eq_true] at hbal
    obtain ⟨hhts, hbcs⟩ := hbal
    set m := cs.length - cs.length / 2 with hm
    have htne : cs.take m ≠ [] := by
      intro hx
      have := congrArg List.length hx
      simp only [List.length_take, List.length_nil] at this
      omega
    have hdne : cs.drop m ≠ [] := by
      intro hx
      have := congrArg List.length hx
      simp only [List.length_drop, List.length_nil] at this
      omega
    have hcsne : cs ≠ [] := by
      intro hx
      rw [hx] at hsz
      simp at hsz
    obtain ⟨c0, hc0⟩ : ∃ c0, c0 ∈ cs := by
      cases cs with
      | nil => exact absurd rfl hcsne
      | cons a l => exact ⟨a, by simp⟩
    have hall : ∀ c ∈ cs, c.2.height = c0.2.height :=
      fun c hc => heightsOkB_iff.1 hhts c hc c0 hc0
    have h1 : Node.heightList cs = c0.2.height := heightList_eq_of_all hall hcsne
    have h2 : Node.heightList (cs.take m) = c0.2.height :=
      heightList_eq_of_all (fun c hc => hall c (List.mem_of_mem_take hc)) htne
    have h3 : Node.heightList (cs.drop m) = c0.2.height :=
      heightList_eq_of_all (fun c hc => hall c (List.mem_of_mem_drop hc)) hdne
    refine ⟨?_, ?_, ?_, ?_⟩
    · simp only [Node.Split, Node.height, h1, h2]
    · simp only [Node.Split, Node.height, h1, h3]
    · simp only [Node.Split, Node.balB, Bool.and_eq_true]
      refine ⟨heightsOkB_sublist (fun c hc => List.mem_of_mem_take hc) hhts, ?_⟩
      have hb : (balCsB (cs.take m) && balCsB (cs.drop m)) = true := by
        rw [← balCsB_append, List.take_append_drop]
        exact hbcs
      simp only [Bool.and_eq_true] at hb
      exact hb.1
    · simp only [Node.Split, Node.balB, Bool.and_eq_true]
      refine ⟨heightsOkB_sublist (fun c hc => List.mem_of_mem_drop hc) hhts, ?_⟩
      have hb : (balCsB (cs.take m) && balCsB (cs.drop m)) = true := by
        rw [← balCsB_append, List.take_append_drop]
        exact hbcs
      simp only [Bool.and_eq_true] at hb
      exact hb.2

theorem split_sizeB {t : Node K V} (hsz : t.sizeB false = true)
    (hfull : t.Size = maxNodes) :
    (t.Split).1.sizeB false = true ∧ (t.Split).2.sizeB false = true ∧
      (t.Split).1.Size = keyDegr ∧ (t.Split).2.Size = keyDegr := by
  obtain ⟨hs1, hs2⟩ := split_sizes t
  rw [hfull] at hs1 hs2
  have h16 : maxNodes - maxNodes / 2 = keyDegr := by decide
  have h16b : maxNodes / 2 = keyDegr := by decide
  rw [h16] at hs1
  rw [h16b] at hs2
  cases t with
  | leaf kvs =>
    simp only [Node.Split, Node.Size] at *
    constructor
    · simp only [Node.sizeB, Bool.and_eq_true, Bool.false_or]
      constructor <;> simp_all [keyDegr, maxNodes, minNodes]
    constructor
    · simp only [Node.sizeB, Bool.and_eq_true, Bool.false_or]
      constructor <;> simp_all [keyDegr, maxNodes, minNodes]
    exact ⟨hs1, hs2⟩
  | internal cs =>
    simp only [Node.sizeB, Bool.and_eq_true] at hsz
    simp only [Node.Split, Node.Size] at *
    have hsub1 : sizeCsB (cs.take (cs.length - cs.length / 2)) = true ∧
        sizeCsB (cs.drop (cs.length - cs.length / 2)) = true := by
      have hb : (sizeCsB (cs.take (cs.length - cs.length / 2)) &&
          sizeCsB (cs.drop (cs.length - cs.length / 2))) = true := by
        rw [← sizeCsB_append, List.take_append_drop]
        exact hsz.2
      simpa only [Bool.and_eq_true] using hb
    refine ⟨?_, ?_, hs1, hs2⟩
    · simp only [Node.sizeB, Bool.and_eq_true, if_false, Bool.false_eq_true]
      exact ⟨⟨by rw [hs1]; decide, by rw [hs1]; decide⟩, hsub1.1⟩
    · simp only [Node.sizeB, Bool.and_eq_true, if_false, Bool.false_eq_true]
      exact ⟨⟨by rw [hs2]; decide, by rw [hs2]; decide⟩, hsub1.2⟩

end SplitAux

/-! ## SplitAt specification -/

section SplitAtSpec

variable {K V : Type} [LinearOrder K]

theorem hiOkB_trans {k m : K} {hi : Option K} (h1 : k ≤ m) (h2 : hiOkB m hi = true) :
    hiOkB k hi = true := by
  cases hi with
  | none => simp [hiOkB]
  | some b =>
    have : m ≤ b := by simpa [hiOkB] using h2
    simp only [hiOkB, decide_eq_true_eq]
    exact le_trans h1 this

theorem internalSplitAt_spec [Inhabited K] {cs : List (K × Node K V)} {i : Nat}
    {lo hi : Option K}
    (hilt : i < cs.length)
    (hfull : (cs[i]).2.Size = maxNodes)
    (hord : ordCsB lo hi cs = true)
    (hsz : sizeCsB cs = true)
    (hbal : balCsB cs = true)
    (hhts : heightsOkB cs = true) :
    Node.internalSplitAt cs i =
      cs.take i ++ (((cs[i]).2.Split).1.LastKey, ((cs[i]).2.Split).1) ::
        ((cs[i]).1, ((cs[i]).2.Split).2) :: cs.drop (i + 1) ∧
    Node.flattenCs (Node.internalSplitAt cs i) = Node.flattenCs cs ∧
    ordCsB lo hi (Node.internalSplitAt cs i) = true ∧
    sizeCsB (Node.internalSplitAt cs i) = true ∧
    balCsB (Node.internalSplitAt cs i) = true ∧
    heightsOkB (Node.internalSplitAt cs i) = true ∧
    (Node.internalSplitAt cs i).length = cs.length + 1 := by
  have hget : cs[i]? = some cs[i] := List.getElem?_eq_getElem hilt
  have hdef : Node.internalSplitAt cs i =
      cs.take i ++ (((cs[i]).2.Split).1.LastKey, ((cs[i]).2.Split).1) ::
        ((cs[i]).1, ((cs[i]).2.Split).2) :: cs.drop (i + 1) := by
    rw [Node.internalSplitAt, hget]
  have hcs : cs = cs.take i ++ cs[i] :: cs.drop (i + 1) := by
    conv_lhs => rw [← List.take_append_drop i cs]
    rw [← List.getElem_cons_drop cs i hilt]
  have hcmem : cs[i] ∈ cs := List.getElem_mem hilt
  have hcsize : (cs[i]).2.sizeB false = true := sizeCsB_mem hsz _ hcmem
  have hcbal : (cs[i]).2.balB = true := balCsB_mem hbal _ hcmem
  -- ordering decomposition
  have hordD := hord
  rw [hcs] at hordD
  obtain ⟨h1, h2⟩ := ordCsB_append.1 hordD
  simp only [ordCsB, Bool.and_eq_true] at h2
  obtain ⟨⟨⟨hclo, hchi⟩, hcord⟩, hrest⟩ := h2
  obtain ⟨hl, hr, hLKlo, hLKhi, hstrict⟩ :=
    split_ord (t := (cs[i]).2) hcord (by rw [hfull]; decide)
  have hLKlt : ((cs[i]).2.Split).1.LastKey < (cs[i]).1 := hstrict _ rfl
  obtain ⟨hszl, hszr, hsl16, hsr16⟩ := split_sizeB hcsize hfull
  obtain ⟨hhl, hhr, hbl, hbr⟩ := split_height hcbal (by rw [hfull]; decide)
  -- size decomposition
  have hszD : (sizeCsB (cs.take i) && sizeCsB (cs[i] :: cs.drop (i + 1))) = true := by
    rw [← sizeCsB_append, ← hcs]
    exact hsz
  simp only [Bool.and_eq_true, sizeCsB] at hszD
  have hbalD : (balCsB (cs.take i) && balCsB (cs[i] :: cs.drop (i + 1))) = true := by
    rw [← balCsB_append, ← hcs]
    exact hbal
  simp only [Bool.and_eq_true, balCsB] at hbalD
  refine ⟨hdef, ?_, ?_, ?_, ?_, ?_, ?_⟩
  · rw [hdef]
    conv_rhs => rw [hcs]
    simp only [Node.flattenCs_append, Node.flattenCs_cons]
    rw [← split_flatten (cs[i]).2]
    simp
  · rw [hdef]
    refine ordCsB_append.2 ⟨h1, ?_⟩
    simp only [ordCsB, Bool.and_eq_true]
    refine ⟨⟨⟨hLKlo, hiOkB_trans (le_of_lt hLKlt) hchi⟩, hl⟩,
      ⟨⟨by simp [lowOkB, hLKlt], hchi⟩, hr⟩, hrest⟩
  · rw [hdef]
    rw [sizeCsB_append]
    simp only [Bool.and_eq_true, sizeCsB]
    exact ⟨hszD.1, hszl, hszr, hszD.2.2⟩
  · rw [hdef]
    rw [balCsB_append]
    simp only [Bool.and_eq_true, balCsB]
    exact ⟨hbalD.1, hbl, hbr, hbalD.2.2⟩
  · rw [hdef]
    rw [heightsOkB_iff]
    intro c hc d hd
    have hval : ∀ e, e ∈ cs.take i ++ (((cs[i]).2.Split).1.LastKey, ((cs[i]).2.Split).1) ::
        ((cs[i]).1, ((cs[i]).2.Split).2) :: cs.drop (i + 1) →
        e.2.height = (cs[i]).2.height := by
      intro e he
      simp only [List.mem_append, List.mem_cons] at he
      rcases he with he | he | he | he
      · exact heightsOkB_iff.1 hhts e (List.mem_of_mem_take he) _ hcmem
      · rw [he]
        exact hhl
      · rw [he]
        exact hhr
      · exact heightsOkB_iff.1 hhts e (List.mem_of_mem_drop he) _ hcmem
    rw [hval c hc, hval d hd]
  · rw [hdef]
    simp only [List.length_append, List.length_cons, List.length_take, List.length_drop]
    omega

end SplitAtSpec

/-! ## Helpers for the right-spine walk -/

section SpineHelpers

variable {K V : Type} [LinearOrder K]

theorem getLastD_eq_getElem {α : Type} (l : List α) (d : α) (h : 0 < l.length) :
    l.getLastD d = l[l.length - 1] := by
  rw [List.getLastD_eq_getLast?, List.getLast?_eq_getElem?]
  rw [List.getElem?_eq_getElem (by omega)]
  rfl

theorem dropLast_append_getLastD {α : Type} (l : List α) (d : α) (h : l ≠ []) :
    l.dropLast ++ [l.getLastD d] = l := by
  have hlen : 0 < l.length := List.length_pos.2 h
  rw [getLastD_eq_getElem l d hlen]
  have h2 := List.dropLast_append_getLast h
  rw [List.getLast_eq_getElem] at h2
  exact h2

theorem set_append_last {α : Type} (l : List α) (x y : α) :
    (l ++ [x]).set l.length y = l ++ [y] := by
  induction l with
  | nil => simp
  | cons a l ih => simp [List.set_cons_succ, ih]

theorem getD_append_plus {α : Type} (l1 l2 : List α) (n : Nat) (d : α) :
    (l1 ++ l2).getD (l1.length + n) d = l2.getD n d := by
  induction l1 with
  | nil => simp
  | cons a l ih =>
    have : (a :: l).length + n = (l.length + n) + 1 := by
      simp only [List.length_cons]
      omega
    rw [List.cons_append, this, List.getD_cons_succ]
    exact ih

theorem getD_append_lt {α : Type} (l1 l2 : List α) (n : Nat) (d : α) (h : n < l1.length) :
    (l1 ++ l2).getD n d = l1.getD n d := by
  rw [List.getD_eq_getElem _ _ (by simp; omega), List.getD_eq_getElem _ _ h]
  exact List.getElem_append_left h

theorem keysOfCs_lt_of_routing {lo hi : Option K} {cs : List (K × Node K V)} {key : K}
    (hord : ordCsB lo hi cs = true)
    (hroute : ∀ rk ∈ cs.map Prod.fst, rk < key) :
    ∀ k ∈ keysOfCs cs, k < key := by
  induction cs generalizing lo with
  | nil => simp
  | cons c cs2 ih =>
    simp only [ordCsB, Bool.and_eq_true] at hord
    obtain ⟨⟨_, hcord⟩, hrest⟩ := hord
    intro k hk
    simp only [keysOfCs_cons, List.mem_append] at hk
    rcases hk with hk | hk
    · have hup := ordKeysB_upper (ordB_keysOf hcord) k hk
      exact lt_of_le_of_lt hup (hroute c.1 (by simp))
    · exact ih hrest (fun rk hrk => hroute rk (by simp [hrk])) k hk

theorem lowOkB_olast {l : List K} {lo : Option K} {key : K}
    (h1 : ∀ x ∈ l, x < key) (h2 : lowOkB lo key = true) :
    lowOkB (olast l lo) key = true := by
  cases hl : l with
  | nil => simpa [olast] using h2
  | cons a as =>
    obtain ⟨x, hx, hxm⟩ := olast_some_mem (l := l) (by simp [hl]) lo
    rw [← hl, hx]
    simp only [lowOkB, decide_eq_true_eq]
    exact h1 x (hl ▸ hxm)

theorem lowOkB_olastCs {cs : List (K × Node K V)} {lo : Option K} {key : K}
    (h1 : ∀ x ∈ cs.map Prod.fst, x < key) (h2 : lowOkB lo key = true) :
    lowOkB (olastCs cs lo) key = true :=
  lowOkB_olast h1 h2

end SpineHelpers

section InsertMaxSpec

variable {K V : Type} [LinearOrder K] [Inhabited K] [Inhabited V]

set_option maxHeartbeats 1000000

/-- Stage 1 of the right-spine walk: pre-splitting a full last child
preserves the invariants, keeps all routing keys below the new key,
and leaves a non-full last child. -/
theorem spine_pre {cs : List (K × Node K V)} {lo hi : Option K} {key : K}
    (hord : ordCsB lo hi cs = true) (hsz : sizeCsB cs = true)
    (hbal : balCsB cs = true) (hhts : heightsOkB cs = true)
    (hne : 0 < cs.length) (hlt : cs.length < maxNodes)
    (hroute : ∀ rk ∈ cs.map Prod.fst, rk < key) :
    let cs1 := if (cs.getLastD (default, .leaf [])).2.IsFull then
        Node.internalSplitAt cs (cs.length - 1)
      else cs
    ordCsB lo hi cs1 = true ∧ sizeCsB cs1 = true ∧ balCsB cs1 = true ∧
      heightsOkB cs1 = true ∧
      Node.flattenCs cs1 = Node.flattenCs cs ∧
      cs.length ≤ cs1.length ∧ cs1.length ≤ cs.length + 1 ∧
      (∀ rk ∈ cs1.map Prod.fst, rk < key) ∧
      (cs1.getLastD (default, .leaf [])).2.Size < maxNodes ∧
      Node.heightList cs1 = Node.heightList cs ∧
      (∀ c ∈ cs1, c.2.height = (cs.getLastD (default, .leaf [])).2.height) := by
  intro cs1
  have hcsne : cs ≠ [] := by
    intro hx
    rw [hx] at hne
    simp at hne
  have hlast : cs.getLastD (default, .leaf []) = cs[cs.length - 1] :=
    getLastD_eq_getElem cs _ hne
  have hlastmem : cs[cs.length - 1] ∈ cs := List.getElem_mem (by omega)
  by_cases hf : (cs.getLastD (default, Node.leaf [])).2.IsFull = true
  · -- the last child is full: split it in place
    have hcs1 : cs1 = Node.internalSplitAt cs (cs.length - 1) := by
      simp only [cs1, if_pos hf]
    have hilt : cs.length - 1 < cs.length := by omega
    have hfull : (cs[cs.length - 1]).2.Size = maxNodes := by
      rw [hlast] at hf
      simpa [Node.IsFull] using hf
    obtain ⟨hdef, hflat, hords, hszs, hbals, hhtss, hlen⟩ :=
      internalSplitAt_spec hilt hfull hord hsz hbal hhts
    have hdrop : cs.drop (cs.length - 1 + 1) = [] := by
      apply List.drop_eq_nil_of_le
      omega
    rw [hdrop] at hdef
    set c := cs[cs.length - 1] with hc
    set l2 := (c.2.Split).1 with hl2
    set r2 := (c.2.Split).2 with hr2
    -- facts about the two halves
    have hcsize : c.2.sizeB false = true := sizeCsB_mem hsz _ hlastmem
    have hcbal : c.2.balB = true := balCsB_mem hbal _ hlastmem
    obtain ⟨hszl, hszr, hsl16, hsr16⟩ := split_sizeB hcsize hfull
    obtain ⟨hhl, hhr, hbl, hbr⟩ := split_height hcbal (by rw [hfull]; decide)
    -- LK < c.1 from the rebuilt ordering
    have hordD := hords
    rw [hcs1] at *
    rw [hdef] at hordD
    obtain ⟨hp1, hp2⟩ := ordCsB_append.1 hordD
    simp only [ordCsB, Bool.and_eq_true] at hp2
    have hLKlt : l2.LastKey < c.1 := by
      have := hp2.2.1.1.1
      simpa [lowOkB] using this
    have hroute1 : ∀ rk ∈ (Node.internalSplitAt cs (cs.length - 1)).map Prod.fst,
        rk < key := by
      rw [hdef]
      intro rk hrk
      simp only [List.map_append, List.map_cons, List.map_nil, List.mem_append,
        List.mem_cons, List.not_mem_nil, or_false] at hrk
      rcases hrk with hrk | hrk | hrk
      · obtain ⟨e, he, hrfl⟩ := List.mem_map.1 hrk
        subst hrfl
        exact hroute e.1 (List.mem_map_of_mem _ (List.mem_of_mem_take he))
      · rw [hrk]
        exact lt_of_lt_of_le hLKlt (le_of_lt (hroute c.1 (List.mem_map_of_mem _ hlastmem)))
      · rw [hrk]
        exact hroute c.1 (List.mem_map_of_mem _ hlastmem)
    have hlast1 : (Node.internalSplitAt cs (cs.length - 1)).getLastD (default, .leaf []) =
        (c.1, r2) := by
      rw [hdef]
      rw [show cs.take (cs.length - 1) ++ [(l2.LastKey, l2), (c.1, r2)] =
        (cs.take (cs.length - 1) ++ [(l2.LastKey, l2)]) ++ [(c.1, r2)] by simp]
      rw [List.getLastD_concat]
    have hallheights : ∀ e ∈ Node.internalSplitAt cs (cs.length - 1),
        e.2.height = c.2.height := by
      rw [hdef]
      intro e he
      simp only [List.mem_append, List.mem_cons, List.not_mem_nil, or_false] at he
      rcases he with he | he | he
      · exact heightsOkB_iff.1 hhts e (List.mem_of_mem_take he) _ hlastmem
      · rw [he]; exact hhl
      · rw [he]; exact hhr
    refine ⟨hords, hszs, hbals, hhtss, hflat, by omega, by omega, hroute1, ?_, ?_, ?_⟩
    · rw [hlast1]
      rw [hsr16]
      decide
    · have hne1 : Node.internalSplitAt cs (cs.length - 1) ≠ [] := by
        intro hx
        have := congrArg List.length hx
        rw [hlen] at this
        simp at this
      rw [heightList_eq_of_all hallheights hne1,
        heightList_eq_of_all (fun e he => heightsOkB_iff.1 hhts e he _ hlastmem) hcsne]
    · rw [hlast]
      exact hallheights
  · -- last child not full
    have hcs1 : cs1 = cs := by
      simp only [cs1, if_neg hf]
    rw [hcs1]
    have hlsz : (cs.getLastD (default, Node.leaf [])).2.Size < maxNodes := by
      have hsb : (cs.getLastD (default, Node.leaf [])).2.sizeB false = true := by
        rw [hlast]
        exact sizeCsB_mem hsz _ hlastmem
      have hle : (cs.getLastD (default, Node.leaf [])).2.Size ≤ maxNodes := by
        cases hx : (cs.getLastD (default, Node.leaf [])).2 with
        | leaf kvs =>
          rw [hx] at hsb
          simp only [Node.sizeB, Bool.and_eq_true, decide_eq_true_eq] at hsb
          simpa [Node.Size] using hsb.1
        | internal ccs =>
          rw [hx] at hsb
          simp only [Node.sizeB, Bool.and_eq_true, decide_eq_true_eq] at hsb
          simpa [Node.Size] using hsb.1.1
      have hnf : (cs.getLastD (default, Node.leaf [])).2.Size ≠ maxNodes := by
        intro hx
        exact hf (by simpa [Node.IsFull] using hx)
      omega
    exact ⟨hord, hsz, hbal, hhts, rfl, le_refl _, by omega, hroute, hlsz, rfl,
      fun c hc => heightsOkB_iff.1 hhts c hc _ (hlast ▸ hlastmem)⟩


theorem insertMax_spec :
    ∀ (fuel : Nat) (cs : List (K × Node K V)) (key : K) (value : V) (lo hi : Option K),
      Node.heightList cs < fuel →
      ordCsB lo hi cs = true →
      sizeCsB cs = true → balCsB cs = true → heightsOkB cs = true →
      0 < cs.length → cs.length < maxNodes →
      (∀ rk ∈ cs.map Prod.fst, rk < key) →
      lowOkB lo key = true → hiOkB key hi = true →
      Node.flattenCs (insertMax fuel cs key value).1 =
          Node.flattenCs cs ++ [(key, value)] ∧
        ordCsB lo hi (insertMax fuel cs key value).1 = true ∧
        sizeCsB (insertMax fuel cs key value).1 = true ∧
        balCsB (insertMax fuel cs key value).1 = true ∧
        heightsOkB (insertMax fuel cs key value).1 = true ∧
        Node.heightList (insertMax fuel cs key value).1 = Node.heightList cs ∧
        cs.length ≤ (insertMax fuel cs key value).1.length ∧
        (insertMax fuel cs key value).1.length ≤ cs.length + 1 ∧
        (insertMax fuel cs key value).2.1 <
          (Node.leavesListCs (insertMax fuel cs key value).1).length ∧
        ((Node.leavesListCs (insertMax fuel cs key value).1).getD
            (insertMax fuel cs key value).2.1 []).getD
          (insertMax fuel cs key value).2.2 (default, default) = (key, value)
  | 0, cs, key, value, lo, hi => by
    intro hfuel
    omega
  | fuel + 1, cs, key, value, lo, hi => by
    intro hfuel hord hsz hbal hhts hne hlt hroute hklo hkhi
    obtain ⟨hord1, hsz1, hbal1, hhts1, hflat1, hlen1, hlen1b, hroute1, hnf1, hhl1, hcommon⟩ :=
      spine_pre hord hsz hbal hhts hne hlt hroute
    set d0 : K × Node K V := (default, Node.leaf []) with hd0
    set cs1 := (if (cs.getLastD d0).2.IsFull = true then
        Node.internalSplitAt cs (cs.length - 1) else cs) with hcs1def
    have hne1 : cs1 ≠ [] := by
      intro hx
      have := congrArg List.length hx
      simp only [List.length_nil] at this
      omega
    set lastc := cs1.getLastD d0 with hlastcdef
    have hdl : cs1.dropLast ++ [lastc] = cs1 := dropLast_append_getLastD cs1 d0 hne1
    set dl := cs1.dropLast with hdldef
    have hlenc : cs1.length = dl.length + 1 := by
      rw [← hdl]
      simp
    have hlastmem : lastc ∈ cs1 := by
      rw [← hdl]
      simp
    -- ordering decomposition of cs1
    have hordsplit : ordCsB lo hi (dl ++ [lastc]) = true := by rw [hdl]; exact hord1
    obtain ⟨hodl, holast⟩ := ordCsB_append.1 hordsplit
    simp only [ordCsB, Bool.and_eq_true] at holast
    obtain ⟨⟨⟨hlclo, hlchi⟩, hlcord⟩, -⟩ := holast
    have hlcszB : lastc.2.sizeB false = true := sizeCsB_mem hsz1 _ hlastmem
    have hlcbal : lastc.2.balB = true := balCsB_mem hbal1 _ hlastmem
    have hlckey : lastc.1 < key := hroute1 _ (List.mem_map_of_mem _ hlastmem)
    have hdlroute : ∀ rk ∈ dl.map Prod.fst, rk < key := by
      intro rk hrk
      obtain ⟨e, he, hrfl⟩ := List.mem_map.1 hrk
      subst hrfl
      refine hroute1 _ (List.mem_map_of_mem _ ?_)
      rw [← hdl]
      exact List.mem_append.2 (Or.inl he)
    have hlo2key : lowOkB (olastCs dl lo) key = true := lowOkB_olastCs hdlroute hklo
    -- the common height of all children of cs1
    have hlch : lastc.2.height = (cs.getLastD d0).2.height := hcommon _ hlastmem
    cases hkind : lastc.2 with
    | leaf kvs =>
      have hres : insertMax (fuel + 1) cs key value =
          (cs1.set (cs1.length - 1)
            (key, Node.leaf (Node.leafInsertAt kvs kvs.length key value)),
          (Node.leavesListCs ((cs1.set (cs1.length - 1)
            (key, Node.leaf (Node.leafInsertAt kvs kvs.length key value))).dropLast)).length,
          kvs.length) := by
        rw [insertMax]
        rw [← hd0, ← hcs1def, ← hlastcdef, hkind]
        simp only [List.length_set, List.set_set]
      have hset : cs1.set (cs1.length - 1)
          (key, Node.leaf (Node.leafInsertAt kvs kvs.length key value)) =
          dl ++ [(key, Node.leaf (kvs ++ [(key, value)]))] := by
        conv_lhs => rw [hlenc, ← hdl]
        simp only [Nat.add_sub_cancel]
        rw [set_append_last]
        rw [Node.leafInsertAt, List.insertIdx_length_self]
      rw [hres, hset]
      -- facts about the old leaf
      rw [hkind] at hlcszB hlcord hnf1
      simp only [Node.sizeB, Bool.false_or, Bool.and_eq_true, decide_eq_true_eq] at hlcszB
      simp only [Node.Size] at hnf1
      have hkvskeys : ordKeysB (olastCs dl lo) (some lastc.1) (kvs.map Prod.fst) = true := by
        simpa [Node.ordB] using hlcord
      have hkvslt : ∀ x ∈ kvs.map Prod.fst, x < key := by
        intro x hx
        exact lt_of_le_of_lt (ordKeysB_upper hkvskeys x hx) hlckey
      constructor
      · -- flatten
        rw [← hflat1]
        conv_rhs => rw [← hdl]
        simp only [Node.flattenCs_append, Node.flattenCs_cons, Node.flattenCs_nil,
          hkind, Node.flatten_leaf, List.append_nil]
        simp
      constructor
      · -- ordering
        refine ordCsB_append.2 ⟨hodl, ?_⟩
        simp only [ordCsB, Bool.and_eq_true]
        refine ⟨⟨⟨hlo2key, hkhi⟩, ?_⟩, trivial⟩
        simp only [Node.ordB, List.map_append, List.map_cons, List.map_nil]
        refine ordKeysB_append.2 ⟨?_, ?_⟩
        · refine ordKeysB_mono_hi hkvskeys ?_
          intro k hk
          have h1 : k ≤ lastc.1 := by simpa [hiOkB] using hk
          simp only [hiOkB, decide_eq_true_eq]
          exact le_of_lt (lt_of_le_of_lt h1 hlckey)
        · simp only [ordKeysB, Bool.and_eq_true]
          refine ⟨⟨lowOkB_olast hkvslt hlo2key, by simp [hiOkB]⟩, trivial⟩
      constructor
      · -- sizes
        rw [sizeCsB_append]
        simp only [Bool.and_eq_true, sizeCsB]
        have hdlsz : sizeCsB dl = true := by
          have hb : (sizeCsB dl && sizeCsB [lastc]) = true := by
            rw [← sizeCsB_append, hdl]
            exact hsz1
          simp only [Bool.and_eq_true] at hb
          exact hb.1
        refine ⟨hdlsz, ?_, trivial⟩
        simp only [Node.sizeB, Node.Size, Bool.false_or, Bool.and_eq_true,
          decide_eq_true_eq, List.length_append, List.length_cons, List.length_nil]
        simp only [minNodes, maxNodes, keyDegr] at *
        omega
      constructor
      · -- balance
        rw [balCsB_append]
        simp only [Bool.and_eq_true, balCsB]
        have hdlbal : balCsB dl = true := by
          have hb : (balCsB dl && balCsB [lastc]) = true := by
            rw [← balCsB_append, hdl]
            exact hbal1
          simp only [Bool.and_eq_true] at hb
          exact hb.1
        exact ⟨hdlbal, by simp [Node.balB], trivial⟩
      constructor
      · -- heights equal
        rw [heightsOkB_iff]
        have hall : ∀ e ∈ dl ++ [(key, Node.leaf (kvs ++ [(key, value)]))],
            e.2.height = (cs.getLastD d0).2.height := by
          intro e he
          rcases List.mem_append.1 he with he | he
          · refine hcommon _ ?_
            rw [← hdl]
            exact List.mem_append.2 (Or.inl he)
          · simp only [List.mem_singleton] at he
            rw [he]
            rw [← hlch, hkind]
            simp [Node.height]
        intro a ha b hb
        rw [hall a ha, hall b hb]
      constructor
      · -- heightList preserved
        rw [← hhl1]
        have h1 : Node.heightList (dl ++ [(key, Node.leaf (kvs ++ [(key, value)]))]) =
            (cs.getLastD d0).2.height := by
          refine heightList_eq_of_all ?_ (by simp)
          intro e he
          rcases List.mem_append.1 he with he | he
          · refine hcommon _ ?_
            rw [← hdl]
            exact List.mem_append.2 (Or.inl he)
          · simp only [List.mem_singleton] at he
            rw [he, ← hlch, hkind]
            simp [Node.height]
        have h2 : Node.heightList cs1 = (cs.getLastD d0).2.height := by
          refine heightList_eq_of_all hcommon hne1
        rw [h1, h2]
      constructor
      · -- length lower bound
        simp only [List.length_append, List.length_cons, List.length_nil]
        omega
      constructor
      · -- length upper bound
        simp only [List.length_append, List.length_cons, List.length_nil]
        omega
      constructor
      · -- position bound
        rw [List.dropLast_concat]
        simp only [Node.leavesListCs_append, Node.leavesListCs_cons,
          Node.leavesListCs_nil, Node.leavesList_leaf, List.append_nil,
          List.length_append, List.length_cons, List.length_nil]
        omega
      · -- the returned position reads the stored pair
        rw [List.dropLast_concat]
        simp only [Node.leavesListCs_append, Node.leavesListCs_cons,
          Node.leavesListCs_nil, Node.leavesList_leaf, List.append_nil]
        have hlb : (Node.leavesListCs dl ++ [kvs ++ [(key, value)]]).getD
            (Node.leavesListCs dl).length [] = kvs ++ [(key, value)] := by
          have := getD_append_plus (Node.leavesListCs dl) [kvs ++ [(key, value)]] 0
            ([] : List (K × V))
          simpa using this
        rw [hlb]
        have := getD_append_plus kvs [(key, value)] 0 (default, default)
        simpa using this
    | internal ccs =>
      have hres : insertMax (fuel + 1) cs key value =
          (cs1.set (cs1.length - 1)
            (key, Node.internal (insertMax fuel ccs key value).1),
          (Node.leavesListCs ((cs1.set (cs1.length - 1)
            (key, Node.internal (insertMax fuel ccs key value).1)).dropLast)).length +
            (insertMax fuel ccs key value).2.1,
          (insertMax fuel ccs key value).2.2) := by
        rw [insertMax]
        rw [← hd0, ← hcs1def, ← hlastcdef, hkind]
        simp only [List.length_set, List.set_set]
      rw [hkind] at hlcszB hlcord hnf1 hlcbal hlch
      simp only [Node.sizeB, Bool.and_eq_true, decide_eq_true_eq, Bool.false_eq_true,
        if_false] at hlcszB
      simp only [Node.Size] at hnf1
      simp only [Node.ordB] at hlcord
      simp only [Node.balB, Bool.and_eq_true] at hlcbal
      simp only [Node.height] at hlch
      have hcommonval : Node.heightList cs1 = (cs.getLastD d0).2.height :=
        heightList_eq_of_all hcommon hne1
      have hfuel2 : Node.heightList ccs < fuel := by
        have h1 : 1 + Node.heightList ccs = (cs.getLastD d0).2.height := hlch
        have h2 : Node.heightList cs1 = Node.heightList cs := hhl1
        omega
      have hord2 : ordCsB (olastCs dl lo) (some key) ccs = true := by
        refine ordCsB_mono_hi hlcord ?_
        intro k hk
        have h1 : k ≤ lastc.1 := by simpa [hiOkB] using hk
        simp only [hiOkB, decide_eq_true_eq]
        exact le_of_lt (lt_of_le_of_lt h1 hlckey)
      have hrouteccs : ∀ rk ∈ ccs.map Prod.fst, rk < key := by
        intro rk hrk
        have := ordKeysB_upper (ordCsB_routing hlcord) rk hrk
        exact lt_of_le_of_lt this hlckey
      obtain ⟨hrflat, hrord, hrsz, hrbal, hrhts, hrhl, hrlen1, hrlen2, hrlb, hrread⟩ :=
        insertMax_spec fuel ccs key value (olastCs dl lo) (some key) hfuel2 hord2
          hlcszB.2 hlcbal.2 hlcbal.1 (by simp [minNodes, keyDegr] at hlcszB ⊢; omega)
          hnf1 hrouteccs hlo2key (by simp [hiOkB])
      rw [hres]
      have hset : cs1.set (cs1.length - 1)
          (key, Node.internal (insertMax fuel ccs key value).1) =
          dl ++ [(key, Node.internal (insertMax fuel ccs key value).1)] := by
        conv_lhs => rw [hlenc, ← hdl]
        simp only [Nat.add_sub_cancel]
        rw [set_append_last]
      rw [hset]
      have hflatc : Node.flattenCs cs1 =
          Node.flattenCs dl ++ Node.flattenCs ccs := by
        conv_lhs => rw [← hdl]
        simp only [Node.flattenCs_append, Node.flattenCs_cons, Node.flattenCs_nil,
          hkind, Node.flatten_internal, List.append_nil]
      constructor
      · -- flatten
        rw [← hflat1, hflatc]
        simp only [Node.flattenCs_append, Node.flattenCs_cons, Node.flattenCs_nil,
          Node.flatten_internal, List.append_nil, hrflat]
        simp
      constructor
      · -- ordering
        refine ordCsB_append.2 ⟨hodl, ?_⟩
        simp only [ordCsB, Bool.and_eq_true]
        exact ⟨⟨⟨hlo2key, hkhi⟩, by simpa [Node.ordB] using hrord⟩, trivial⟩
      constructor
      · -- sizes
        rw [sizeCsB_append]
        simp only [Bool.and_eq_true, sizeCsB]
        have hdlsz : sizeCsB dl = true := by
          have hb : (sizeCsB dl && sizeCsB [lastc]) = true := by
            rw [← sizeCsB_append, hdl]
            exact hsz1
          simp only [Bool.and_eq_true] at hb
          exact hb.1
        refine ⟨hdlsz, ?_, trivial⟩
        simp only [Node.sizeB, Node.Size, Bool.and_eq_true, decide_eq_true_eq,
          Bool.false_eq_true, if_false]
        simp only [minNodes, maxNodes, keyDegr] at *
        refine ⟨⟨by omega, by omega⟩, hrsz⟩
      constructor
      · -- balance
        rw [balCsB_append]
        simp only [Bool.and_eq_true, balCsB]
        have hdlbal : balCsB dl = true := by
          have hb : (balCsB dl && balCsB [lastc]) = true := by
            rw [← balCsB_append, hdl]
            exact hbal1
          simp only [Bool.and_eq_true] at hb
          exact hb.1
        refine ⟨hdlbal, ?_, trivial⟩
        simp only [Node.balB, Bool.and_eq_true]
        exact ⟨hrhts, hrbal⟩
      have hnewh : (Node.internal (insertMax fuel ccs key value).1).height =
          (cs.getLastD d0).2.height := by
        simp only [Node.height, hrhl]
        exact hlch
      constructor
      · -- heights equal
        rw [heightsOkB_iff]
        have hall : ∀ e ∈ dl ++ [(key, Node.internal (insertMax fuel ccs key value).1)],
            e.2.height = (cs.getLastD d0).2.height := by
          intro e he
          rcases List.mem_append.1 he with he | he
          · refine hcommon _ ?_
            rw [← hdl]
            exact List.mem_append.2 (Or.inl he)
          · simp only [List.mem_singleton] at he
            rw [he]
            exact hnewh
        intro a ha b hb
        rw [hall a ha, hall b hb]
      constructor
      · -- heightList preserved
        rw [← hhl1, hcommonval]
        refine heightList_eq_of_all ?_ (by simp)
        intro e he
        rcases List.mem_append.1 he with he | he
        · refine hcommon _ ?_
          rw [← hdl]
          exact List.mem_append.2 (Or.inl he)
        · simp only [List.mem_singleton] at he
          rw [he]
          exact hnewh
      constructor
      · simp only [List.length_append, List.length_cons, List.length_nil]
        omega
      constructor
      · simp only [List.length_append, List.length_cons, List.length_nil]
        omega
      constructor
      · -- position bound
        rw [List.dropLast_concat]
        simp only [Node.leavesListCs_append, Node.leavesListCs_cons,
          Node.leavesListCs_nil, Node.leavesList_internal, List.append_nil,
          List.length_append]
        omega
      · -- the returned position
        rw [List.dropLast_concat]
        simp only [Node.leavesListCs_append, Node.leavesListCs_cons,
          Node.leavesListCs_nil, Node.leavesList_internal, List.append_nil]
        rw [getD_append_plus]
        exact hrread

end InsertMaxSpec

section InsertGoHelpers

variable {K V : Type} [LinearOrder K]

/-- Every key scanned past by the search is below the target. -/
theorem search_take_lt (keys : List K) (t : K) :
    ∀ x ∈ keys.take (linearSearchOrdered keys t).1, x < t := by
  induction keys with
  | nil => simp
  | cons k ks ih =>
    by_cases h1 : k = t
    · simp [linearSearchOrdered, h1]
    · by_cases h2 : k > t
      · simp [linearSearchOrdered, h1, h2]
      · simp only [linearSearchOrdered, if_neg h1, if_neg h2, List.take_succ_cons]
        intro x hx
        rcases List.mem_cons.1 hx with rfl | hx
        · exact lt_of_le_of_ne (not_lt.1 h2) h1
        · exact ih x hx

/-- When the search stops inside the list, the found slot is at or
above the target. -/
theorem search_stop_ge (keys : List K) (t : K)
    (h : (linearSearchOrdered keys t).1 < keys.length) :
    t ≤ keys.getD (linearSearchOrdered keys t).1 t := by
  induction keys with
  | nil => simp [linearSearchOrdered] at h
  | cons k ks ih =>
    by_cases h1 : k = t
    · simp [linearSearchOrdered, h1]
    · by_cases h2 : k > t
      · simp [linearSearchOrdered, h1, h2, le_of_lt h2]
      · simp only [linearSearchOrdered, if_neg h1, if_neg h2] at h ⊢
        simp only [List.length_cons, Nat.add_lt_add_iff_right] at h
        simpa using ih h

/-- Inserting a key above every present key appends it. -/
theorem listInsert_eq_append {l : List (K × V)} {key : K} (value : V)
    (h : ∀ k ∈ l.map Prod.fst, k < key) :
    listInsert key value l = l ++ [(key, value)] := by
  induction l with
  | nil => simp [listInsert]
  | cons e l2 ih =>
    have he : e.1 < key := h e.1 (by simp)
    have h1 : ¬key = e.1 := fun hx => absurd (hx ▸ he) (lt_irrefl _)
    have h2 : ¬key < e.1 := not_lt.2 (le_of_lt he)
    simp only [listInsert, if_neg h1, if_neg h2, List.cons_append]
    rw [ih (fun k hk => h k (by simp [hk]))]

theorem take_set_self {α : Type} (l : List α) (i : Nat) (a : α) :
    (l.set i a).take i = l.take i := by
  induction l generalizing i with
  | nil => simp
  | cons b l2 ih =>
    cases i with
    | zero => simp
    | succ n => simp [List.set_cons_succ, List.take_succ_cons, ih]

theorem getD_insertIdx_self {α : Type} (l : List α) (i : Nat) (a d : α)
    (h : i ≤ l.length) : (l.insertIdx i a).getD i d = a := by
  induction l generalizing i with
  | nil =>
    cases i with
    | zero => rfl
    | succ n => simp at h
  | cons b l2 ih =>
    cases i with
    | zero => rfl
    | succ n =>
      rw [List.insertIdx_succ_cons, List.getD_cons_succ]
      exact ih n (by simpa using h)

theorem getD_set_self {α : Type} (l : List α) (i : Nat) (a d : α)
    (h : i < l.length) : (l.set i a).getD i d = a := by
  rw [List.getD_eq_getElem _ _ (by simpa using h)]
  exact List.getElem_set_self _

end InsertGoHelpers

end Treemap

namespace Treemap

section InsertGoSpec

variable {K V : Type} [LinearOrder K] [Inhabited K] [Inhabited V]

set_option maxHeartbeats 1000000

theorem set_append_plus {α : Type} (l1 l2 : List α) (n : Nat) (a : α) :
    (l1 ++ l2).set (l1.length + n) a = l1 ++ l2.set n a := by
  induction l1 with
  | nil => simp
  | cons b l ih =>
    simp only [List.cons_append, List.length_cons]
    rw [show l.length + 1 + n = (l.length + n) + 1 from by omega, List.set_cons_succ]
    rw [ih]

theorem set_append_at {α : Type} (l1 l2 : List α) (n m : Nat) (a : α)
    (h : n = l1.length + m) : (l1 ++ l2).set n a = l1 ++ l2.set m a := by
  rw [h, set_append_plus]

theorem getD_append_at {α : Type} (l1 l2 : List α) (n m : Nat) (d : α)
    (h : n = l1.length + m) : (l1 ++ l2).getD n d = l2.getD m d := by
  rw [h, getD_append_plus]

theorem set_eq_take_cons_drop {α : Type} (l : List α) (n : Nat) (a : α)
    (h : n < l.length) : l.set n a = l.take n ++ a :: l.drop (n + 1) := by
  induction l generalizing n with
  | nil => simp at h
  | cons b t ih =>
    cases n with
    | zero => simp
    | succ m =>
      simp only [List.set_cons_succ, List.take_succ_cons, List.drop_succ_cons,
        List.cons_append]
      rw [ih m (by simpa using h)]

/-- Replacing the child the insert descent entered, after the insert
below it finished, rebuilds the parent child list: the flattened pairs
pick up the inserted pair in place, the lookup of the key delegates to
the old child, every invariant is preserved, and leaf positions into
the new child shift by the leaves of the preceding siblings. -/
theorem child_replace_spec {Q S : List (K × Node K V)} {rk : K} {oldc newc : Node K V}
    {lo hi : Option K} {key : K} {value : V}
    (hordQS : ordCsB lo hi (Q ++ (rk, oldc) :: S) = true)
    (hszQS : sizeCsB (Q ++ (rk, oldc) :: S) = true)
    (hbalQS : balCsB (Q ++ (rk, oldc) :: S) = true)
    (hhtsQS : heightsOkB (Q ++ (rk, oldc) :: S) = true)
    (hQkeys : ∀ k ∈ keysOfCs Q, k < key)
    (hSkeys : ∀ k ∈ keysOfCs S, key < k)
    (hnewf : newc.flatten = listInsert key value oldc.flatten)
    (hneword : newc.ordB (olastCs Q lo) (some rk) = true)
    (hnewsz : newc.sizeB false = true)
    (hnewbal : newc.balB = true)
    (hnewh : newc.height = oldc.height) :
    Node.flattenCs (Q ++ (rk, newc) :: S) =
      listInsert key value (Node.flattenCs (Q ++ (rk, oldc) :: S)) ∧
    lookupKV key (Node.flattenCs (Q ++ (rk, oldc) :: S)) = lookupKV key oldc.flatten ∧
    ordCsB lo hi (Q ++ (rk, newc) :: S) = true ∧
    sizeCsB (Q ++ (rk, newc) :: S) = true ∧
    balCsB (Q ++ (rk, newc) :: S) = true ∧
    heightsOkB (Q ++ (rk, newc) :: S) = true ∧
    Node.heightList (Q ++ (rk, newc) :: S) = Node.heightList (Q ++ (rk, oldc) :: S) ∧
    (Q ++ (rk, newc) :: S).length = (Q ++ (rk, oldc) :: S).length ∧
    (∀ n, n < newc.leavesList.length →
      (Node.leavesListCs (Q ++ (rk, newc) :: S)).getD
        ((Node.leavesListCs Q).length + n) [] = newc.leavesList.getD n [] ∧
      (Node.leavesListCs Q).length + n <
        (Node.leavesListCs (Q ++ (rk, newc) :: S)).length) := by
  have hQf : ∀ k ∈ (Node.flattenCs Q).map Prod.fst, k < key := hQkeys
  have hSf : ∀ k ∈ (Node.flattenCs S).map Prod.fst, key < k := hSkeys
  obtain ⟨hQ, hmid⟩ := ordCsB_append.1 hordQS
  simp only [ordCsB, Bool.and_eq_true] at hmid
  obtain ⟨⟨⟨hrklo, hrkhi⟩, holdord⟩, hS⟩ := hmid
  have hszsplit : (sizeCsB Q && sizeCsB ((rk, oldc) :: S)) = true := by
    rw [← sizeCsB_append]
    exact hszQS
  simp only [Bool.and_eq_true, sizeCsB] at hszsplit
  have hbalsplit : (balCsB Q && balCsB ((rk, oldc) :: S)) = true := by
    rw [← balCsB_append]
    exact hbalQS
  simp only [Bool.and_eq_true, balCsB] at hbalsplit
  refine ⟨?_, ?_, ?_, ?_, ?_, ?_, ?_, ?_, ?_⟩
  · simp only [Node.flattenCs_append, Node.flattenCs_cons]
    rw [hnewf]
    rw [listInsert_append_right hQf]
    congr 1
    rw [listInsert_append_left hSf]
  · simp only [Node.flattenCs_append, Node.flattenCs_cons]
    rw [lookupKV_append]
    rw [lookupKV_eq_none (fun hmem => absurd (hQf key hmem) (lt_irrefl key))]
    rw [lookupKV_append]
    have hSn : lookupKV key (Node.flattenCs S) = (none : Option V) :=
      lookupKV_eq_none (fun hmem => absurd (hSf key hmem) (lt_irrefl key))
    cases hv : lookupKV key oldc.flatten with
    | none => simp [hSn]
    | some v => simp
  · refine ordCsB_append.2 ⟨hQ, ?_⟩
    simp only [ordCsB, Bool.and_eq_true]
    exact ⟨⟨⟨hrklo, hrkhi⟩, hneword⟩, hS⟩
  · rw [sizeCsB_append]
    simp only [Bool.and_eq_true, sizeCsB]
    exact ⟨hszsplit.1, hnewsz, hszsplit.2.2⟩
  · rw [balCsB_append]
    simp only [Bool.and_eq_true, balCsB]
    exact ⟨hbalsplit.1, hnewbal, hbalsplit.2.2⟩
  · rw [heightsOkB_iff]
    have hmemold : (rk, oldc) ∈ Q ++ (rk, oldc) :: S := by simp
    have hval : ∀ e ∈ Q ++ (rk, newc) :: S, e.2.height = oldc.height := by
      intro e he
      simp only [List.mem_append, List.mem_cons] at he
      rcases he with he | he | he
      · exact heightsOkB_iff.1 hhtsQS e (by simp [he]) _ hmemold
      · rw [he]
        exact hnewh
      · exact heightsOkB_iff.1 hhtsQS e (by simp [he]) _ hmemold
    intro a ha b hb
    rw [hval a ha, hval b hb]
  · have hmemold : (rk, oldc) ∈ Q ++ (rk, oldc) :: S := by simp
    have h1 : Node.heightList (Q ++ (rk, newc) :: S) = oldc.height := by
      refine heightList_eq_of_all ?_ (by simp)
      intro e he
      simp only [List.mem_append, List.mem_cons] at he
      rcases he with he | he | he
      · exact heightsOkB_iff.1 hhtsQS e (by simp [he]) _ hmemold
      · rw [he]
        exact hnewh
      · exact heightsOkB_iff.1 hhtsQS e (by simp [he]) _ hmemold
    have h2 : Node.heightList (Q ++ (rk, oldc) :: S) = oldc.height := by
      refine heightList_eq_of_all ?_ (by simp)
      intro e he
      exact heightsOkB_iff.1 hhtsQS e he _ hmemold
    rw [h1, h2]
  · simp
  · intro n hn
    simp only [Node.leavesListCs_append, Node.leavesListCs_cons]
    constructor
    · rw [getD_append_plus]
      exact getD_append_lt _ _ _ _ hn
    · simp only [List.length_append]
      omega

theorem insertGo_spec :
    ∀ (fuel : Nat) (t : Node K V) (key : K) (value : V) (isRoot : Bool) (lo hi : Option K),
      t.height < fuel →
      t.ordB lo hi = true →
      t.sizeB isRoot = true →
      t.balB = true →
      t.IsFull = false →
      lowOkB lo key = true → hiOkB key hi = true →
      (insertGo fuel t key value).node.flatten = listInsert key value t.flatten ∧
      (insertGo fuel t key value).old = lookupKV key t.flatten ∧
      (insertGo fuel t key value).node.ordB lo hi = true ∧
      (insertGo fuel t key value).node.sizeB isRoot = true ∧
      (insertGo fuel t key value).node.balB = true ∧
      (insertGo fuel t key value).node.height = t.height ∧
      (insertGo fuel t key value).lb <
        (insertGo fuel t key value).node.leavesList.length ∧
      ((insertGo fuel t key value).node.leavesList.getD
          (insertGo fuel t key value).lb []).getD
        (insertGo fuel t key value).idx (default, default) = (key, value)
  | 0, t, key, value, isRoot, lo, hi => by
    intro hfuel
    omega
  | fuel + 1, .leaf kvs, key, value, isRoot, lo, hi => by
    intro hfuel hord hsz hbal hnf hklo hkhi
    simp only [Node.ordB] at hord
    have hpw : (kvs.map Prod.fst).Pairwise (· < ·) := ordKeysB_pairwise hord
    have hlen : kvs.length ≤ maxNodes ∧ (isRoot = true ∨ minNodes ≤ kvs.length) := by
      simp only [Node.sizeB, Bool.and_eq_true, Bool.or_eq_true, decide_eq_true_eq] at hsz
      exact ⟨hsz.1, by
        rcases hsz.2 with h | h
        · exact Or.inl h
        · exact Or.inr h⟩
    have hnfull : kvs.length ≠ maxNodes := by
      intro hx
      rw [Node.IsFull] at hnf
      simp [Node.Size, hx] at hnf
    by_cases hfound : (linearSearchOrdered (kvs.map Prod.fst) key).2 = true
    · have hres : insertGo (fuel + 1) (Node.leaf kvs) key value =
          ⟨Node.leaf (kvs.set (linearSearchOrdered (kvs.map Prod.fst) key).1
            ((kvs.getD (linearSearchOrdered (kvs.map Prod.fst) key).1
              (default, default)).1, value)), 0,
            (linearSearchOrdered (kvs.map Prod.fst) key).1,
            some (kvs.getD (linearSearchOrdered (kvs.map Prod.fst) key).1
              (default, default)).2⟩ := by
        rw [insertGo]
        simp only [hfound, if_true]
      rw [hres]
      obtain ⟨hkeyeq, hidx⟩ := search_getD_of_found (kvs.map Prod.fst) key default hfound
      have hidx2 : (linearSearchOrdered (kvs.map Prod.fst) key).1 < kvs.length := by
        simpa using hidx
      have hfst : (kvs.getD (linearSearchOrdered (kvs.map Prod.fst) key).1
          (default, default)).1 = key :=
        (leaf_found_lookup (d := (default, default)) hpw hfound).2
      have hset : kvs.set (linearSearchOrdered (kvs.map Prod.fst) key).1
          ((kvs.getD (linearSearchOrdered (kvs.map Prod.fst) key).1
            (default, default)).1, value) = listInsert key value kvs :=
        leaf_set_eq_listInsert hpw hfound
      refine ⟨by simpa using hset, ?_, ?_, ?_, by simp [Node.balB], by simp [Node.height],
        by simp, ?_⟩
      · simp only [Node.flatten_leaf]
        exact ((leaf_found_lookup (d := (default, default)) hpw hfound).1).symm
      · simp only [Node.ordB]
        have : ((kvs.set (linearSearchOrdered (kvs.map Prod.fst) key).1
            ((kvs.getD (linearSearchOrdered (kvs.map Prod.fst) key).1
              (default, default)).1, value))).map Prod.fst =
            (listInsert key value kvs).map Prod.fst := by rw [hset]
        rw [this]
        exact listInsert_ordKeys hord hklo hkhi
      · simp only [Node.sizeB, Bool.and_eq_true, Bool.or_eq_true, decide_eq_true_eq,
          List.length_set]
        constructor
        · exact hlen.1
        · rcases hlen.2 with h | h
          · rw [h]; simp
          · simp [h]
      · simp only [Node.leavesList_leaf, List.getD_cons_zero]
        rw [getD_set_self _ _ _ _ hidx2, hfst]
    · have hres : insertGo (fuel + 1) (Node.leaf kvs) key value =
          ⟨Node.leaf (Node.leafInsertAt kvs
            (linearSearchOrdered (kvs.map Prod.fst) key).1 key value), 0,
            (linearSearchOrdered (kvs.map Prod.fst) key).1, none⟩ := by
        rw [insertGo]
        simp only [hfound, if_false, Bool.false_eq_true]
      rw [hres]
      have hfb : (linearSearchOrdered (kvs.map Prod.fst) key).2 = false := by
        simpa using hfound
      have hins : kvs.insertIdx (linearSearchOrdered (kvs.map Prod.fst) key).1
          (key, value) = listInsert key value kvs :=
        leaf_insertIdx_eq_listInsert hpw hfb
      have hle : (linearSearchOrdered (kvs.map Prod.fst) key).1 ≤ kvs.length := by
        have := search_fst_le (kvs.map Prod.fst) key
        simpa using this
      refine ⟨by simpa [Node.leafInsertAt] using hins, ?_, ?_, ?_, by simp [Node.balB],
        by simp [Node.height], by simp, ?_⟩
      · simp only [Node.flatten_leaf]
        exact (leaf_notfound_lookup hpw hfb).symm
      · simp only [Node.ordB, Node.leafInsertAt]
        have : (kvs.insertIdx (linearSearchOrdered (kvs.map Prod.fst) key).1
            (key, value)).map Prod.fst = (listInsert key value kvs).map Prod.fst := by
          rw [hins]
        rw [this]
        exact listInsert_ordKeys hord hklo hkhi
      · simp only [Node.sizeB, Bool.and_eq_true, Bool.or_eq_true, decide_eq_true_eq,
          Node.leafInsertAt]
        have hlil : (List.insertIdx (linearSearchOrdered (List.map Prod.fst kvs) key).1
            (key, value) kvs).length = kvs.length + 1 :=
          List.length_insertIdx _ _ hle
        rw [hlil]
        constructor
        · simp only [maxNodes, keyDegr] at *
          omega
        · rcases hlen.2 with h | h
          · rw [h]; simp
          · right
            simp only [minNodes, keyDegr] at h ⊢
            omega
      · simp only [Node.leavesList_leaf, List.getD_cons_zero, Node.leafInsertAt]
        exact getD_insertIdx_self kvs _ _ _ hle
  | fuel + 1, .internal cs, key, value, isRoot, lo, hi => by
    intro hfuel hord hsz hbal hnf hklo hkhi
    simp only [Node.ordB] at hord
    simp only [Node.balB, Bool.and_eq_true] at hbal
    have hszparts : cs.length ≤ maxNodes ∧
        (if isRoot = true then 2 ≤ cs.length else minNodes ≤ cs.length) ∧
        sizeCsB cs = true := by
      simp only [Node.sizeB, Bool.and_eq_true, decide_eq_true_eq] at hsz
      refine ⟨hsz.1.1, ?_, hsz.2⟩
      split
      · rename_i h
        rw [h] at hsz
        simpa using hsz.1.2
      · rename_i h
        have : isRoot = false := by
          cases isRoot
          · rfl
          · exact absurd rfl h
        rw [this] at hsz
        simpa using hsz.1.2
    have hpos : 0 < cs.length := by
      rcases hszparts with ⟨_, hif, _⟩
      split at hif
      · omega
      · simp only [minNodes, keyDegr] at hif
        omega
    have hnfull : cs.length ≠ maxNodes := by
      intro hx
      rw [Node.IsFull] at hnf
      simp [Node.Size, hx] at hnf
    have hhl : Node.heightList cs < fuel + 1 := by
      simp only [Node.height] at hfuel
      omega
    by_cases hext : (linearSearchOrdered (cs.map Prod.fst) key).1 = cs.length
    · -- extend-right-spine branch
      have hres : insertGo (fuel + 1) (Node.internal cs) key value =
          ⟨Node.internal (insertMax (fuel + 1) cs key value).1,
            (insertMax (fuel + 1) cs key value).2.1,
            (insertMax (fuel + 1) cs key value).2.2, none⟩ := by
        rw [insertGo]
        rw [if_pos (show ((linearSearchOrdered (cs.map Prod.fst) key).1 ==
          cs.length) = true from by simp [hext])]
      rw [hres]
      have hroute : ∀ rk ∈ cs.map Prod.fst, rk < key := by
        have := search_eq_length_lt (cs.map Prod.fst) key (by simpa using hext)
        exact this
      have hkeys : ∀ k ∈ keysOfCs cs, k < key := keysOfCs_lt_of_routing hord hroute
      obtain ⟨hmflat, hmord, hmsz, hmbal, hmhts, hmhl, hmlen1, hmlen2, hmlb, hmread⟩ :=
        insertMax_spec (fuel + 1) cs key value lo hi hhl hord hszparts.2.2 hbal.2 hbal.1
          hpos (by omega) hroute hklo hkhi
      refine ⟨?_, ?_, ?_, ?_, ?_, ?_, ?_, ?_⟩
      · simp only [Node.flatten_internal, hmflat]
        rw [listInsert_eq_append value (by simpa [keysOfCs] using hkeys)]
      · have : key ∉ (Node.flattenCs cs).map Prod.fst := by
          intro hmem
          exact absurd (hkeys key (by simpa [keysOfCs] using hmem)) (lt_irrefl key)
        simp only [Node.flatten_internal]
        exact (lookupKV_eq_none this).symm
      · simpa [Node.ordB] using hmord
      · simp only [Node.sizeB, Bool.and_eq_true, decide_eq_true_eq]
        refine ⟨⟨by omega, ?_⟩, hmsz⟩
        split
        · rename_i h
          rw [h] at hszparts
          simp only [if_true] at hszparts
          simp only [decide_eq_true_eq]
          omega
        · rename_i h
          have hfalse : isRoot = false := by
            cases isRoot
            · rfl
            · exact absurd rfl h
          rw [hfalse] at hszparts
          simp only [if_false, Bool.false_eq_true] at hszparts
          simp only [decide_eq_true_eq]
          have := hszparts.2.1
          simp only [minNodes, keyDegr] at this ⊢
          omega
      · simp only [Node.balB, Bool.and_eq_true]
        exact ⟨hmhts, hmbal⟩
      · simp only [Node.height, hmhl]
      · simpa using hmlb
      · simpa using hmread
    · -- pre-split a full child (or not) and descend into it
      have hhl2 : Node.heightList cs < fuel := by
        simp only [Node.height] at hfuel
        omega
      obtain ⟨i, hidef⟩ : ∃ n, (linearSearchOrdered (cs.map Prod.fst) key).1 = n :=
        ⟨_, rfl⟩
      rw [hidef] at hext
      have hile : i ≤ cs.length := by
        rw [← hidef]
        simpa using search_fst_le (cs.map Prod.fst) key
      have hilt : i < cs.length := by omega
      have hne1 : ¬((i == cs.length) = true) := by simpa using hext
      have hpref : ∀ x ∈ (cs.take i).map Prod.fst, x < key := by
        have h := search_take_lt (cs.map Prod.fst) key
        rw [hidef, ← List.map_take] at h
        exact h
      have hstop : key ≤ (cs[i]).1 := by
        have h := search_stop_ge (cs.map Prod.fst) key
          (by rw [hidef]; simpa using hilt)
        rw [hidef] at h
        rwa [List.getD_eq_getElem _ _ (by simpa using hilt), List.getElem_map] at h
      have hcs : cs = cs.take i ++ cs[i] :: cs.drop (i + 1) := by
        conv_lhs => rw [← List.take_append_drop i cs]
        rw [← List.getElem_cons_drop cs i hilt]
      have hcmem : cs[i] ∈ cs := List.getElem_mem hilt
      have hcsz : (cs[i]).2.sizeB false = true := sizeCsB_mem hszparts.2.2 _ hcmem
      have hcbal : (cs[i]).2.balB = true := balCsB_mem hbal.2 _ hcmem
      have hchlt : (cs[i]).2.height < fuel := by
        have := heightList_mem_le _ hcmem
        omega
      have htl : (cs.take i).length = i := by
        rw [List.length_take]
        exact Nat.min_eq_left (le_of_lt hilt)
      have hcsne : cs ≠ [] := by
        intro hx
        rw [hx] at hpos
        simp at hpos
      by_cases hcf : (cs[i]).2.IsFull = true
      · -- the child is full: split it inside this node first
        have hsplitfull : (cs[i]).2.Size = maxNodes := by
          simpa [Node.IsFull] using hcf
        have hsz4 : 4 ≤ (cs[i]).2.Size := by
          rw [hsplitfull]
          decide
        obtain ⟨hdef, hflatS, hordS, hszS, hbalS, hhtsS, hlenS⟩ :=
          internalSplitAt_spec hilt hsplitfull hord hszparts.2.2 hbal.2 hbal.1
        obtain ⟨hlh, hrh, hlbal, hrbal⟩ := split_height hcbal hsz4
        obtain ⟨hlsz, hrsz, hlS, hrS⟩ := split_sizeB hcsz hsplitfull
        obtain ⟨sl, hsl⟩ : ∃ x, ((cs[i]).2.Split).1 = x := ⟨_, rfl⟩
        obtain ⟨sr, hsr⟩ : ∃ x, ((cs[i]).2.Split).2 = x := ⟨_, rfl⟩
        obtain ⟨ck, hck⟩ : ∃ x, (cs[i]).1 = x := ⟨_, rfl⟩
        rw [hsl, hsr, hck] at hdef
        rw [hsl] at hlh hlbal hlsz hlS
        rw [hsr] at hrh hrbal hrsz hrS
        rw [hck] at hstop
        have hlnf : sl.IsFull = false := by
          simp only [Node.IsFull, hlS]
          decide
        have hrnf : sr.IsFull = false := by
          simp only [Node.IsFull, hrS]
          decide
        have hordS2 := hordS
        rw [hdef] at hordS2
        obtain ⟨hQ0, hmid⟩ := ordCsB_append.1 hordS2
        simp only [ordCsB, Bool.and_eq_true] at hmid
        obtain ⟨⟨⟨hLKlo, hLKhi⟩, hlord⟩, ⟨⟨hcklo, hckhi⟩, hrord⟩, hdropord⟩ := hmid
        have hgd_i : (Node.internalSplitAt cs i).getD i (default, Node.leaf []) =
            (sl.LastKey, sl) := by
          rw [hdef, getD_append_at _ _ _ _ _
            (show i = (cs.take i).length + 0 from by omega)]
          simp
        have hgd_i1 : (Node.internalSplitAt cs i).getD (i + 1) (default, Node.leaf []) =
            (ck, sr) := by
          rw [hdef, getD_append_at _ _ _ _ _
            (show i + 1 = (cs.take i).length + 1 from by omega)]
          simp
        have hmemsl : (sl.LastKey, sl) ∈ Node.internalSplitAt cs i := by
          rw [hdef]
          simp
        have hhtcs1 : Node.heightList (Node.internalSplitAt cs i) = (cs[i]).2.height := by
          refine heightList_eq_of_all (fun c hc => ?_) ?_
          · rw [heightsOkB_iff.1 hhtsS c hc _ hmemsl]
            exact hlh
          · rw [hdef]
            simp
        have hhtcs : Node.heightList cs = (cs[i]).2.height :=
          heightList_eq_of_all (fun c hc => heightsOkB_iff.1 hbal.1 c hc _ hcmem) hcsne
        have hdropgt : ∀ k ∈ keysOfCs (cs.drop (i + 1)), key < k := by
          intro k hk
          have := ordKeysB_lower
            (ordCsB_keysOf (fun c hc lo2 hi2 h => ordB_keysOf h) hdropord) k hk
          exact lt_of_le_of_lt hstop this
        have hQ0keys : ∀ k ∈ keysOfCs (cs.take i), k < key :=
          keysOfCs_lt_of_routing hQ0 hpref
        by_cases hjlt : sl.LastKey < key
        · -- the key belongs in the right half
          obtain ⟨rflat, rold, rord, rsz, rbal, rh, rlb, rread⟩ :=
            insertGo_spec fuel sr key value false (some sl.LastKey) (some ck)
              (by rw [hrh]; exact hchlt) hrord hrsz hrbal hrnf
              (by simpa [lowOkB] using hjlt) (by simpa [hiOkB] using hstop)
          have hcs1Q : Node.internalSplitAt cs i =
              (cs.take i ++ [(sl.LastKey, sl)]) ++ (ck, sr) :: cs.drop (i + 1) := by
            rw [hdef]
            simp
          have hQlen : (cs.take i ++ [(sl.LastKey, sl)]).length = i + 1 := by
            simp [htl]
          have hcsF : (Node.internalSplitAt cs i).set (i + 1)
                (ck, (insertGo fuel sr key value).node) =
              (cs.take i ++ [(sl.LastKey, sl)]) ++
                (ck, (insertGo fuel sr key value).node) :: cs.drop (i + 1) := by
            rw [hcs1Q, set_append_at _ _ _ _ _
              (show i + 1 = (cs.take i ++ [(sl.LastKey, sl)]).length + 0 from by omega)]
            simp
          have hQkeys : ∀ k ∈ keysOfCs (cs.take i ++ [(sl.LastKey, sl)]), k < key := by
            intro k hk
            simp only [keysOfCs_append, List.mem_append] at hk
            rcases hk with hk | hk
            · exact hQ0keys k hk
            · have hk2 : k ∈ keysOf sl := by
                simpa [keysOfCs, keysOf] using hk
              exact lt_of_le_of_lt (ordKeysB_upper (ordB_keysOf hlord) k hk2) hjlt
          have holastQ : olastCs (cs.take i ++ [(sl.LastKey, sl)]) lo =
              some sl.LastKey := by
            simp [olastCs, olast]
          have hordQS := hordS
          rw [hcs1Q] at hordQS
          have hszQS := hszS
          rw [hcs1Q] at hszQS
          have hbalQS := hbalS
          rw [hcs1Q] at hbalQS
          have hhtsQS := hhtsS
          rw [hcs1Q] at hhtsQS
          obtain ⟨hFflat, hFold, hFord, hFsz, hFbal, hFhts, hFhl, hFlen, hFread⟩ :=
            child_replace_spec hordQS hszQS hbalQS hhtsQS hQkeys hdropgt rflat
              (by rw [holastQ]; exact rord) rsz rbal rh
          rw [insertGo, hidef, if_neg hne1,
            List.getD_eq_getElem cs (default, Node.leaf []) hilt]
          simp only []
          rw [if_pos hcf]
          simp only [hgd_i]
          rw [if_pos hjlt]
          simp only [hgd_i1]
          rw [hcsF]
          rw [List.take_left' hQlen]
          refine ⟨?_, ?_, ?_, ?_, ?_, ?_, ?_, ?_⟩
          · simp only [Node.flatten_internal]
            rw [hFflat, ← hcs1Q, hflatS]
          · simp only [Node.flatten_internal]
            rw [rold, ← hFold, ← hcs1Q, hflatS]
          · simp only [Node.ordB]
            exact hFord
          · have hNlen : ((cs.take i ++ [(sl.LastKey, sl)]) ++
                (ck, (insertGo fuel sr key value).node) :: cs.drop (i + 1)).length =
                cs.length + 1 := by
              rw [hFlen, ← hcs1Q, hlenS]
            simp only [Node.sizeB, Bool.and_eq_true, decide_eq_true_eq]
            refine ⟨⟨?_, ?_⟩, hFsz⟩
            · rw [hNlen]
              omega
            · split
              · rename_i h
                simp only [decide_eq_true_eq]
                rw [hNlen]
                omega
              · rename_i h
                have hfalse : isRoot = false := by
                  cases isRoot
                  · rfl
                  · exact absurd rfl h
                rw [hfalse] at hszparts
                simp only [if_false, Bool.false_eq_true] at hszparts
                simp only [decide_eq_true_eq]
                rw [hNlen]
                have := hszparts.2.1
                omega
          · simp only [Node.balB, Bool.and_eq_true]
            exact ⟨hFhts, hFbal⟩
          · simp only [Node.height]
            rw [hFhl, ← hcs1Q, hhtcs1, hhtcs]
          · simp only [Node.leavesList_internal]
            exact (hFread _ rlb).2
          · simp only [Node.leavesList_internal]
            rw [(hFread _ rlb).1]
            exact rread
        · -- the key belongs in the left half
          have hkle : key ≤ sl.LastKey := not_lt.1 hjlt
          obtain ⟨rflat, rold, rord, rsz, rbal, rh, rlb, rread⟩ :=
            insertGo_spec fuel sl key value false (olastCs (cs.take i) lo)
              (some sl.LastKey)
              (by rw [hlh]; exact hchlt) hlord hlsz hlbal hlnf
              (lowOkB_olastCs hpref hklo) (by simpa [hiOkB] using hkle)
          have hcsF : (Node.internalSplitAt cs i).set i
                (sl.LastKey, (insertGo fuel sl key value).node) =
              cs.take i ++ (sl.LastKey, (insertGo fuel sl key value).node) ::
                ((ck, sr) :: cs.drop (i + 1)) := by
            rw [hdef, set_append_at _ _ _ _ _
              (show i = (cs.take i).length + 0 from by omega)]
            simp
          have hSkeys : ∀ k ∈ keysOfCs ((ck, sr) :: cs.drop (i + 1)), key < k := by
            intro k hk
            simp only [keysOfCs_cons, List.mem_append] at hk
            rcases hk with hk | hk
            · exact lt_of_le_of_lt hkle (ordKeysB_lower (ordB_keysOf hrord) k hk)
            · exact hdropgt k hk
          have hordQS := hordS
          rw [hdef] at hordQS
          have hszQS := hszS
          rw [hdef] at hszQS
          have hbalQS := hbalS
          rw [hdef] at hbalQS
          have hhtsQS := hhtsS
          rw [hdef] at hhtsQS
          obtain ⟨hFflat, hFold, hFord, hFsz, hFbal, hFhts, hFhl, hFlen, hFread⟩ :=
            child_replace_spec hordQS hszQS hbalQS hhtsQS hQ0keys hSkeys rflat rord
              rsz rbal rh
          rw [insertGo, hidef, if_neg hne1,
            List.getD_eq_getElem cs (default, Node.leaf []) hilt]
          simp only []
          rw [if_pos hcf]
          simp only [hgd_i]
          rw [if_neg hjlt]
          simp only [hgd_i]
          rw [hcsF]
          rw [List.take_left' htl]
          refine ⟨?_, ?_, ?_, ?_, ?_, ?_, ?_, ?_⟩
          · simp only [Node.flatten_internal]
            rw [hFflat, ← hdef, hflatS]
          · simp only [Node.flatten_internal]
            rw [rold, ← hFold, ← hdef, hflatS]
          · simp only [Node.ordB]
            exact hFord
          · have hNlen : (cs.take i ++ (sl.LastKey, (insertGo fuel sl key value).node) ::
                ((ck, sr) :: cs.drop (i + 1))).length = cs.length + 1 := by
              rw [hFlen, ← hdef, hlenS]
            simp only [Node.sizeB, Bool.and_eq_true, decide_eq_true_eq]
            refine ⟨⟨?_, ?_⟩, hFsz⟩
            · rw [hNlen]
              omega
            · split
              · rename_i h
                simp only [decide_eq_true_eq]
                rw [hNlen]
                omega
              · rename_i h
                have hfalse : isRoot = false := by
                  cases isRoot
                  · rfl
                  · exact absurd rfl h
                rw [hfalse] at hszparts
                simp only [if_false, Bool.false_eq_true] at hszparts
                simp only [decide_eq_true_eq]
                rw [hNlen]
                have := hszparts.2.1
                omega
          · simp only [Node.balB, Bool.and_eq_true]
            exact ⟨hFhts, hFbal⟩
          · simp only [Node.height]
            rw [hFhl, ← hdef, hhtcs1, hhtcs]
          · simp only [Node.leavesList_internal]
            exact (hFread _ rlb).2
          · simp only [Node.leavesList_internal]
            rw [(hFread _ rlb).1]
            exact rread
      · -- the child is not full: descend into it directly
        have hcf2 : (cs[i]).2.IsFull = false := by
          simpa using hcf
        obtain ⟨ck, hck⟩ : ∃ x, (cs[i]).1 = x := ⟨_, rfl⟩
        obtain ⟨c2, hc2⟩ : ∃ x, (cs[i]).2 = x := ⟨_, rfl⟩
        have hpair : cs[i] = (ck, c2) := by
          rw [← hck, ← hc2]
        rw [hck] at hstop
        rw [hc2] at hcsz hcbal hchlt hcf2
        have hcs2 : cs = cs.take i ++ (ck, c2) :: cs.drop (i + 1) := by
          rw [← hpair]
          exact hcs
        have hordD := hord
        rw [hcs2] at hordD
        obtain ⟨hQ0, hmid⟩ := ordCsB_append.1 hordD
        simp only [ordCsB, Bool.and_eq_true] at hmid
        obtain ⟨⟨⟨hcklo, hckhi⟩, hcord⟩, hdropord⟩ := hmid
        have hQ0keys : ∀ k ∈ keysOfCs (cs.take i), k < key :=
          keysOfCs_lt_of_routing hQ0 hpref
        have hdropgt : ∀ k ∈ keysOfCs (cs.drop (i + 1)), key < k := by
          intro k hk
          have := ordKeysB_lower
            (ordCsB_keysOf (fun c hc lo2 hi2 h => ordB_keysOf h) hdropord) k hk
          exact lt_of_le_of_lt hstop this
        obtain ⟨rflat, rold, rord, rsz, rbal, rh, rlb, rread⟩ :=
          insertGo_spec fuel c2 key value false (olastCs (cs.take i) lo) (some ck)
            hchlt hcord hcsz hcbal hcf2
            (lowOkB_olastCs hpref hklo) (by simpa [hiOkB] using hstop)
        have hszD := hszparts.2.2
        rw [hcs2] at hszD
        have hbalD := hbal.2
        rw [hcs2] at hbalD
        have hhtsD := hbal.1
        rw [hcs2] at hhtsD
        obtain ⟨hFflat, hFold, hFord, hFsz, hFbal, hFhts, hFhl, hFlen, hFread⟩ :=
          child_replace_spec hordD hszD hbalD hhtsD hQ0keys hdropgt rflat rord
            rsz rbal rh
        have hcsF : cs.set i (ck, (insertGo fuel c2 key value).node) =
            cs.take i ++ (ck, (insertGo fuel c2 key value).node) :: cs.drop (i + 1) :=
          set_eq_take_cons_drop cs i _ hilt
        rw [insertGo, hidef, if_neg hne1,
          List.getD_eq_getElem cs (default, Node.leaf []) hilt]
        simp only []
        rw [hck, hc2]
        rw [if_neg (show ¬(c2.IsFull = true) from by simp [hcf2])]
        rw [hcsF]
        rw [List.take_left' htl]
        refine ⟨?_, ?_, ?_, ?_, ?_, ?_, ?_, ?_⟩
        · simp only [Node.flatten_internal]
          rw [hFflat, ← hcs2]
        · simp only [Node.flatten_internal]
          rw [rold, ← hFold, ← hcs2]
        · simp only [Node.ordB]
          exact hFord
        · have hNlen : (cs.take i ++ (ck, (insertGo fuel c2 key value).node) ::
              cs.drop (i + 1)).length = cs.length := by
            rw [hFlen, ← hcs2]
          simp only [Node.sizeB, Bool.and_eq_true, decide_eq_true_eq]
          refine ⟨⟨?_, ?_⟩, hFsz⟩
          · rw [hNlen]
            exact hszparts.1
          · split
            · rename_i h
              rw [h] at hszparts
              simp only [if_true] at hszparts
              simp only [decide_eq_true_eq]
              rw [hNlen]
              omega
            · rename_i h
              have hfalse : isRoot = false := by
                cases isRoot
                · rfl
                · exact absurd rfl h
              rw [hfalse] at hszparts
              simp only [if_false, Bool.false_eq_true] at hszparts
              simp only [decide_eq_true_eq]
              rw [hNlen]
              have := hszparts.2.1
              omega
        · simp only [Node.balB, Bool.and_eq_true]
          exact ⟨hFhts, hFbal⟩
        · simp only [Node.height]
          rw [hFhl, ← hcs2]
        · simp only [Node.leavesList_internal]
          exact (hFread _ rlb).2
        · simp only [Node.leavesList_internal]
          rw [(hFread _ rlb).1]
          exact rread

end InsertGoSpec

section InsertSpec

variable {K V : Type} [LinearOrder K] [Inhabited K] [Inhabited V]

set_option maxHeartbeats 1000000

/-- A nonempty well-ordered subtree is also well-ordered below its own
last key: `LastKey` bounds every key of the subtree from above. -/
theorem ordB_self_LastKey {t : Node K V} {lo hi : Option K}
    (hne : 0 < t.Size) (h : t.ordB lo hi = true) :
    t.ordB lo (some t.LastKey) = true := by
  cases t with
  | leaf kvs =>
    have hkne : kvs ≠ [] := by
      intro hx
      rw [hx] at hne
      simp [Node.Size] at hne
    have h2 := ordKeysB_self_last (by simpa [Node.ordB] using h)
    rw [LastKey_leaf_olast hkne lo] at h2
    simpa [Node.ordB] using h2
  | internal cs =>
    have hkne : cs ≠ [] := by
      intro hx
      rw [hx] at hne
      simp [Node.Size] at hne
    have h2 := ordCsB_self_last (by simpa [Node.ordB] using h)
    rw [LastKey_internal_olastCs hkne lo] at h2
    simpa [Node.ordB] using h2

/-- The last key of a nonempty subtree lies above the subtree strict
lower bound. -/
theorem LastKey_gt_lo {t : Node K V} {a : K} {hi : Option K}
    (hne : 0 < t.Size) (h : t.ordB (some a) hi = true) :
    a < t.LastKey := by
  cases t with
  | leaf kvs =>
    have hkne : kvs ≠ [] := by
      intro hx
      rw [hx] at hne
      simp [Node.Size] at hne
    obtain ⟨x, hx, hxm⟩ := olast_some_mem (l := kvs.map Prod.fst)
      (by simpa using hkne) (some a)
    have hfold := (LastKey_leaf_olast hkne (some a)).symm.trans hx
    have hxeq : (Node.leaf kvs : Node K V).LastKey = x := Option.some_inj.1 hfold
    have := ordKeysB_lower (by simpa [Node.ordB] using h) x hxm
    rwa [hxeq]
  | internal cs =>
    have hkne : cs ≠ [] := by
      intro hx
      rw [hx] at hne
      simp [Node.Size] at hne
    obtain ⟨x, hx, hxm⟩ := olast_some_mem (l := cs.map Prod.fst)
      (by simpa using hkne) (some a)
    have hfold := (LastKey_internal_olastCs hkne (some a)).symm.trans
      (show olastCs cs (some a) = some x from hx)
    have hxeq : (Node.internal cs : Node K V).LastKey = x := Option.some_inj.1 hfold
    have := ordKeysB_lower (ordCsB_routing (by simpa [Node.ordB] using h)) x hxm
    rwa [hxeq]

/-- `splitRoot` on a full well-formed root preserves the stored pairs
and the invariants, raises the height by one, and installs a root of
size 2 that is not full. -/
theorem splitRoot_spec {m : Map K V} (hfull : m.root.IsFull = true)
    (hord : m.root.ordB none none = true) (hsz : m.root.sizeB true = true)
    (hbal : m.root.balB = true) :
    (m.splitRoot).root.flatten = m.root.flatten ∧
    (m.splitRoot).root.ordB none none = true ∧
    (m.splitRoot).root.sizeB true = true ∧
    (m.splitRoot).root.balB = true ∧
    (m.splitRoot).root.height = m.root.height + 1 ∧
    (m.splitRoot).root.IsFull = false ∧
    (m.splitRoot).n = m.n := by
  have hfull2 : m.root.Size = maxNodes := by
    simpa [Node.IsFull] using hfull
  have hsz4 : 4 ≤ m.root.Size := by
    rw [hfull2]
    decide
  have hszf : m.root.sizeB false = true := by
    cases hr : m.root with
    | leaf kvs =>
      rw [hr] at hfull2
      simp only [Node.Size] at hfull2
      simp only [Node.sizeB, Bool.and_eq_true, Bool.or_eq_true, decide_eq_true_eq]
      refine ⟨by rw [hfull2], Or.inr ?_⟩
      rw [hfull2]
      decide
    | internal cs =>
      rw [hr] at hfull2 hsz
      simp only [Node.Size] at hfull2
      simp only [Node.sizeB, Bool.and_eq_true, decide_eq_true_eq] at hsz ⊢
      refine ⟨⟨hsz.1.1, ?_⟩, hsz.2⟩
      rw [hfull2]
      decide
  obtain ⟨hlsz, hrsz, hlS, hrS⟩ := split_sizeB hszf hfull2
  obtain ⟨hlh, hrh, hlbal, hrbal⟩ := split_height hbal hsz4
  obtain ⟨hlord, hrord, hLKlo, hLKhi, hgap⟩ := split_ord hord hsz4
  have hrpos : 0 < ((m.root.Split).2).Size := by
    rw [hrS]
    decide
  have hr2 : ((m.root.Split).2).ordB (some ((m.root.Split).1).LastKey)
      (some ((m.root.Split).2).LastKey) = true := ordB_self_LastKey hrpos hrord
  have hlt : ((m.root.Split).1).LastKey < ((m.root.Split).2).LastKey :=
    LastKey_gt_lo hrpos hrord
  refine ⟨?_, ?_, ?_, ?_, ?_, ?_, rfl⟩
  · simp only [Map.splitRoot, Node.flatten_internal, Node.flattenCs_cons,
      Node.flattenCs_nil, List.append_nil]
    exact split_flatten m.root
  · simp only [Map.splitRoot, Node.ordB, ordCsB]
    simp [lowOkB, hiOkB, hlord, hr2, hlt]
  · simp only [Map.splitRoot]
    simp [Node.sizeB, sizeCsB, hlsz, hrsz, maxNodes, keyDegr]
  · simp only [Map.splitRoot]
    simp [Node.balB, heightsOkB, balCsB, hlh, hrh, hlbal, hrbal]
  · simp only [Map.splitRoot, Node.height, Node.heightList, hlh, hrh]
    omega
  · simp only [Map.splitRoot, Node.IsFull, Node.Size]
    simp [maxNodes, keyDegr]

/-- `Insert` on a well-formed map: the stored pairs gain the inserted
pair by sorted insert, well-formedness is preserved, the count grows by
one exactly when the key was absent, the returned prior value and
replaced flag report the previous binding, and the returned iterator
reads the stored pair. -/
theorem Insert_spec (m : Map K V) (key : K) (value : V) (hwf : m.WF = true) :
    (m.Insert key value).1.root.flatten = listInsert key value m.root.flatten ∧
    (m.Insert key value).1.WF = true ∧
    (m.Insert key value).1.n =
      (if (lookupKV key m.root.flatten).isSome then m.n else m.n + 1) ∧
    (m.Insert key value).2.2.2 = (lookupKV key m.root.flatten).isSome ∧
    (m.Insert key value).2.2.1 = (lookupKV key m.root.flatten).getD default ∧
    (m.Insert key value).2.1.Key = key ∧
    (m.Insert key value).2.1.Value = value := by
  simp only [Map.WF, Bool.and_eq_true, beq_iff_eq] at hwf
  obtain ⟨⟨⟨hsz, hord⟩, hbal⟩, hn⟩ := hwf
  obtain ⟨m1, hm1, h1flat, h1ord, h1sz, h1bal, h1nf, h1n⟩ :
      ∃ m1 : Map K V, (if m.root.IsFull then m.splitRoot else m) = m1 ∧
        m1.root.flatten = m.root.flatten ∧ m1.root.ordB none none = true ∧
        m1.root.sizeB true = true ∧ m1.root.balB = true ∧
        m1.root.IsFull = false ∧ m1.n = m.n := by
    by_cases hfull : m.root.IsFull = true
    · obtain ⟨hsflat, hsord, hssz, hsbal, hsh, hsnf, hsn⟩ :=
        splitRoot_spec hfull hord hsz hbal
      exact ⟨m.splitRoot, by rw [if_pos hfull], hsflat, hsord, hssz, hsbal, hsnf, hsn⟩
    · exact ⟨m, by rw [if_neg hfull], rfl, hord, hsz, hbal, by simpa using hfull, rfl⟩
  obtain ⟨rflat, rold, rord, rsz, rbal, rh, rlb, rread⟩ :=
    insertGo_spec (m1.root.height + 1) m1.root key value true none none
      (by omega) h1ord h1sz h1bal h1nf rfl rfl
  have hpw : (m1.root.flatten.map Prod.fst).Pairwise (· < ·) :=
    ordKeysB_pairwise (ordB_keysOf h1ord)
  have hlen : (listInsert key value m1.root.flatten).length =
      if (lookupKV key m1.root.flatten).isSome then m1.root.flatten.length
      else m1.root.flatten.length + 1 := listInsert_length value hpw
  have hres : m.Insert key value =
      (⟨(insertGo (m1.root.height + 1) m1.root key value).node,
        if (insertGo (m1.root.height + 1) m1.root key value).old.isSome then m1.n
        else m1.n + 1⟩,
       ⟨(insertGo (m1.root.height + 1) m1.root key value).node.leavesList,
        (insertGo (m1.root.height + 1) m1.root key value).lb,
        (insertGo (m1.root.height + 1) m1.root key value).idx⟩,
       (insertGo (m1.root.height + 1) m1.root key value).old.getD default,
       (insertGo (m1.root.height + 1) m1.root key value).old.isSome) := by
    rw [Map.Insert, hm1]
  rw [hres]
  rw [h1flat] at rflat rold
  refine ⟨rflat, ?_, ?_, ?_, ?_, ?_, ?_⟩
  · simp only [Map.WF, Bool.and_eq_true, beq_iff_eq]
    refine ⟨⟨⟨rsz, rord⟩, rbal⟩, ?_⟩
    rw [rflat, rold]
    rw [h1flat] at hlen
    rw [hlen, h1n, hn]
  · rw [rold, h1n]
  · rw [rold]
  · rw [rold]
  · simp only [Iterator.Key, Iterator.leafAt]
    rw [show (default : K × V) = ((default : K), (default : V)) from rfl, rread]
  · simp only [Iterator.Value, Iterator.leafAt]
    rw [show (default : K × V) = ((default : K), (default : V)) from rfl, rread]

end InsertSpec

/-! ## Round trip: sequences of inserts, and the Insert contract -/

section RoundTrip

variable {K V : Type} [LinearOrder K] [Inhabited K] [Inhabited V]

/-- A finite sequence of `Insert` calls applied in order. -/
def Map.insertList (m : Map K V) (ins : List (K × V)) : Map K V :=
  ins.foldl (fun acc kv => (acc.Insert kv.1 kv.2).1) m

/-- `lookupKV` after `listInsert` reads the inserted value at the
inserted key and is unchanged at every other key. -/
theorem lookupKV_listInsert (l : List (K × V)) (k a : K) (v : V) :
    lookupKV a (listInsert k v l) = if a = k then some v else lookupKV a l := by
  induction l with
  | nil =>
    by_cases h : a = k
    · simp [listInsert, lookupKV, h]
    · simp [listInsert, lookupKV, h, Ne.symm h]
  | cons e l ih =>
    by_cases h1 : k = e.1
    · by_cases h2 : a = k
      · simp [listInsert, lookupKV, h1, h2]
      · simp [listInsert, lookupKV, h1, h2, Ne.symm h2,
          show ¬(e.1 = a) from fun hx => h2 (hx.symm.trans h1.symm),
          show ¬(a = e.1) from fun hx => h2 (hx.trans h1.symm)]
    · by_cases h3 : k < e.1
      · by_cases h2 : a = k
        · simp [listInsert, lookupKV, h1, h3, h2]
        · simp [listInsert, lookupKV, h1, h3, h2, Ne.symm h2]
      · have hlt : e.1 < k := lt_of_le_of_ne (not_lt.1 h3) (fun hx => h1 hx.symm)
        by_cases h4 : e.1 = a
        · have hak : ¬(a = k) := by
            intro hx
            rw [← h4] at hx
            rw [hx] at hlt
            exact lt_irrefl _ hlt
          simp [listInsert, lookupKV, h4, hak,
            show ¬(k = a) from fun hx => hak hx.symm,
            show ¬(k < a) from not_lt.2 (le_of_lt (h4 ▸ hlt))]
        · simp [listInsert, lookupKV, h1, h3, h4, ih]

/-- The key set after `listInsert` is the old key set plus the
inserted key. -/
theorem mem_listInsert_keys (l : List (K × V)) (k a : K) (v : V) :
    a ∈ (listInsert k v l).map Prod.fst ↔ a = k ∨ a ∈ l.map Prod.fst := by
  induction l with
  | nil => simp [listInsert]
  | cons e l ih =>
    by_cases h1 : k = e.1
    · simp only [listInsert, if_pos h1, List.map_cons, List.mem_cons]
      rw [h1]
      tauto
    · by_cases h3 : k < e.1
      · simp only [listInsert, if_neg h1, if_pos h3, List.map_cons, List.mem_cons]
      · simp only [listInsert, if_neg h1, if_neg h3, List.map_cons, List.mem_cons, ih]
        tauto

/-- Keys after a fold of sorted inserts: exactly the inserted keys
plus the starting keys. -/
theorem mem_foldl_listInsert_keys (ins : List (K × V)) (l : List (K × V)) (a : K) :
    (a ∈ (ins.foldl (fun acc kv => listInsert kv.1 kv.2 acc) l).map Prod.fst) ↔
      a ∈ ins.map Prod.fst ∨ a ∈ l.map Prod.fst := by
  induction ins generalizing l with
  | nil => simp
  | cons kv ins ih =>
    simp only [List.foldl_cons, ih, mem_listInsert_keys, List.map_cons, List.mem_cons]
    tauto

/-- A fold of sorted inserts keeps the key sequence strictly
increasing. -/
theorem ordKeys_foldl_listInsert (ins : List (K × V)) (l : List (K × V))
    (h : ordKeysB none none (l.map Prod.fst) = true) :
    ordKeysB none none
      ((ins.foldl (fun acc kv => listInsert kv.1 kv.2 acc) l).map Prod.fst) = true := by
  induction ins generalizing l with
  | nil => simpa using h
  | cons kv ins ih =>
    simp only [List.foldl_cons]
    exact ih _ (listInsert_ordKeys h rfl rfl)

/-- Lookup in a fold of sorted inserts: the last insert with the key
wins; keys never inserted fall through to the start list. -/
theorem lookupKV_foldl_listInsert (ins : List (K × V)) (l : List (K × V)) (a : K) :
    lookupKV a (ins.foldl (fun acc kv => listInsert kv.1 kv.2 acc) l) =
      match lookupKV a ins.reverse with
      | some v => some v
      | none => lookupKV a l := by
  induction ins generalizing l with
  | nil => simp [lookupKV]
  | cons kv ins ih =>
    simp only [List.foldl_cons, List.reverse_cons]
    rw [ih, lookupKV_append]
    cases lookupKV a ins.reverse with
    | some w => rfl
    | none =>
      simp only [lookupKV_listInsert]
      by_cases h : a = kv.1
      · simp [lookupKV, h]
      · simp [lookupKV, h, Ne.symm h]

/-- A fresh map is well-formed. -/
theorem new_WF : (Map.new : Map K V).WF = true := by
  simp [Map.WF, Map.new, Node.sizeB, Node.ordB, Node.balB, ordKeysB, maxNodes, keyDegr]

/-- Folding `Insert` calls preserves well-formedness and folds the
stored pairs by sorted insert. -/
theorem insertList_spec (ins : List (K × V)) :
    ∀ m : Map K V, m.WF = true →
      (m.insertList ins).WF = true ∧
      (m.insertList ins).root.flatten =
        ins.foldl (fun acc kv => listInsert kv.1 kv.2 acc) m.root.flatten := by
  induction ins with
  | nil =>
    intro m hwf
    exact ⟨hwf, rfl⟩
  | cons kv ins ih =>
    intro m hwf
    obtain ⟨hflat, hwf2, _⟩ := Insert_spec m kv.1 kv.2 hwf
    obtain ⟨h1, h2⟩ := ih (m.Insert kv.1 kv.2).1 hwf2
    refine ⟨h1, ?_⟩
    simp only [Map.insertList, List.foldl_cons] at h2 ⊢
    rw [h2, hflat]

/-- C1: from a new map, any sequence of `Insert` calls followed by
iteration from `Begin` until `End` yields exactly the distinct
inserted keys in strictly ascending order, each paired with the value
of the last `Insert` call with that key. -/
theorem claim1_round_trip (ins : List (K × V)) :
    (((Map.new : Map K V).insertList ins).toSeq.map Prod.fst).Pairwise (· < ·) ∧
    (∀ a : K, a ∈ ((Map.new : Map K V).insertList ins).toSeq.map Prod.fst ↔
      a ∈ ins.map Prod.fst) ∧
    (∀ a : K, lookupKV a ((Map.new : Map K V).insertList ins).toSeq =
      lookupKV a ins.reverse) := by
  obtain ⟨hwf, hflat⟩ := insertList_spec ins Map.new new_WF
  have hseq := toSeq_eq_flatten hwf
  have hnewflat : (Map.new : Map K V).root.flatten = [] := rfl
  rw [hseq, hflat, hnewflat]
  refine ⟨?_, ?_, ?_⟩
  · exact ordKeysB_pairwise (ordKeys_foldl_listInsert ins [] (by simp [ordKeysB]))
  · intro a
    rw [mem_foldl_listInsert_keys ins [] a]
    simp
  · intro a
    rw [lookupKV_foldl_listInsert]
    cases lookupKV a ins.reverse with
    | some w => rfl
    | none => rfl

/-- C3: `Insert` returns an iterator positioned at the stored pair
(its `Key` is the inserted key and its `Value` the inserted value),
together with the prior value and `replaced = true` when the key was
already present (and then `Len` is unchanged), or the zero value and
`replaced = false` when it was absent (and then `Len` grows by exactly
one). -/
theorem claim3_insert_contract (m : Map K V) (key : K) (value : V)
    (hwf : m.WF = true) :
    (m.Insert key value).2.1.Key = key ∧
    (m.Insert key value).2.1.Value = value ∧
    ((lookupKV key m.root.flatten).isSome = true →
      (m.Insert key value).2.2.2 = true ∧
      (m.Insert key value).2.2.1 = (lookupKV key m.root.flatten).getD default ∧
      (m.Insert key value).1.Len = m.Len) ∧
    ((lookupKV key m.root.flatten).isSome = false →
      (m.Insert key value).2.2.2 = false ∧
      (m.Insert key value).2.2.1 = default ∧
      (m.Insert key value).1.Len = m.Len + 1) := by
  obtain ⟨hflat, hwf2, hcount, hrep, hprior, hkey, hval⟩ := Insert_spec m key value hwf
  refine ⟨hkey, hval, ?_, ?_⟩
  · intro hs
    refine ⟨by rw [hrep, hs], by rw [hprior], ?_⟩
    simp only [Map.Len]
    rw [hcount, if_pos hs]
  · intro hs
    refine ⟨by rw [hrep, hs], ?_, ?_⟩
    · cases hx : lookupKV key m.root.flatten with
      | some w =>
        rw [hx] at hs
        simp at hs
      | none =>
        rw [hprior, hx]
        rfl
    · simp only [Map.Len]
      rw [hcount, if_neg (by simp [hs])]

/-- Witness for C3 at a concrete input: inserting into a fresh map. -/
theorem claim3_witness :
    (Map.new : Map Nat Nat).WF = true ∧
    (((Map.new : Map Nat Nat).Insert 5 7).2.1.Key = 5 ∧
     ((Map.new : Map Nat Nat).Insert 5 7).2.1.Value = 7 ∧
     ((lookupKV 5 (Map.new : Map Nat Nat).root.flatten).isSome = true →
       ((Map.new : Map Nat Nat).Insert 5 7).2.2.2 = true ∧
       ((Map.new : Map Nat Nat).Insert 5 7).2.2.1 =
         (lookupKV 5 (Map.new : Map Nat Nat).root.flatten).getD default ∧
       ((Map.new : Map Nat Nat).Insert 5 7).1.Len = (Map.new : Map Nat Nat).Len) ∧
     ((lookupKV 5 (Map.new : Map Nat Nat).root.flatten).isSome = false →
       ((Map.new : Map Nat Nat).Insert 5 7).2.2.2 = false ∧
       ((Map.new : Map Nat Nat).Insert 5 7).2.2.1 = default ∧
       ((Map.new : Map Nat Nat).Insert 5 7).1.Len =
         (Map.new : Map Nat Nat).Len + 1)) :=
  ⟨by decide, claim3_insert_contract Map.new 5 7 (by decide)⟩

end RoundTrip

/-! ## LowerBound -/

section LowerBoundSpec

variable {K V : Type} [LinearOrder K] [Inhabited K] [Inhabited V]

set_option maxHeartbeats 1000000

theorem take_append_plus {α : Type} (l1 l2 : List α) (n : Nat) :
    (l1 ++ l2).take (l1.length + n) = l1 ++ l2.take n := by
  induction l1 with
  | nil => simp
  | cons a l ih =>
    simp only [List.cons_append, List.length_cons]
    rw [show l.length + 1 + n = (l.length + n) + 1 from by omega, List.take_succ_cons]
    rw [ih]

theorem take_append_at {α : Type} (l1 l2 : List α) (n m : Nat)
    (h : n = l1.length + m) : (l1 ++ l2).take n = l1 ++ l2.take m := by
  rw [h, take_append_plus]

theorem getLastD_irrel {α : Type} (l : List α) (d e : α) (h : l ≠ []) :
    l.getLastD d = l.getLastD e := by
  cases l with
  | nil => exact absurd rfl h
  | cons a t => simp [List.getLastD]

theorem getLastD_append_right {α : Type} (l1 l2 : List α) (d : α) (h : l2 ≠ []) :
    (l1 ++ l2).getLastD d = l2.getLastD d := by
  induction l1 generalizing d with
  | nil => simp
  | cons a t ih =>
    rw [List.cons_append, List.getLastD_cons, ih a]
    exact getLastD_irrel l2 a d h

/-- A node within size bounds stores at least one pair. -/
theorem flatten_ne_of_sizeB {t : Node K V} (h : t.sizeB false = true) :
    t.flatten ≠ [] := by
  induction t using Node.recur with
  | hleaf kvs =>
    simp only [Node.sizeB, Bool.false_or, Bool.and_eq_true, decide_eq_true_eq] at h
    intro hx
    simp only [Node.flatten_leaf] at hx
    rw [hx] at h
    simp [minNodes, keyDegr] at h
  | hint cs ih =>
    simp only [Node.sizeB, Bool.and_eq_true, decide_eq_true_eq] at h
    cases cs with
    | nil => simp [minNodes, keyDegr] at h
    | cons c cs2 =>
      have hc := ih c (by simp) (sizeCsB_mem h.2 c (by simp))
      simp only [Node.flatten_internal, Node.flattenCs_cons]
      intro hx
      exact hc (List.append_eq_nil.1 hx).1

/-- Every leaf in a child list within size bounds is nonempty. -/
theorem sizeCsB_leavesNE {cs : List (K × Node K V)} (h : sizeCsB cs = true) :
    ∀ l ∈ Node.leavesListCs cs, l ≠ [] := by
  induction cs with
  | nil => simp
  | cons c cs2 ih =>
    simp only [sizeCsB, Bool.and_eq_true] at h
    intro l hl
    simp only [Node.leavesListCs_cons, List.mem_append] at hl
    rcases hl with hl | hl
    · exact sizeB_leavesNE h.1 l hl
    · exact ih h.2 l hl

/-- The flattened pairs of a child list are the flattened leaf
list. -/
theorem flattenCs_eq_leaves (cs : List (K × Node K V)) :
    Node.flattenCs cs = (Node.leavesListCs cs).flatten := by
  induction cs with
  | nil => simp
  | cons c cs2 ih =>
    simp only [Node.flattenCs_cons, Node.leavesListCs_cons, List.flatten_append, ih]
    rfl

/-- Reading a slot of a leaf equals reading the flattened list at the
position given by the leaves before it. -/
theorem leaves_getD_flatten (ls : List (List (K × V))) (n i : Nat) (d : K × V)
    (hn : n < ls.length) (hi : i < (ls.getD n []).length) :
    (ls.getD n []).getD i d = ls.flatten.getD ((ls.take n).flatten.length + i) d := by
  induction ls generalizing n with
  | nil => simp at hn
  | cons L ls ih =>
    cases n with
    | zero =>
      simp only [List.getD_cons_zero] at hi ⊢
      simp only [List.take_zero, List.flatten_nil, List.length_nil, Nat.zero_add,
        List.flatten_cons]
      rw [getD_append_lt _ _ _ _ hi]
    | succ k =>
      simp only [List.getD_cons_succ] at hi ⊢
      simp only [List.take_succ_cons, List.flatten_cons, List.length_append]
      rw [show L.length + (ls.take k).flatten.length + i =
        L.length + ((ls.take k).flatten.length + i) from by omega, getD_append_plus]
      exact ih k (by simpa using hn) hi

/-- The `LowerBound` descent on a well-ordered subtree whose leaves
occupy a contiguous segment of the map leaf list: the returned
iterator sits at the global position counting the keys below the
target, or at the end-of-last-leaf position when every key of the
subtree is below the target and no leaf follows. -/
theorem lowerBoundGo_spec :
    ∀ (fuel : Nat) (m : Map K V) (t : Node K V) (key : K) (lb : Nat) (isRoot : Bool)
      (lo hi : Option K) (P S : List (List (K × V))),
      t.height < fuel →
      t.ordB lo hi = true →
      t.sizeB isRoot = true →
      t.balB = true →
      m.root.leavesList = P ++ t.leavesList ++ S →
      P.length = lb →
      (∀ l ∈ S, l ≠ []) →
      (lowerBoundGo fuel m t key lb).1 = m ∧
      (lowerBoundGo fuel m t key lb).2.leaves = m.root.leavesList ∧
      (((t.flatten.map Prod.fst).countP (fun a => decide (a < key)) < t.flatten.length ∨
          lb + t.leavesList.length < (m.root.leavesList).length) →
        (lowerBoundGo fuel m t key lb).2.node < (m.root.leavesList).length ∧
        (lowerBoundGo fuel m t key lb).2.idx <
          ((m.root.leavesList).getD (lowerBoundGo fuel m t key lb).2.node []).length ∧
        ((m.root.leavesList).take (lowerBoundGo fuel m t key lb).2.node).flatten.length +
            (lowerBoundGo fuel m t key lb).2.idx =
          P.flatten.length +
            (t.flatten.map Prod.fst).countP (fun a => decide (a < key))) ∧
      ((t.flatten.map Prod.fst).countP (fun a => decide (a < key)) = t.flatten.length ∧
          ¬(lb + t.leavesList.length < (m.root.leavesList).length) →
        (lowerBoundGo fuel m t key lb).2.node = lb + t.leavesList.length - 1 ∧
        (lowerBoundGo fuel m t key lb).2.idx = (t.leavesList.getLastD []).length)
  | 0, m, t, key, lb, isRoot, lo, hi, P, S => by
    intro hfuel
    omega
  | fuel + 1, m, .leaf kvs, key, lb, isRoot, lo, hi, P, S => by
    intro hfuel hord hsz hbal hls hP hS
    simp only [Node.ordB] at hord
    have hpw : (kvs.map Prod.fst).Pairwise (· < ·) := ordKeysB_pairwise hord
    have hij : (linearSearchOrdered (kvs.map Prod.fst) key).1 =
        (kvs.map Prod.fst).countP (fun a => decide (a < key)) :=
      search_fst_sorted (kvs.map Prod.fst) key hpw
    have hile : (linearSearchOrdered (kvs.map Prod.fst) key).1 ≤ kvs.length := by
      have := search_fst_le (kvs.map Prod.fst) key
      simpa using this
    have hlsl : (m.root.leavesList).length = P.length + 1 + S.length := by
      rw [hls]
      simp only [List.length_append, Node.leavesList_leaf, List.length_cons,
        List.length_nil]
    have hgd : (m.root.leavesList).getD lb [] = kvs := by
      rw [hls, List.append_assoc, getD_append_at _ _ _ _ _
        (show lb = P.length + 0 from by omega)]
      rfl
    have htake : (m.root.leavesList).take lb = P := by
      rw [hls, List.append_assoc]
      exact List.take_left' hP
    rw [lowerBoundGo]
    by_cases hiq : (linearSearchOrdered (kvs.map Prod.fst) key).1 = kvs.length
    · by_cases hsucc : lb + 1 < (m.root.leavesList).length
      · rw [if_pos (show ((linearSearchOrdered (kvs.map Prod.fst) key).1 == kvs.length &&
          decide (lb + 1 < (m.root.leavesList).length)) = true from by
            simp [hiq, hsucc])]
        have hSpos : 0 < S.length := by omega
        have hgd1 : (m.root.leavesList).getD (lb + 1) [] = S.getD 0 [] := by
          rw [hls, List.append_assoc, getD_append_at _ _ _ _ _
            (show lb + 1 = P.length + 1 from by omega)]
          rfl
        have hS0 : S.getD 0 [] ≠ [] := by
          have hmem : S.getD 0 [] ∈ S := by
            rw [List.getD_eq_getElem _ _ hSpos]
            exact List.getElem_mem hSpos
          exact hS _ hmem
        refine ⟨rfl, rfl, ?_, ?_⟩
        · intro h3
          refine ⟨?_, ?_, ?_⟩
          · show lb + 1 < (m.root.leavesList).length
            exact hsucc
          · show (0 : Nat) < ((m.root.leavesList).getD (lb + 1) []).length
            rw [hgd1]
            exact List.length_pos.2 hS0
          · show ((m.root.leavesList).take (lb + 1)).flatten.length + 0 =
              P.flatten.length + ((Node.leaf kvs : Node K V).flatten.map Prod.fst).countP
                (fun a => decide (a < key))
            rw [hls, List.append_assoc, take_append_at _ _ _ _
              (show lb + 1 = P.length + 1 from by omega)]
            simp only [Node.leavesList_leaf, Node.flatten_leaf, List.cons_append,
              List.nil_append, List.take_succ_cons, List.take_zero, List.flatten_append,
              List.length_append]
            rw [← hij, hiq]
            simp
        · intro h4
          refine absurd ?_ h4.2
          simpa using hsucc
      · rw [if_neg (show ¬(((linearSearchOrdered (kvs.map Prod.fst) key).1 == kvs.length &&
          decide (lb + 1 < (m.root.leavesList).length)) = true) from by
            simp [hsucc])]
        refine ⟨rfl, rfl, ?_, ?_⟩
        · intro h3
          exfalso
          rcases h3 with h3 | h3
          · simp only [Node.flatten_leaf, ← hij] at h3
            omega
          · refine hsucc ?_
            simpa using h3
        · intro h4
          constructor
          · show lb = lb + (Node.leaf kvs : Node K V).leavesList.length - 1
            simp
          · show (linearSearchOrdered (kvs.map Prod.fst) key).1 =
              ((Node.leaf kvs : Node K V).leavesList.getLastD []).length
            simpa [List.getLastD] using hiq
    · have hilt : (linearSearchOrdered (kvs.map Prod.fst) key).1 < kvs.length := by
        omega
      rw [if_neg (show ¬(((linearSearchOrdered (kvs.map Prod.fst) key).1 == kvs.length &&
        decide (lb + 1 < (m.root.leavesList).length)) = true) from by
          simp [hiq])]
      refine ⟨rfl, rfl, ?_, ?_⟩
      · intro h3
        refine ⟨?_, ?_, ?_⟩
        · show lb < (m.root.leavesList).length
          omega
        · show (linearSearchOrdered (kvs.map Prod.fst) key).1 <
            ((m.root.leavesList).getD lb []).length
          rw [hgd]
          exact hilt
        · show ((m.root.leavesList).take lb).flatten.length +
            (linearSearchOrdered (kvs.map Prod.fst) key).1 =
            P.flatten.length + ((Node.leaf kvs : Node K V).flatten.map Prod.fst).countP
              (fun a => decide (a < key))
          rw [htake]
          simp only [Node.flatten_leaf, ← hij]
      · intro h4
        exfalso
        have h4a := h4.1
        simp only [Node.flatten_leaf, ← hij] at h4a
        omega
  | fuel + 1, m, .internal cs, key, lb, isRoot, lo, hi, P, S => by
    intro hfuel hord hsz hbal hls hP hS
    simp only [Node.ordB] at hord
    simp only [Node.balB, Bool.and_eq_true] at hbal
    have hszcs : sizeCsB cs = true := by
      simp only [Node.sizeB, Bool.and_eq_true] at hsz
      exact hsz.2
    have hpos : 0 < cs.length := by
      simp only [Node.sizeB, Bool.and_eq_true, decide_eq_true_eq] at hsz
      rcases hsz with ⟨⟨_, hif⟩, _⟩
      split at hif
      · simp only [decide_eq_true_eq] at hif
        omega
      · simp only [decide_eq_true_eq, minNodes, keyDegr] at hif
        omega
    have hhl2 : Node.heightList cs < fuel := by
      simp only [Node.height] at hfuel
      omega
    obtain ⟨i, hidef⟩ : ∃ n, (linearSearchOrdered ((cs.map Prod.fst).dropLast) key).1 = n :=
      ⟨_, rfl⟩
    have hile : i ≤ cs.length - 1 := by
      rw [← hidef]
      have := search_fst_le ((cs.map Prod.fst).dropLast) key
      simpa using this
    have hilt : i < cs.length := by omega
    have hgetD : cs.getD i (default, Node.leaf []) = cs[i] :=
      List.getD_eq_getElem cs _ hilt
    have hcmem : cs[i] ∈ cs := List.getElem_mem hilt
    have hcsz : (cs[i]).2.sizeB false = true := sizeCsB_mem hszcs _ hcmem
    have hcbal : (cs[i]).2.balB = true := balCsB_mem hbal.2 _ hcmem
    have hchlt : (cs[i]).2.height < fuel := by
      have := heightList_mem_le _ hcmem
      omega
    have htl : (cs.take i).length = i := by
      rw [List.length_take]
      exact Nat.min_eq_left (le_of_lt hilt)
    -- the scanned routing prefix is below the key
    have hdt : ((cs.map Prod.fst).dropLast).take i = (cs.map Prod.fst).take i := by
      rw [List.dropLast_eq_take, List.take_take]
      congr 1
      simp only [List.length_map]
      omega
    have hpref : ∀ x ∈ (cs.take i).map Prod.fst, x < key := by
      have h := search_take_lt ((cs.map Prod.fst).dropLast) key
      rw [hidef, hdt, ← List.map_take] at h
      exact h
    -- decompose the child list
    have hcs : cs = cs.take i ++ cs[i] :: cs.drop (i + 1) := by
      conv_lhs => rw [← List.take_append_drop i cs]
      rw [← List.getElem_cons_drop cs i hilt]
    have hordD := hord
    rw [hcs] at hordD
    obtain ⟨hQ0, hmid⟩ := ordCsB_append.1 hordD
    simp only [ordCsB, Bool.and_eq_true] at hmid
    obtain ⟨⟨⟨hcklo, hckhi⟩, hcord⟩, hdropord⟩ := hmid
    have hQkeys : ∀ a ∈ keysOfCs (cs.take i), a < key :=
      keysOfCs_lt_of_routing hQ0 hpref
    -- keys after the chosen child are not below the key
    have hCkeys : ∀ a ∈ keysOfCs (cs.drop (i + 1)), ¬(a < key) := by
      by_cases hi2 : i < cs.length - 1
      · have hstop := search_stop_ge ((cs.map Prod.fst).dropLast) key
          (by rw [hidef]; simpa using hi2)
        rw [hidef] at hstop
        have hgl : ((cs.map Prod.fst).dropLast).getD i key = (cs[i]).1 := by
          rw [List.getD_eq_getElem _ _ (by simpa using hi2)]
          rw [List.getElem_dropLast, List.getElem_map]
        rw [hgl] at hstop
        intro a ha
        have := ordKeysB_lower
          (ordCsB_keysOf (fun c hc lo2 hi2 h => ordB_keysOf h) hdropord) a ha
        exact not_lt.2 (le_of_lt (lt_of_le_of_lt hstop this))
      · have hdrop : cs.drop (i + 1) = [] := List.drop_eq_nil_of_le (by omega)
        rw [hdrop]
        simp [keysOfCs]
    -- count decomposition
    have hkeys0 : keysOfCs cs =
        keysOfCs (cs.take i) ++ (keysOf (cs[i]).2 ++ keysOfCs (cs.drop (i + 1))) := by
      conv_lhs => rw [hcs]
      rw [keysOfCs_append, keysOfCs_cons]
    have hkeys : (Node.internal cs : Node K V).flatten.map Prod.fst =
        keysOfCs (cs.take i) ++ (keysOf (cs[i]).2 ++ keysOfCs (cs.drop (i + 1))) := by
      rw [Node.flatten_internal]
      exact hkeys0
    have hcountQ : (keysOfCs (cs.take i)).countP (fun a => decide (a < key)) =
        (keysOfCs (cs.take i)).length :=
      List.countP_eq_length.2 (fun a ha => by simpa using hQkeys a ha)
    have hcountC : (keysOfCs (cs.drop (i + 1))).countP (fun a => decide (a < key)) = 0 := by
      rw [List.countP_eq_zero]
      intro a ha
      simpa using hCkeys a ha
    have hcount : ((Node.internal cs : Node K V).flatten.map Prod.fst).countP
        (fun a => decide (a < key)) =
        (Node.flattenCs (cs.take i)).length +
          (keysOf (cs[i]).2).countP (fun a => decide (a < key)) := by
      rw [hkeys, List.countP_append, List.countP_append, hcountQ, hcountC]
      simp [keysOfCs]
    -- leaf-list decomposition
    have hlvs : (Node.internal cs : Node K V).leavesList =
        Node.leavesListCs (cs.take i) ++ (cs[i]).2.leavesList ++
          Node.leavesListCs (cs.drop (i + 1)) := by
      rw [Node.leavesList_internal]
      conv_lhs => rw [hcs]
      rw [Node.leavesListCs_append, Node.leavesListCs_cons, List.append_assoc]
    have hls2 : m.root.leavesList =
        (P ++ Node.leavesListCs (cs.take i)) ++ (cs[i]).2.leavesList ++
          (Node.leavesListCs (cs.drop (i + 1)) ++ S) := by
      rw [hls, hlvs]
      simp
    have hS2 : ∀ l ∈ Node.leavesListCs (cs.drop (i + 1)) ++ S, l ≠ [] := by
      intro l hl
      rcases List.mem_append.1 hl with hl | hl
      · have hszdrop : sizeCsB (cs.drop (i + 1)) = true := by
          have := hszcs
          rw [hcs, sizeCsB_append] at this
          simp only [Bool.and_eq_true, sizeCsB] at this
          exact this.2.2
        exact sizeCsB_leavesNE hszdrop l hl
      · exact hS l hl
    obtain ⟨e1, e2, e3, e4⟩ :=
      lowerBoundGo_spec fuel m (cs[i]).2 key (lb + (Node.leavesListCs (cs.take i)).length)
        false (olastCs (cs.take i) lo) (some (cs[i]).1)
        (P ++ Node.leavesListCs (cs.take i)) (Node.leavesListCs (cs.drop (i + 1)) ++ S)
        hchlt hcord hcsz hcbal hls2 (by simp [hP]) hS2
    -- flatten length decomposition
    have hflat : (Node.internal cs : Node K V).flatten.length =
        (Node.flattenCs (cs.take i)).length + ((cs[i]).2.flatten.length +
          (Node.flattenCs (cs.drop (i + 1))).length) := by
      rw [Node.flatten_internal]
      conv_lhs => rw [hcs]
      rw [Node.flattenCs_append, Node.flattenCs_cons]
      simp only [List.length_append]
    have hcountle : (keysOf (cs[i]).2).countP (fun a => decide (a < key)) ≤
        (cs[i]).2.flatten.length := by
      have := List.countP_le_length (p := fun a => decide (a < key))
        (l := keysOf (cs[i]).2)
      simpa [keysOf] using this
    have hlvl : (Node.internal cs : Node K V).leavesList.length =
        (Node.leavesListCs (cs.take i)).length + ((cs[i]).2.leavesList.length +
          (Node.leavesListCs (cs.drop (i + 1))).length) := by
      rw [hlvs]
      simp
    have hPflat : (P ++ Node.leavesListCs (cs.take i)).flatten.length =
        P.flatten.length + (Node.flattenCs (cs.take i)).length := by
      rw [List.flatten_append, List.length_append, flattenCs_eq_leaves]
    -- reduce the goal to the recursive call
    rw [lowerBoundGo]
    rw [hidef, hgetD]
    refine ⟨e1, e2, ?_, ?_⟩
    · intro h3
      have h3c : (((cs[i]).2.flatten.map Prod.fst).countP (fun a => decide (a < key)) <
          (cs[i]).2.flatten.length ∨
          lb + (Node.leavesListCs (cs.take i)).length + (cs[i]).2.leavesList.length <
            (m.root.leavesList).length) := by
        rcases h3 with h3 | h3
        · rw [hcount] at h3
          rw [hflat] at h3
          by_cases hc2 : ((cs[i]).2.flatten.map Prod.fst).countP
              (fun a => decide (a < key)) < (cs[i]).2.flatten.length
          · exact Or.inl hc2
          · right
            have hceq : (keysOf (cs[i]).2).countP (fun a => decide (a < key)) =
                (cs[i]).2.flatten.length := by
              have : ¬((keysOf (cs[i]).2).countP (fun a => decide (a < key)) <
                  (cs[i]).2.flatten.length) := by
                simpa [keysOf] using hc2
              omega
            have hCpos : 0 < (Node.flattenCs (cs.drop (i + 1))).length := by omega
            have hlvC : 0 < (Node.leavesListCs (cs.drop (i + 1))).length := by
              rcases List.exists_mem_of_ne_nil _ (show Node.flattenCs (cs.drop (i + 1)) ≠ []
                from fun hx => by rw [hx] at hCpos; simp at hCpos) with ⟨x, hx⟩
              rw [flattenCs_eq_leaves] at hx
              obtain ⟨l, hl, _⟩ := List.mem_flatten.1 hx
              exact List.length_pos.2 (fun hx2 => by rw [hx2] at hl; simp at hl)
            have hlen := congrArg List.length hls
            rw [List.length_append, List.length_append, hlvl] at hlen
            omega
        · have hlen := congrArg List.length hls
          rw [List.length_append, List.length_append, hlvl] at hlen
          omega
      obtain ⟨v1, v2, v3⟩ := e3 h3c
      refine ⟨v1, v2, ?_⟩
      rw [v3, hPflat, hcount]
      simp only [keysOf]
      omega
    · intro h4
      rw [hcount] at h4
      obtain ⟨h4a, h4b⟩ := h4
      rw [hflat] at h4a
      have hceq : (keysOf (cs[i]).2).countP (fun a => decide (a < key)) =
          (cs[i]).2.flatten.length ∧ (Node.flattenCs (cs.drop (i + 1))).length = 0 := by
        constructor
        · omega
        · omega
      have hlvC : Node.leavesListCs (cs.drop (i + 1)) = [] := by
        have hflC : Node.flattenCs (cs.drop (i + 1)) = [] :=
          List.length_eq_zero.1 hceq.2
        rw [flattenCs_eq_leaves] at hflC
        cases hd : Node.leavesListCs (cs.drop (i + 1)) with
        | nil => rfl
        | cons L ls2 =>
          exfalso
          have hLne : L ≠ [] := hS2 L (by simp [hd])
          rw [hd] at hflC
          simp only [List.flatten_cons] at hflC
          exact hLne (List.append_eq_nil.1 hflC).1
      have h4c : ((cs[i]).2.flatten.map Prod.fst).countP (fun a => decide (a < key)) =
          (cs[i]).2.flatten.length ∧
          ¬(lb + (Node.leavesListCs (cs.take i)).length + (cs[i]).2.leavesList.length <
            (m.root.leavesList).length) := by
        constructor
        · simpa [keysOf] using hceq.1
        · have hlv0 : (Node.leavesListCs (cs.drop (i + 1))).length = 0 := by
            rw [hlvC]
            rfl
          rw [hlvl, hlv0] at h4b
          omega
      obtain ⟨w1, w2⟩ := e4 h4c
      refine ⟨?_, ?_⟩
      · rw [w1, hlvl, hlvC]
        simp only [List.length_nil]
        omega
      · rw [w2, hlvs, hlvC, List.append_nil]
        rw [getLastD_append_right]
        have := leavesList_length_pos hcsz
        exact List.length_pos.1 this

theorem getElem_mem_take {α : Type} (l : List α) (n p : Nat) (hp : p < n)
    (hl : p < l.length) : l[p] ∈ l.take n := by
  have hlen2 : p < (l.take n).length := by
    rw [List.length_take]
    omega
  have hg : (l.take n)[p] = l[p] := by rw [List.getElem_take]
  rw [← hg]
  exact List.getElem_mem hlen2

theorem iterEq (a b : Iterator K V) (h1 : a.leaves = b.leaves) (h2 : a.node = b.node)
    (h3 : a.idx = b.idx) : a = b := by
  cases a
  cases b
  simp only [Iterator.mk.injEq]
  exact ⟨h1, h2, h3⟩

/-- In a well-formed map with more than one leaf, every leaf is
nonempty. -/
theorem root_leaves_ne {m : Map K V} (hsz : m.root.sizeB true = true)
    (hlen : 1 < (m.root.leavesList).length) : ∀ l ∈ m.root.leavesList, l ≠ [] := by
  obtain ⟨r, hr⟩ : ∃ r, m.root = r := ⟨_, rfl⟩
  rw [hr] at hsz hlen ⊢
  cases r with
  | leaf kvs => simp [Node.leavesList_leaf] at hlen
  | internal cs =>
    simp only [Node.sizeB, Bool.and_eq_true] at hsz
    simp only [Node.leavesList_internal]
    exact sizeCsB_leavesNE hsz.2

/-- Reading the key under a valid iterator position equals reading the
flattened key list at the global position of that slot. -/
theorem iter_key_read (ls : List (List (K × V))) (nd ix : Nat)
    (h1 : nd < ls.length) (h2 : ix < (ls.getD nd []).length) :
    (Iterator.Key ⟨ls, nd, ix⟩ : K) =
      (ls.flatten.map Prod.fst).getD ((ls.take nd).flatten.length + ix) default := by
  have hdec : ls = ls.take nd ++ ls[nd] :: ls.drop (nd + 1) := by
    conv_lhs => rw [← List.take_append_drop nd ls]
    rw [← List.getElem_cons_drop ls nd h1]
  have h2b := h2
  rw [List.getD_eq_getElem _ _ h1] at h2b
  have hb : (ls.take nd).flatten.length + ix < ls.flatten.length := by
    conv_rhs => rw [hdec]
    rw [List.flatten_append, List.flatten_cons]
    simp only [List.length_append]
    omega
  simp only [Iterator.Key, Iterator.leafAt]
  rw [show (default : K × V) = ((default : K), (default : V)) from rfl,
    leaves_getD_flatten ls nd ix _ h1 h2]
  rw [List.getD_eq_getElem _ _ hb, List.getD_eq_getElem _ _
    (show _ < (ls.flatten.map Prod.fst).length from by rw [List.length_map]; exact hb)]
  rw [List.getElem_map]

/-- C6: when some stored key is at or above `k`, `LowerBound k`
returns an iterator (not at `End`) whose key is the smallest stored
key at or above `k`, and `Prev` of it (when it is not `Begin`) reads a
key below `k`; when every stored key is below `k`, `LowerBound k`
returns the end iterator. -/
theorem claim6_lowerBound (m : Map K V) (k : K) (hwf : m.WF = true) :
    ((∃ a ∈ m.root.flatten.map Prod.fst, k ≤ a) →
      ((m.LowerBound k).2).End = false ∧
      k ≤ ((m.LowerBound k).2).Key ∧
      ((m.LowerBound k).2).Key ∈ m.root.flatten.map Prod.fst ∧
      (∀ a ∈ m.root.flatten.map Prod.fst, k ≤ a → ((m.LowerBound k).2).Key ≤ a) ∧
      (((m.LowerBound k).2).Begin = false → (((m.LowerBound k).2).Prev).Key < k)) ∧
    ((∀ a ∈ m.root.flatten.map Prod.fst, a < k) → (m.LowerBound k).2 = m.End) := by
  simp only [Map.WF, Bool.and_eq_true, beq_iff_eq] at hwf
  obtain ⟨⟨⟨hsz, hord⟩, hbal⟩, hn⟩ := hwf
  have hflatls : (m.root.leavesList).flatten = m.root.flatten := rfl
  obtain ⟨e1, e2, e3, e4⟩ :=
    lowerBoundGo_spec (m.root.height + 1) m m.root k 0 true none none [] []
      (by omega) hord hsz hbal (by simp) rfl (by simp)
  obtain ⟨nd, hnd⟩ : ∃ n, (lowerBoundGo (m.root.height + 1) m m.root k 0).2.node = n :=
    ⟨_, rfl⟩
  obtain ⟨ix, hix⟩ : ∃ n, (lowerBoundGo (m.root.height + 1) m m.root k 0).2.idx = n :=
    ⟨_, rfl⟩
  have hit : (lowerBoundGo (m.root.height + 1) m m.root k 0).2 =
      ⟨m.root.leavesList, nd, ix⟩ := iterEq _ _ e2 hnd hix
  have hpw : (m.root.flatten.map Prod.fst).Pairwise (· < ·) :=
    ordKeysB_pairwise (ordB_keysOf hord)
  have hsearch : (linearSearchOrdered (m.root.flatten.map Prod.fst) k).1 =
      (m.root.flatten.map Prod.fst).countP (fun a => decide (a < k)) :=
    search_fst_sorted _ k hpw
  simp only [Map.LowerBound]
  constructor
  · intro hex
    have hjlt : (m.root.flatten.map Prod.fst).countP (fun a => decide (a < k)) <
        m.root.flatten.length := by
      have hle := List.countP_le_length (p := fun a => decide (a < k))
        (l := m.root.flatten.map Prod.fst)
      rw [List.length_map] at hle
      rcases lt_or_eq_of_le hle with h | h
      · exact h
      · exfalso
        obtain ⟨a, ha, hka⟩ := hex
        have hallp : ∀ x ∈ m.root.flatten.map Prod.fst,
            (fun a => decide (a < k)) x = true := by
          apply List.countP_eq_length.1
          rw [h, List.length_map]
        have := hallp a ha
        simp only [decide_eq_true_eq] at this
        exact absurd hka (not_le.2 this)
    obtain ⟨v1, v2, v3⟩ := e3 (Or.inl (by simpa using hjlt))
    rw [hnd] at v1 v2 v3
    rw [hix] at v2 v3
    simp only [List.flatten_nil, List.length_nil, Nat.zero_add] at v3
    have hKey : (Iterator.Key (⟨m.root.leavesList, nd, ix⟩ : Iterator K V)) =
        (m.root.flatten.map Prod.fst).getD
          ((m.root.flatten.map Prod.fst).countP (fun a => decide (a < k))) default := by
      rw [iter_key_read _ _ _ v1 v2, v3, hflatls]
    have hgek : k ≤ (m.root.flatten.map Prod.fst).getD
        ((m.root.flatten.map Prod.fst).countP (fun a => decide (a < k))) default := by
      have h2 := search_stop_ge (m.root.flatten.map Prod.fst) k
        (by rw [hsearch]; simpa using hjlt)
      rw [hsearch, List.getD_eq_getElem _ _ (by simpa using hjlt)] at h2
      rw [List.getD_eq_getElem _ _ (by simpa using hjlt)]
      exact h2
    have hmono : ∀ p q (hp : p < (m.root.flatten.map Prod.fst).length)
        (hq : q < (m.root.flatten.map Prod.fst).length), p ≤ q →
        (m.root.flatten.map Prod.fst)[p] ≤ (m.root.flatten.map Prod.fst)[q] := by
      intro p q hp hq hpq
      rcases eq_or_lt_of_le hpq with h | h
      · subst h
        exact le_refl _
      · exact le_of_lt (List.pairwise_iff_getElem.1 hpw p q hp hq h)
    rw [hit]
    refine ⟨?_, ?_, ?_, ?_, ?_⟩
    · simp only [Iterator.End, Iterator.leafAt]
      have ha : (((m.root.leavesList).getD nd []).length == ix) = false := by
        simp only [beq_eq_false_iff_ne, ne_eq]
        omega
      rw [ha, Bool.false_and]
    · rw [hKey]
      exact hgek
    · rw [hKey, List.getD_eq_getElem _ _ (by simpa using hjlt)]
      exact List.getElem_mem _
    · intro a ha hka
      rw [hKey]
      obtain ⟨p, hp, hpa⟩ := List.mem_iff_getElem.1 ha
      by_cases hpj : p < (m.root.flatten.map Prod.fst).countP (fun a => decide (a < k))
      · exfalso
        have htlt := search_take_lt (m.root.flatten.map Prod.fst) k
        rw [hsearch] at htlt
        have hmem2 : a ∈ (m.root.flatten.map Prod.fst).take
            ((m.root.flatten.map Prod.fst).countP (fun a => decide (a < k))) := by
          rw [← hpa]
          exact getElem_mem_take _ _ _ hpj hp
        exact absurd hka (not_le.2 (htlt a hmem2))
      · rw [List.getD_eq_getElem _ _ (by simpa using hjlt), ← hpa]
        exact hmono _ _ _ _ (by omega)
    · intro hb
      have hb2 : ix ≠ 0 ∨ nd ≠ 0 := by
        by_contra hc
        push_neg at hc
        simp only [Iterator.Begin, hc.1, hc.2] at hb
        simp at hb
      have hcntpos : 0 <
          (m.root.flatten.map Prod.fst).countP (fun a => decide (a < k)) := by
        rcases hb2 with hb2 | hb2
        · omega
        · have hlen2 : 1 < (m.root.leavesList).length := by omega
          have hne0 : m.root.leavesList[0] ≠ [] :=
            root_leaves_ne hsz hlen2 _ (List.getElem_mem (by omega))
          have hposflat : 0 < ((m.root.leavesList).take nd).flatten.length := by
            by_contra hc
            push_neg at hc
            have hz : ((m.root.leavesList).take nd).flatten = [] :=
              List.length_eq_zero.1 (by omega)
            have hall := List.flatten_eq_nil_iff.1 hz
            have hmem0 : m.root.leavesList[0] ∈ (m.root.leavesList).take nd :=
              getElem_mem_take _ _ _ (by omega) (by omega)
            exact hne0 (hall _ hmem0)
          omega
      have hprevlt : (m.root.flatten.map Prod.fst).getD
          ((m.root.flatten.map Prod.fst).countP (fun a => decide (a < k)) - 1)
          default < k := by
        have htlt := search_take_lt (m.root.flatten.map Prod.fst) k
        rw [hsearch] at htlt
        refine htlt _ ?_
        rw [List.getD_eq_getElem _ _ (by simp only [List.length_map] at *; omega)]
        exact getElem_mem_take _ _ _ (by omega)
          (by simp only [List.length_map] at *; omega)
      by_cases hix0 : ix = 0
      · have hnd0 : nd ≠ 0 := by
          rcases hb2 with hb2 | hb2
          · exact absurd hix0 hb2
          · exact hb2
        have hPrev : (Iterator.Prev (⟨m.root.leavesList, nd, ix⟩ : Iterator K V)) =
            ⟨m.root.leavesList, nd - 1,
              ((m.root.leavesList).getD (nd - 1) []).length - 1⟩ := by
          simp [Iterator.Prev, hix0]
        have hlen2 : 1 < (m.root.leavesList).length := by omega
        have hPLne : (m.root.leavesList).getD (nd - 1) [] ≠ [] := by
          refine root_leaves_ne hsz hlen2 _ ?_
          rw [List.getD_eq_getElem _ _ (show nd - 1 < _ from by omega)]
          exact List.getElem_mem _
        have hPLpos : 0 < ((m.root.leavesList).getD (nd - 1) []).length :=
          List.length_pos.2 hPLne
        have htakeS : ((m.root.leavesList).take nd).flatten.length =
            ((m.root.leavesList).take (nd - 1)).flatten.length +
              ((m.root.leavesList).getD (nd - 1) []).length := by
          conv_lhs => rw [show nd = (nd - 1) + 1 from by omega]
          rw [List.take_succ]
          rw [List.getElem?_eq_getElem (show nd - 1 < _ from by omega)]
          simp only [Option.toList_some, List.flatten_append, List.length_append,
            List.flatten_cons, List.flatten_nil, List.append_nil]
          rw [List.getD_eq_getElem _ _ (show nd - 1 < _ from by omega)]
        rw [hPrev, iter_key_read _ _ _ (by omega) (by omega)]
        rw [show ((m.root.leavesList).take (nd - 1)).flatten.length +
            (((m.root.leavesList).getD (nd - 1) []).length - 1) =
            (m.root.flatten.map Prod.fst).countP (fun a => decide (a < k)) - 1 from by
          omega]
        rw [hflatls]
        exact hprevlt
      · have hPrev : (Iterator.Prev (⟨m.root.leavesList, nd, ix⟩ : Iterator K V)) =
            ⟨m.root.leavesList, nd, ix - 1⟩ := by
          simp [Iterator.Prev, hix0]
        rw [hPrev, iter_key_read _ _ _ v1 (by omega)]
        rw [show ((m.root.leavesList).take nd).flatten.length + (ix - 1) =
            (m.root.flatten.map Prod.fst).countP (fun a => decide (a < k)) - 1 from by
          omega]
        rw [hflatls]
        exact hprevlt
  · intro hall
    have hj : (m.root.flatten.map Prod.fst).countP (fun a => decide (a < k)) =
        m.root.flatten.length := by
      have h0 : ∀ a ∈ m.root.flatten.map Prod.fst,
          (fun a => decide (a < k)) a = true := fun a ha => by simpa using hall a ha
      have := List.countP_eq_length.2 h0
      rw [this, List.length_map]
    obtain ⟨w1, w2⟩ := e4 ⟨by simpa using hj, by omega⟩
    rw [hnd] at w1
    rw [hix] at w2
    refine iterEq _ _ ?_ ?_ ?_
    · rw [hit]
      rfl
    · rw [hit]
      show nd = (m.root.leavesList).length - 1
      omega
    · rw [hit]
      show ix = ((m.root.leavesList).getLastD []).length
      rw [w2]

/-- A small concrete map for exercising `LowerBound`. -/
def lbWitnessMap : Map Nat Nat := ⟨.leaf [(1, 10), (3, 30)], 2⟩

/-- Witness for C6 at a concrete input. -/
theorem claim6_witness :
    lbWitnessMap.WF = true ∧
    (((∃ a ∈ lbWitnessMap.root.flatten.map Prod.fst, 2 ≤ a) →
      ((lbWitnessMap.LowerBound 2).2).End = false ∧
      2 ≤ ((lbWitnessMap.LowerBound 2).2).Key ∧
      ((lbWitnessMap.LowerBound 2).2).Key ∈ lbWitnessMap.root.flatten.map Prod.fst ∧
      (∀ a ∈ lbWitnessMap.root.flatten.map Prod.fst, 2 ≤ a →
        ((lbWitnessMap.LowerBound 2).2).Key ≤ a) ∧
      (((lbWitnessMap.LowerBound 2).2).Begin = false →
        (((lbWitnessMap.LowerBound 2).2).Prev).Key < 2)) ∧
    ((∀ a ∈ lbWitnessMap.root.flatten.map Prod.fst, a < 2) →
      (lbWitnessMap.LowerBound 2).2 = lbWitnessMap.End)) :=
  ⟨by decide, claim6_lowerBound lbWitnessMap 2 (by decide)⟩

end LowerBoundSpec

/-! ## Removal: the sorted-erase reference operation and node surgery -/

section RemoveBase

variable {K V : Type} [LinearOrder K] [Inhabited K] [Inhabited V]

set_option maxHeartbeats 1000000

/-- Remove the (unique, in a sorted list) pair under `key`; the list is
unchanged when the key is absent. -/
def listErase (key : K) : List (K × V) → List (K × V)
  | [] => []
  | e :: l => if e.1 = key then l else e :: listErase key l

theorem listErase_id {l : List (K × V)} {key : K}
    (h : ∀ k ∈ l.map Prod.fst, k ≠ key) : listErase key l = l := by
  induction l with
  | nil => rfl
  | cons e l ih =>
    rw [listErase, if_neg (h e.1 (by simp)), ih (fun k hk => h k (by simp [hk]))]

theorem listErase_append_left {A B : List (K × V)} {key : K}
    (h : ∀ k ∈ A.map Prod.fst, k ≠ key) :
    listErase key (A ++ B) = A ++ listErase key B := by
  induction A with
  | nil => simp
  | cons e A2 ih =>
    rw [List.cons_append, listErase, if_neg (h e.1 (by simp)),
      ih (fun k hk => h k (by simp [hk])), List.cons_append]

theorem ordKeysB_weaken_lo {lo2 hi : Option K} {a : K} {l : List K}
    (h : ordKeysB (some a) hi l = true) (hlo : ∀ x, a < x → lowOkB lo2 x = true) :
    ordKeysB lo2 hi l = true := by
  refine ordKeysB_mono_lo h ?_
  intro k hk
  exact hlo k (by simpa [lowOkB] using hk)

theorem listErase_ordKeys {lo hi : Option K} {l : List (K × V)} {key : K}
    (h : ordKeysB lo hi (l.map Prod.fst) = true) :
    ordKeysB lo hi ((listErase key l).map Prod.fst) = true := by
  induction l generalizing lo with
  | nil => simpa using h
  | cons e l ih =>
    simp only [List.map_cons, ordKeysB, Bool.and_eq_true] at h
    by_cases he : e.1 = key
    · rw [listErase, if_pos he]
      refine ordKeysB_weaken_lo h.2 ?_
      intro x hx
      cases lo with
      | none => simp [lowOkB]
      | some b =>
        have : b < e.1 := by simpa [lowOkB] using h.1.1
        simp only [lowOkB, decide_eq_true_eq]
        exact lt_trans this hx
    · rw [listErase, if_neg he]
      simp only [List.map_cons, ordKeysB, Bool.and_eq_true]
      exact ⟨h.1, ih h.2⟩

theorem listErase_length {l : List (K × V)} {key : K} :
    (listErase key l).length =
      if (lookupKV key l).isSome then l.length - 1 else l.length := by
  induction l with
  | nil => simp [listErase, lookupKV]
  | cons e l ih =>
    by_cases he : e.1 = key
    · simp [listErase, lookupKV, he]
    · simp only [listErase, he, if_false, lookupKV, List.length_cons, ih,
        ite_false, Bool.false_eq_true]
      cases hl : lookupKV key l with
      | none => simp
      | some w =>
        have hpos : 0 < l.length := by
          cases l with
          | nil => simp [lookupKV] at hl
          | cons a t => simp
        simp
        omega

theorem lookupKV_eraseIdx_pos {l : List (K × V)} {key : K}
    (h : ∀ k ∈ l.map Prod.fst, k ≠ key) : lookupKV key l = none :=
  lookupKV_eq_none (fun hmem => (h key hmem) rfl)

/-- Node-level lower-bound weakening. -/
theorem ordB_mono_lo {t : Node K V} :
    ∀ (lo1 lo2 hi : Option K), t.ordB lo1 hi = true →
      (∀ k, lowOkB lo1 k = true → lowOkB lo2 k = true) → t.ordB lo2 hi = true := by
  induction t using Node.recur with
  | hleaf kvs =>
    intro lo1 lo2 hi h hm
    simp only [Node.ordB] at h ⊢
    exact ordKeysB_mono_lo h hm
  | hint cs ih =>
    intro lo1 lo2 hi h hm
    simp only [Node.ordB] at h ⊢
    refine ordCsB_mono_lo h hm ?_
    intro c hc hco
    exact ih c (List.mem_of_mem_take hc) _ _ _ hco hm

/-- A node of positive height is interior; height zero means a leaf.
Equal heights on balanced trees force equal kinds, which is what the
Go type assertions in `Merge`/`ShiftLeft`/`ShiftRight` rely on. -/
def SameKind : Node K V → Node K V → Prop
  | .leaf _, .leaf _ => True
  | .internal _, .internal _ => True
  | _, _ => False

theorem sameKind_of_height {a b : Node K V} (h : a.height = b.height) : SameKind a b := by
  cases a with
  | leaf kvs =>
    cases b with
    | leaf _ => trivial
    | internal cs =>
      exact absurd h (by simp only [Node.height]; omega)
  | internal cs =>
    cases b with
    | leaf _ =>
      exact absurd h (by simp only [Node.height]; omega)
    | internal _ => trivial

theorem Merge_flatten {a b : Node K V} (h : SameKind a b) :
    (a.Merge b).flatten = a.flatten ++ b.flatten := by
  cases a <;> cases b <;> simp [Node.Merge, SameKind] at h ⊢

theorem Merge_size {a b : Node K V} (h : SameKind a b) :
    (a.Merge b).Size = a.Size + b.Size := by
  cases a <;> cases b <;> simp [Node.Merge, Node.Size, SameKind] at h ⊢

theorem Merge_ord {a b : Node K V} {lo hi : Option K} {x : K}
    (hk : SameKind a b) (hA : 0 < a.Size)
    (ha : a.ordB lo (some x) = true) (hb : b.ordB (some x) hi = true)
    (hx : hiOkB x hi = true) :
    (a.Merge b).ordB lo hi = true := by
  cases a with
  | leaf kvs =>
    cases b with
    | leaf rkvs =>
      simp only [Node.Size] at hA
      simp only [Node.Merge, Node.ordB, List.map_append] at ha hb ⊢
      refine ordKeysB_glue ha hb hx ?_
      intro y hy
      cases lo with
      | none => simp [lowOkB]
      | some c =>
        have hane : kvs.map Prod.fst ≠ [] := by
          intro hz
          have := congrArg List.length hz
          simp only [List.length_map, List.length_nil] at this
          omega
        obtain ⟨z, hz, hzm⟩ := olast_some_mem (l := kvs.map Prod.fst) hane (some c)
        have hcz : c < z := ordKeysB_lower ha z hzm
        have hzx : z ≤ x := ordKeysB_upper ha z hzm
        simp only [lowOkB, decide_eq_true_eq]
        exact lt_trans hcz (lt_of_le_of_lt hzx hy)
    | internal _ => simp [SameKind] at hk
  | internal cs =>
    cases b with
    | leaf _ => simp [SameKind] at hk
    | internal rcs =>
      simp only [Node.Size] at hA
      have hne : cs ≠ [] := by
        intro hz
        rw [hz] at hA
        simp at hA
      simp only [Node.Merge, Node.ordB] at ha hb ⊢
      refine ordCsB_append.2 ⟨ordCsB_mono_hi ha ?_, ?_⟩
      · intro k hk2
        cases hi with
        | none => simp [hiOkB]
        | some bb =>
          have hxb : x ≤ bb := by simpa [hiOkB] using hx
          have hkx : k ≤ x := by simpa [hiOkB] using hk2
          simp only [hiOkB, decide_eq_true_eq]
          exact le_trans hkx hxb
      have holast := LastKey_internal_olastCs (K := K) (V := V) hne lo
      rw [holast]
      have hLK_mem : (Node.internal cs : Node K V).LastKey ∈ cs.map Prod.fst := by
        obtain ⟨y, hy, hym⟩ := olast_some_mem (l := cs.map Prod.fst)
          (by simpa using hne) lo
        rw [show olastCs cs lo = olast (cs.map Prod.fst) lo from rfl] at holast
        rw [holast] at hy
        cases hy
        exact hym
      have hLKx : (Node.internal cs : Node K V).LastKey ≤ x :=
        ordKeysB_upper (ordCsB_routing ha) _ hLK_mem
      refine ordCsB_mono_lo hb ?_ ?_
      · intro k hk2
        simp only [lowOkB, decide_eq_true_eq] at hk2 ⊢
        exact lt_of_le_of_lt hLKx hk2
      · intro c hc hco
        refine ordB_mono_lo _ _ _ hco ?_
        intro k hk2
        simp only [lowOkB, decide_eq_true_eq] at hk2 ⊢
        exact lt_of_le_of_lt hLKx hk2

end RemoveBase

end Treemap
